import Mathlib

/-!
# GDevelop Core: `EventsRefactorer`

A shallow embedding of `Core/GDCore/IDE/Events/EventsRefactorer.cpp` and the
properties of its rename / remove / replace / search operations.

Conventions of the embedding:

* a `gd::String` is a Lean `String`; the substring utilities work on its list of
  code points (`String.data`), positions are code point positions and
  `gd::String::npos` is `none`;
* a function that mutates its argument in place returns the new value next to
  its C++ result;
* `std::size_t` indices are natural numbers reduced modulo `2 ^ 64` where the
  source lets them wrap around.
-/

namespace gd

/-! ## Data model -/

/-- Modelled from the spec: the kind of a parameter, as given by the
`gd::ParameterMetadata` descriptor of an instruction parameter (the class is
declared outside this file). The spec lists the four kinds. -/
inductive ParameterKind where
  | ObjectReference
  | NumberExpression
  | StringExpression
  | Other
  deriving DecidableEq, Repr

/-- Modelled from the spec: `gd::ParameterMetadata::IsObject`, true exactly on
the object-reference kind. -/
def ParameterMetadata.IsObject (type : ParameterKind) : Bool :=
  type == ParameterKind.ObjectReference

/-- Modelled from the spec: `gd::ParameterMetadata::IsExpression(rootType, type)`:
with root type `"number"` it holds of number expressions, with root type
`"string"` of string expressions. -/
def ParameterMetadata.IsExpression (rootType : String) (type : ParameterKind) : Bool :=
  (rootType == "number" && type == ParameterKind.NumberExpression) ||
  (rootType == "string" && type == ParameterKind.StringExpression)

/-- Modelled from the spec: the variants of `gd::ExpressionNode` (declared in
`ExpressionParser2Node.h`). The fields read or written by the workers of this
file keep their source names (`leftHandSide`, `rightHandSide`, `factor`,
`expression`, `child`, `identifierName`, `objectName`, `parameters`); the other
payloads stand for what the node carries besides. -/
inductive ExpressionNode where
  | Operator (op : Char) (leftHandSide rightHandSide : ExpressionNode)
  | UnaryOperator (op : Char) (factor : ExpressionNode)
  | SubExpression (expression : ExpressionNode)
  | Variable (name : String) (child : Option ExpressionNode)
  | VariableAccessor (name : String) (child : Option ExpressionNode)
  | VariableBracketAccessor (expression : ExpressionNode) (child : Option ExpressionNode)
  | Identifier (identifierName : String)
  | ObjectFunctionName (objectName : String) (functionName : String)
  | FunctionCall (objectName : String) (functionName : String)
      (parameters : List ExpressionNode)
  | Text (text : String)
  | Number (number : String)
  | Empty

/-- An instruction (condition or action): `gd::Instruction`, with its type, its
parameters (the plain string of each `gd::Expression`) and its
sub-instructions. -/
inductive Instruction where
  | mk (type : String) (parameters : List String) (subInstructions : List Instruction)

/-- The type identifier: `Instruction::GetType`. -/
def Instruction.GetType : Instruction → String
  | .mk type _ _ => type

/-- The parameters: `Instruction::GetParameters`. -/
def Instruction.GetParameters : Instruction → List String
  | .mk _ parameters _ => parameters

/-- The nested list: `Instruction::GetSubInstructions`. -/
def Instruction.GetSubInstructions : Instruction → List Instruction
  | .mk _ _ subInstructions => subInstructions

/-- Modelled from the spec: `Instruction::GetParameter(pNb)` read on a list of
parameters. The owning data model guarantees the index; out of range, the model
reads the empty expression. -/
def GetParameter (parameters : List String) (pNb : Nat) : String :=
  parameters.getD pNb ""

/-- Modelled from the spec: `Instruction::SetParameter(pNb, value)` on a list of
parameters. The owning data model guarantees the index; out of range, the model
writes nothing. -/
def SetParameter (parameters : List String) (pNb : Nat) (value : String) : List String :=
  parameters.set pNb value

/-- An event: `gd::BaseEvent` seen through the accessors used by the
refactorer: `GetAllConditionsVectors`, `GetAllActionsVectors`,
`GetAllSearchableStrings`, `GetAllExpressionsWithMetadata`, `CanHaveSubEvents`
and `GetSubEvents`. -/
inductive BaseEvent where
  | mk (conditionsVectors : List (List Instruction))
      (actionsVectors : List (List Instruction))
      (searchableStrings : List String)
      (expressionsWithMetadata : List (String × ParameterKind))
      (canHaveSubEvents : Bool)
      (subEvents : List BaseEvent)

/-- The external collaborators of the refactorer: the metadata registry of the
platform, and, for the object containers passed along with it, the expression
validator, the type finder, the parser, the printer and the sentence
formatter. The type finder is given the root type and the identifier node. -/
structure Platform where
  /-- The parameter kinds of `MetadataProvider::GetActionMetadata(platform, type)`. -/
  GetActionMetadata : String → List ParameterKind
  /-- The parameter kinds of `MetadataProvider::GetConditionMetadata(platform, type)`. -/
  GetConditionMetadata : String → List ParameterKind
  /-- The validator `ExpressionValidator::HasNoErrors(..., rootType, node)`. -/
  HasNoErrors : String → ExpressionNode → Bool
  /-- The type finder `ExpressionTypeFinder::GetType(..., rootType, node)`. -/
  GetType : String → ExpressionNode → ParameterKind
  /-- The parser `Expression::GetRootNode` of a parameter text. -/
  GetRootNode : String → ExpressionNode
  /-- The printer `ExpressionParser2NodePrinter::PrintNode`. -/
  PrintNode : ExpressionNode → String
  /-- The formatter `InstructionSentenceFormatter::GetFullText(instruction, metadata)`. -/
  GetFullText : Instruction → List ParameterKind → String

/-! ## `ExpressionObjectRenamer` -/

namespace ExpressionObjectRenamer

mutual
/-- The worker `ExpressionObjectRenamer` visiting a node: the `OnVisit...`
methods, with the member `hasDoneRenaming` passed in and returned next to the
node as the visit leaves it. -/
def Visit (platform : Platform) (rootType objectName objectNewName : String) :
    ExpressionNode → Bool → Bool × ExpressionNode
  | .SubExpression expression, hasDoneRenaming =>
    let r := Visit platform rootType objectName objectNewName expression hasDoneRenaming
    (r.1, .SubExpression r.2)
  | .Operator op leftHandSide rightHandSide, hasDoneRenaming =>
    let l := Visit platform rootType objectName objectNewName leftHandSide hasDoneRenaming
    let r := Visit platform rootType objectName objectNewName rightHandSide l.1
    (r.1, .Operator op l.2 r.2)
  | .UnaryOperator op factor, hasDoneRenaming =>
    let r := Visit platform rootType objectName objectNewName factor hasDoneRenaming
    (r.1, .UnaryOperator op r.2)
  | .Number number, hasDoneRenaming => (hasDoneRenaming, .Number number)
  | .Text text, hasDoneRenaming => (hasDoneRenaming, .Text text)
  | .Variable name child, hasDoneRenaming =>
    let c := VisitChild platform rootType objectName objectNewName child hasDoneRenaming
    (c.1, .Variable name c.2)
  | .VariableAccessor name child, hasDoneRenaming =>
    let c := VisitChild platform rootType objectName objectNewName child hasDoneRenaming
    (c.1, .VariableAccessor name c.2)
  | .VariableBracketAccessor expression child, hasDoneRenaming =>
    let e := Visit platform rootType objectName objectNewName expression hasDoneRenaming
    let c := VisitChild platform rootType objectName objectNewName child e.1
    (c.1, .VariableBracketAccessor e.2 c.2)
  | .Identifier identifierName, hasDoneRenaming =>
    let type := platform.GetType rootType (.Identifier identifierName)
    if ParameterMetadata.IsObject type && identifierName == objectName then
      (true, .Identifier objectNewName)
    else (hasDoneRenaming, .Identifier identifierName)
  | .ObjectFunctionName nodeObjectName functionName, hasDoneRenaming =>
    if nodeObjectName == objectName then
      (true, .ObjectFunctionName objectNewName functionName)
    else (hasDoneRenaming, .ObjectFunctionName nodeObjectName functionName)
  | .FunctionCall nodeObjectName functionName parameters, hasDoneRenaming =>
    let own : Bool × String :=
      if nodeObjectName == objectName then (true, objectNewName)
      else (hasDoneRenaming, nodeObjectName)
    let ps := VisitParameters platform rootType objectName objectNewName parameters own.1
    (ps.1, .FunctionCall own.2 functionName ps.2)
  | .Empty, hasDoneRenaming => (hasDoneRenaming, .Empty)
/-- The guarded visit `if (node.child) node.child->Visit(*this)`. -/
def VisitChild (platform : Platform) (rootType objectName objectNewName : String) :
    Option ExpressionNode → Bool → Bool × Option ExpressionNode
  | none, hasDoneRenaming => (hasDoneRenaming, none)
  | some child, hasDoneRenaming =>
    let r := Visit platform rootType objectName objectNewName child hasDoneRenaming
    (r.1, some r.2)
/-- The loop `for (auto& parameter : node.parameters) parameter->Visit(*this)`. -/
def VisitParameters (platform : Platform) (rootType objectName objectNewName : String) :
    List ExpressionNode → Bool → Bool × List ExpressionNode
  | [], hasDoneRenaming => (hasDoneRenaming, [])
  | parameter :: rest, hasDoneRenaming =>
    let r := Visit platform rootType objectName objectNewName parameter hasDoneRenaming
    let rs := VisitParameters platform rootType objectName objectNewName rest r.1
    (rs.1, r.2 :: rs.2)
end

/-- Translation of `ExpressionObjectRenamer::Rename`: the result and the node
after the call. -/
def Rename (platform : Platform) (rootType : String) (node : ExpressionNode)
    (objectName objectNewName : String) : Bool × ExpressionNode :=
  if platform.HasNoErrors rootType node then
    Visit platform rootType objectName objectNewName node false
  else (false, node)

end ExpressionObjectRenamer

/-! ## `ExpressionObjectFinder` -/

namespace ExpressionObjectFinder

mutual
/-- The worker `ExpressionObjectFinder` visiting a node: the `OnVisit...`
methods, with the member `hasObject` passed in and returned. No method of the
worker writes to a node. -/
def Visit (platform : Platform) (rootType objectName : String) :
    ExpressionNode → Bool → Bool
  | .SubExpression expression, hasObject =>
    Visit platform rootType objectName expression hasObject
  | .Operator _ leftHandSide rightHandSide, hasObject =>
    Visit platform rootType objectName rightHandSide
      (Visit platform rootType objectName leftHandSide hasObject)
  | .UnaryOperator _ factor, hasObject =>
    Visit platform rootType objectName factor hasObject
  | .Number _, hasObject => hasObject
  | .Text _, hasObject => hasObject
  | .Variable _ child, hasObject => VisitChild platform rootType objectName child hasObject
  | .VariableAccessor _ child, hasObject =>
    VisitChild platform rootType objectName child hasObject
  | .VariableBracketAccessor expression child, hasObject =>
    VisitChild platform rootType objectName child
      (Visit platform rootType objectName expression hasObject)
  | .Identifier identifierName, hasObject =>
    let type := platform.GetType rootType (.Identifier identifierName)
    if ParameterMetadata.IsObject type && identifierName == objectName then true
    else hasObject
  | .ObjectFunctionName nodeObjectName _, hasObject =>
    if nodeObjectName == objectName then true else hasObject
  | .FunctionCall nodeObjectName _ parameters, hasObject =>
    VisitParameters platform rootType objectName parameters
      (if nodeObjectName == objectName then true else hasObject)
  | .Empty, hasObject => hasObject
/-- The guarded visit `if (node.child) node.child->Visit(*this)`. -/
def VisitChild (platform : Platform) (rootType objectName : String) :
    Option ExpressionNode → Bool → Bool
  | none, hasObject => hasObject
  | some child, hasObject => Visit platform rootType objectName child hasObject
/-- The loop `for (auto& parameter : node.parameters) parameter->Visit(*this)`. -/
def VisitParameters (platform : Platform) (rootType objectName : String) :
    List ExpressionNode → Bool → Bool
  | [], hasObject => hasObject
  | parameter :: rest, hasObject =>
    VisitParameters platform rootType objectName rest
      (Visit platform rootType objectName parameter hasObject)
end

/-- Translation of `ExpressionObjectFinder::CheckIfHasObject`. -/
def CheckIfHasObject (platform : Platform) (rootType : String) (node : ExpressionNode)
    (objectName : String) : Bool :=
  if platform.HasNoErrors rootType node then
    Visit platform rootType objectName node false
  else false

end ExpressionObjectFinder

/-! ## Renaming an object in instructions -/

namespace EventsRefactorer

/-- The body of the parameter loop of `RenameObjectInActions` and
`RenameObjectInConditions` for the parameter `pNb`, whose metadata has kind
`type`: the `if` / `else if` chain, on the parameters of the instruction. -/
def RenameObjectInParameter (platform : Platform) (oldName newName : String)
    (type : ParameterKind) (pNb : Nat) (parameters : List String) : List String :=
  if ParameterMetadata.IsObject type && GetParameter parameters pNb == oldName then
    SetParameter parameters pNb newName
  else if ParameterMetadata.IsExpression "number" type then
    let node := platform.GetRootNode (GetParameter parameters pNb)
    let renamed := ExpressionObjectRenamer.Rename platform "number" node oldName newName
    if renamed.1 then SetParameter parameters pNb (platform.PrintNode renamed.2)
    else parameters
  else if ParameterMetadata.IsExpression "string" type then
    let node := platform.GetRootNode (GetParameter parameters pNb)
    let renamed := ExpressionObjectRenamer.Rename platform "string" node oldName newName
    if renamed.1 then SetParameter parameters pNb (platform.PrintNode renamed.2)
    else parameters
  else parameters

/-- The loop `for (pNb = 0; pNb < instrInfos.parameters.size(); ++pNb)` of the
rename, from index `pNb` on; the first argument holds the metadata of the
parameters not visited yet. -/
def RenameObjectInParameters (platform : Platform) (oldName newName : String) :
    List ParameterKind → Nat → List String → List String
  | [], _, parameters => parameters
  | type :: rest, pNb, parameters =>
    RenameObjectInParameters platform oldName newName rest (pNb + 1)
      (RenameObjectInParameter platform oldName newName type pNb parameters)

mutual
/-- The body of the loop over the instructions shared by
`RenameObjectInActions` and `RenameObjectInConditions`, which differ only by the
metadata they look up (`GetMetadata`): the parameter loop, then the recursion
into non-empty sub-instructions. The instruction and `somethingModified` go
in, and come out as the body leaves them. -/
def RenameObjectInInstruction (platform : Platform)
    (GetMetadata : String → List ParameterKind) (oldName newName : String) :
    Instruction → Bool → Bool × Instruction
  | .mk type parameters subInstructions, somethingModified =>
    let parameters1 :=
      RenameObjectInParameters platform oldName newName (GetMetadata type) 0 parameters
    let sub : Bool × List Instruction :=
      if !subInstructions.isEmpty then
        let r := RenameObjectInInstructions platform GetMetadata oldName newName
          subInstructions false
        (r.1 || somethingModified, r.2)
      else (somethingModified, subInstructions)
    (sub.1, .mk type parameters1 sub.2)
/-- The loop `for (aId = 0; aId < actions.size(); ++aId)` of the rename: the
instructions left to visit and `somethingModified` go in, the result and the
instructions after the loop come out. -/
def RenameObjectInInstructions (platform : Platform)
    (GetMetadata : String → List ParameterKind) (oldName newName : String) :
    List Instruction → Bool → Bool × List Instruction
  | [], somethingModified => (somethingModified, [])
  | instruction :: rest, somethingModified =>
    let body := RenameObjectInInstruction platform GetMetadata oldName newName instruction
      somethingModified
    let r := RenameObjectInInstructions platform GetMetadata oldName newName rest body.1
    (r.1, body.2 :: r.2)
end

/-- Translation of `EventsRefactorer::RenameObjectInActions`: the returned
`somethingModified` and the actions after the call. -/
def RenameObjectInActions (platform : Platform) (actions : List Instruction)
    (oldName newName : String) : Bool × List Instruction :=
  RenameObjectInInstructions platform platform.GetActionMetadata oldName newName actions false

/-- Translation of `EventsRefactorer::RenameObjectInConditions`: the returned
`somethingModified` and the conditions after the call. -/
def RenameObjectInConditions (platform : Platform) (conditions : List Instruction)
    (oldName newName : String) : Bool × List Instruction :=
  RenameObjectInInstructions platform platform.GetConditionMetadata oldName newName
    conditions false

end EventsRefactorer

open EventsRefactorer

/-! ## Specification vocabulary for expression trees -/

/-- A node names the object `objectName` for the renamer and the finder: a
function call or an object function name whose object is `objectName`, or an
identifier equal to `objectName` whose inferred type is an object kind. -/
def IsMatchingNode (platform : Platform) (rootType objectName : String) :
    ExpressionNode → Bool
  | .FunctionCall nodeObjectName _ _ => nodeObjectName == objectName
  | .ObjectFunctionName nodeObjectName _ => nodeObjectName == objectName
  | .Identifier identifierName =>
    ParameterMetadata.IsObject (platform.GetType rootType (.Identifier identifierName)) &&
      identifierName == objectName
  | _ => false

mutual
/-- The tree contains at least one matching node, at any depth. -/
def ContainsMatchingNode (platform : Platform) (rootType objectName : String) :
    ExpressionNode → Bool
  | .Operator _ leftHandSide rightHandSide =>
    ContainsMatchingNode platform rootType objectName leftHandSide ||
      ContainsMatchingNode platform rootType objectName rightHandSide
  | .UnaryOperator _ factor => ContainsMatchingNode platform rootType objectName factor
  | .SubExpression expression => ContainsMatchingNode platform rootType objectName expression
  | .Variable _ child => ChildContainsMatchingNode platform rootType objectName child
  | .VariableAccessor _ child => ChildContainsMatchingNode platform rootType objectName child
  | .VariableBracketAccessor expression child =>
    ContainsMatchingNode platform rootType objectName expression ||
      ChildContainsMatchingNode platform rootType objectName child
  | .Identifier identifierName =>
    IsMatchingNode platform rootType objectName (.Identifier identifierName)
  | .ObjectFunctionName nodeObjectName functionName =>
    IsMatchingNode platform rootType objectName (.ObjectFunctionName nodeObjectName functionName)
  | .FunctionCall nodeObjectName functionName parameters =>
    IsMatchingNode platform rootType objectName
        (.FunctionCall nodeObjectName functionName parameters) ||
      ParametersContainMatchingNode platform rootType objectName parameters
  | .Text _ => false
  | .Number _ => false
  | .Empty => false
/-- The optional child contains a matching node. -/
def ChildContainsMatchingNode (platform : Platform) (rootType objectName : String) :
    Option ExpressionNode → Bool
  | none => false
  | some child => ContainsMatchingNode platform rootType objectName child
/-- One of the call parameters contains a matching node. -/
def ParametersContainMatchingNode (platform : Platform) (rootType objectName : String) :
    List ExpressionNode → Bool
  | [] => false
  | parameter :: rest =>
    ContainsMatchingNode platform rootType objectName parameter ||
      ParametersContainMatchingNode platform rootType objectName rest
end

/-- The name a node carries after a rename: the new name when the node matches,
its own name otherwise. -/
def RenamedName (isMatching : Bool) (name objectNewName : String) : String :=
  if isMatching then objectNewName else name

mutual
/-- The tree in which exactly the matching nodes have their name replaced by
`objectNewName`, everything else being kept. -/
def RenameMatchingNodes (platform : Platform) (rootType objectName objectNewName : String) :
    ExpressionNode → ExpressionNode
  | .Operator op leftHandSide rightHandSide =>
    .Operator op (RenameMatchingNodes platform rootType objectName objectNewName leftHandSide)
      (RenameMatchingNodes platform rootType objectName objectNewName rightHandSide)
  | .UnaryOperator op factor =>
    .UnaryOperator op (RenameMatchingNodes platform rootType objectName objectNewName factor)
  | .SubExpression expression =>
    .SubExpression (RenameMatchingNodes platform rootType objectName objectNewName expression)
  | .Variable name child =>
    .Variable name (RenameMatchingChild platform rootType objectName objectNewName child)
  | .VariableAccessor name child =>
    .VariableAccessor name (RenameMatchingChild platform rootType objectName objectNewName child)
  | .VariableBracketAccessor expression child =>
    .VariableBracketAccessor
      (RenameMatchingNodes platform rootType objectName objectNewName expression)
      (RenameMatchingChild platform rootType objectName objectNewName child)
  | .Identifier identifierName =>
    .Identifier (RenamedName
      (IsMatchingNode platform rootType objectName (.Identifier identifierName))
      identifierName objectNewName)
  | .ObjectFunctionName nodeObjectName functionName =>
    .ObjectFunctionName (RenamedName
      (IsMatchingNode platform rootType objectName
        (.ObjectFunctionName nodeObjectName functionName))
      nodeObjectName objectNewName) functionName
  | .FunctionCall nodeObjectName functionName parameters =>
    .FunctionCall (RenamedName
      (IsMatchingNode platform rootType objectName
        (.FunctionCall nodeObjectName functionName parameters))
      nodeObjectName objectNewName) functionName
      (RenameMatchingParameters platform rootType objectName objectNewName parameters)
  | .Text text => .Text text
  | .Number number => .Number number
  | .Empty => .Empty
/-- The optional child, renamed likewise. -/
def RenameMatchingChild (platform : Platform) (rootType objectName objectNewName : String) :
    Option ExpressionNode → Option ExpressionNode
  | none => none
  | some child => some (RenameMatchingNodes platform rootType objectName objectNewName child)
/-- The call parameters, renamed likewise. -/
def RenameMatchingParameters (platform : Platform)
    (rootType objectName objectNewName : String) :
    List ExpressionNode → List ExpressionNode
  | [] => []
  | parameter :: rest =>
    RenameMatchingNodes platform rootType objectName objectNewName parameter ::
      RenameMatchingParameters platform rootType objectName objectNewName rest
end

mutual
/-- All the nodes of a tree, the root first. -/
def Nodes : ExpressionNode → List ExpressionNode
  | .Operator op leftHandSide rightHandSide =>
    .Operator op leftHandSide rightHandSide :: (Nodes leftHandSide ++ Nodes rightHandSide)
  | .UnaryOperator op factor => .UnaryOperator op factor :: Nodes factor
  | .SubExpression expression => .SubExpression expression :: Nodes expression
  | .Variable name child => .Variable name child :: ChildNodes child
  | .VariableAccessor name child => .VariableAccessor name child :: ChildNodes child
  | .VariableBracketAccessor expression child =>
    .VariableBracketAccessor expression child :: (Nodes expression ++ ChildNodes child)
  | .Identifier identifierName => [.Identifier identifierName]
  | .ObjectFunctionName nodeObjectName functionName =>
    [.ObjectFunctionName nodeObjectName functionName]
  | .FunctionCall nodeObjectName functionName parameters =>
    .FunctionCall nodeObjectName functionName parameters :: ParametersNodes parameters
  | .Text text => [.Text text]
  | .Number number => [.Number number]
  | .Empty => [.Empty]
/-- All the nodes under an optional child. -/
def ChildNodes : Option ExpressionNode → List ExpressionNode
  | none => []
  | some child => Nodes child
/-- All the nodes under the parameters of a call. -/
def ParametersNodes : List ExpressionNode → List ExpressionNode
  | [] => []
  | parameter :: rest => Nodes parameter ++ ParametersNodes rest
end

mutual
/-- The rename frame between a tree and the tree after a rename of
`objectName`: same variant and same payload at every node, same children up to
the frame, the same number of call parameters, and the name of a node kept
whenever the node is an identifier whose inferred type is not an object kind or
the name differs from `objectName`. -/
def RenameFrame (platform : Platform) (rootType objectName : String) :
    ExpressionNode → ExpressionNode → Prop
  | .Operator op leftHandSide rightHandSide, after =>
    ∃ l r, after = .Operator op l r ∧
      RenameFrame platform rootType objectName leftHandSide l ∧
      RenameFrame platform rootType objectName rightHandSide r
  | .UnaryOperator op factor, after =>
    ∃ f, after = .UnaryOperator op f ∧ RenameFrame platform rootType objectName factor f
  | .SubExpression expression, after =>
    ∃ e, after = .SubExpression e ∧ RenameFrame platform rootType objectName expression e
  | .Variable name child, after =>
    ∃ c, after = .Variable name c ∧ RenameFrameChild platform rootType objectName child c
  | .VariableAccessor name child, after =>
    ∃ c, after = .VariableAccessor name c ∧
      RenameFrameChild platform rootType objectName child c
  | .VariableBracketAccessor expression child, after =>
    ∃ e c, after = .VariableBracketAccessor e c ∧
      RenameFrame platform rootType objectName expression e ∧
      RenameFrameChild platform rootType objectName child c
  | .Identifier identifierName, after =>
    ∃ name, after = .Identifier name ∧
      (ParameterMetadata.IsObject (platform.GetType rootType (.Identifier identifierName))
        = false → name = identifierName) ∧
      (identifierName ≠ objectName → name = identifierName)
  | .ObjectFunctionName nodeObjectName functionName, after =>
    ∃ name, after = .ObjectFunctionName name functionName ∧
      (nodeObjectName ≠ objectName → name = nodeObjectName)
  | .FunctionCall nodeObjectName functionName parameters, after =>
    ∃ name ps, after = .FunctionCall name functionName ps ∧
      (nodeObjectName ≠ objectName → name = nodeObjectName) ∧
      ps.length = parameters.length ∧
      RenameFrameParameters platform rootType objectName parameters ps
  | .Text text, after => after = .Text text
  | .Number number, after => after = .Number number
  | .Empty, after => after = .Empty
/-- The rename frame between optional children: both absent, or both present
and in the frame. -/
def RenameFrameChild (platform : Platform) (rootType objectName : String) :
    Option ExpressionNode → Option ExpressionNode → Prop
  | none, after => after = none
  | some child, after =>
    ∃ c, after = some c ∧ RenameFrame platform rootType objectName child c
/-- The rename frame between call parameters, position by position. -/
def RenameFrameParameters (platform : Platform) (rootType objectName : String) :
    List ExpressionNode → List ExpressionNode → Prop
  | [], after => after = []
  | parameter :: rest, after =>
    ∃ p ps, after = p :: ps ∧ RenameFrame platform rootType objectName parameter p ∧
      RenameFrameParameters platform rootType objectName rest ps
end

/-! ## Specification vocabulary for instruction lists -/

/-- The instruction list reached from `instructions` by following `path`: each
index of the path selects an instruction, whose sub-instructions are entered.
The empty path is the list itself. -/
def SubInstructionsAt : List Instruction → List Nat → Option (List Instruction)
  | instructions, [] => some instructions
  | instructions, index :: path =>
    match instructions[index]? with
    | some instruction => SubInstructionsAt instruction.GetSubInstructions path
    | none => none

/-- The instruction at position `index` of the list reached by `path`: any
instruction, at any nesting depth. -/
def InstructionAt (instructions : List Instruction) (path : List Nat) (index : Nat) :
    Option Instruction :=
  match SubInstructionsAt instructions path with
  | some list => list[index]?
  | none => none

/-- The text a parameter of kind `type` holds after the rename, from the text it
held before: the `if` / `else if` chain of the parameter loop read on one
parameter. -/
def RenamedParameter (platform : Platform) (oldName newName : String)
    (type : ParameterKind) (text : String) : String :=
  if ParameterMetadata.IsObject type && text == oldName then newName
  else if ParameterMetadata.IsExpression "number" type then
    let renamed := ExpressionObjectRenamer.Rename platform "number"
      (platform.GetRootNode text) oldName newName
    if renamed.1 then platform.PrintNode renamed.2 else text
  else if ParameterMetadata.IsExpression "string" type then
    let renamed := ExpressionObjectRenamer.Rename platform "string"
      (platform.GetRootNode text) oldName newName
    if renamed.1 then platform.PrintNode renamed.2 else text
  else text

mutual
/-- The instruction whose parameters, and those of its sub-instructions at
every depth, have been run through the parameter loop of the rename. -/
def RenamedInstruction (platform : Platform) (GetMetadata : String → List ParameterKind)
    (oldName newName : String) : Instruction → Instruction
  | .mk type parameters subInstructions =>
    .mk type (RenameObjectInParameters platform oldName newName (GetMetadata type) 0 parameters)
      (RenamedInstructions platform GetMetadata oldName newName subInstructions)
/-- The instruction list in which every instruction, at every depth, has had
its parameters run through the parameter loop of the rename. -/
def RenamedInstructions (platform : Platform) (GetMetadata : String → List ParameterKind)
    (oldName newName : String) : List Instruction → List Instruction
  | [] => []
  | instruction :: rest =>
    RenamedInstruction platform GetMetadata oldName newName instruction ::
      RenamedInstructions platform GetMetadata oldName newName rest
end

/-! ## Scenarios -/

/-- A small platform for the scenarios: three action types and two condition
types, a parser and a printer that know a few expressions, a validator that
rejects what the parser does not know and the calls of the function `Unknown`,
and a type finder for which every
identifier is an object. -/
def scenarioPlatform : Platform where
  GetActionMetadata := fun type =>
    if type == "Delete" then [ParameterKind.ObjectReference]
    else if type == "SetX" then [ParameterKind.ObjectReference, ParameterKind.NumberExpression]
    else if type == "SetText" then
      [ParameterKind.ObjectReference, ParameterKind.StringExpression]
    else []
  GetConditionMetadata := fun type =>
    if type == "Collision" then [ParameterKind.ObjectReference, ParameterKind.ObjectReference]
    else if type == "CompareText" then [ParameterKind.StringExpression]
    else []
  HasNoErrors := fun _ node =>
    match node with
    | .Empty => false
    | .FunctionCall _ functionName _ => functionName != "Unknown"
    | _ => true
  GetType := fun _ _ => ParameterKind.ObjectReference
  GetRootNode := fun text =>
    if text == "Player.X()" then .FunctionCall "Player" "X" []
    else if text == "Hero.X()" then .FunctionCall "Hero" "X" []
    else if text == "Player.Name()" then .FunctionCall "Player" "Name" []
    else if text == "Player.Unknown()" then .FunctionCall "Player" "Unknown" []
    else if text == "\"Player\" + 1" then .Operator '+' (.Text "Player") (.Number "1")
    else if text == "\"Player\"" then .Text "Player"
    else if text == "1" then .Number "1"
    else .Empty
  PrintNode := fun node =>
    match node with
    | .FunctionCall objectName functionName [] => objectName ++ "." ++ functionName ++ "()"
    | .Text text => "\"" ++ text ++ "\""
    | .Number number => number
    | _ => ""
  GetFullText := fun instruction _ => instruction.GetType

/-! ## Substring utilities of `gd::String` -/

namespace GdString

/-- Modelled from the spec: the case folding of a code point used by the
case-insensitive search (the folding of `gd::String` is not in this file). -/
def CaseFold (c : Char) : Char := c.toLower

/-- Equality of code points up to case. -/
def EqualsCaseInsensitive (a b : Char) : Bool := CaseFold a == CaseFold b

/-- The text `search` occurs at the very start of `context`, code points being
compared with `equals`. -/
def StartsWith (equals : Char → Char → Bool) : List Char → List Char → Bool
  | [], _ => true
  | _ :: _, [] => false
  | s :: search, c :: context => equals s c && StartsWith equals search context

/-- The first position at which `search` occurs in `context`, where `context`
is the text from position `pos` on; `none` is `npos`. -/
def FindFrom (equals : Char → Char → Bool) (search : List Char) :
    List Char → Nat → Option Nat
  | [], pos => if search.isEmpty then some pos else none
  | c :: context, pos =>
    if StartsWith equals search (c :: context) then some pos
    else FindFrom equals search context (pos + 1)

/-- Modelled from the spec: `gd::String::find(search, pos)`, the first position
not before `pos` at which `search` occurs, `none` for `npos`. -/
def find (context search : List Char) (pos : Nat) : Option Nat :=
  if pos ≤ context.length then FindFrom (fun a b => a == b) search (context.drop pos) pos
  else none

/-- Modelled from the spec: `gd::String::FindCaseInsensitive(search, pos)`, the
first position not before `pos` at which `search` occurs up to case, `none` for
`npos`. -/
def FindCaseInsensitive (context search : List Char) (pos : Nat) : Option Nat :=
  if pos ≤ context.length then
    FindFrom EqualsCaseInsensitive search (context.drop pos) pos
  else none

/-- Modelled from the spec: `gd::String::replace(pos, len, str)`, which puts
`str` in place of the `len` code points from position `pos`. -/
def replace (context : List Char) (pos len : Nat) (str : List Char) : List Char :=
  context.take pos ++ str ++ context.drop (pos + len)

end GdString

/-- The `while` loop of `ReplaceAllOccurrencesCaseInsensitive` on the state
`context`, `lookHere`. Each unit of fuel pays for one evaluation of the loop
condition; `none` when the fuel runs out before the loop exits. -/
def ReplaceAllOccurrencesCaseInsensitiveLoop (fromText toText : List Char) :
    Nat → List Char → Nat → Option (List Char)
  | 0, _, _ => none
  | fuel + 1, context, lookHere =>
    match GdString.FindCaseInsensitive context fromText lookHere with
    | none => some context
    | some foundHere =>
      ReplaceAllOccurrencesCaseInsensitiveLoop fromText toText fuel
        (GdString.replace context foundHere fromText.length toText)
        (foundHere + toText.length)

/-- Translation of `ReplaceAllOccurrencesCaseInsensitive(context, from, to)`.
The loop is given one unit of fuel more than `context` has code points. -/
def ReplaceAllOccurrencesCaseInsensitive (context fromText toText : String) :
    Option String :=
  (ReplaceAllOccurrencesCaseInsensitiveLoop fromText.data toText.data
    (context.data.length + 1) context.data 0).map String.mk

/-- The single left-to-right pass that replaces the leftmost non-overlapping
occurrences of `fromText` by `toText`; `skip` counts the code points of the
occurrence just replaced that are still to be dropped. -/
def ReplaceLeftmostOccurrences (equals : Char → Char → Bool) (fromText toText : List Char) :
    Nat → List Char → List Char
  | _, [] => []
  | skip + 1, _ :: context => ReplaceLeftmostOccurrences equals fromText toText skip context
  | 0, c :: context =>
    if GdString.StartsWith equals fromText (c :: context) then
      toText ++ ReplaceLeftmostOccurrences equals fromText toText (fromText.length - 1) context
    else c :: ReplaceLeftmostOccurrences equals fromText toText 0 context

/-- The number of leftmost non-overlapping occurrences of `fromText`, counted
by the same left-to-right pass. -/
def CountLeftmostOccurrences (equals : Char → Char → Bool) (fromText : List Char) :
    Nat → List Char → Nat
  | _, [] => 0
  | skip + 1, _ :: context => CountLeftmostOccurrences equals fromText skip context
  | 0, c :: context =>
    if GdString.StartsWith equals fromText (c :: context) then
      1 + CountLeftmostOccurrences equals fromText (fromText.length - 1) context
    else CountLeftmostOccurrences equals fromText 0 context

/-! ## Removing an object from instructions -/

namespace EventsRefactorer

/-- The decrement `aId--` of a `std::size_t`, which wraps around at zero. -/
def SizeDecrement (index : Nat) : Nat := (index + 2 ^ 64 - 1) % 2 ^ 64

/-- The increment `++aId` of a `std::size_t`. -/
def SizeIncrement (index : Nat) : Nat := (index + 1) % 2 ^ 64

/-- The parameter loop of `RemoveObjectInActions` and `RemoveObjectInConditions`,
from index `pNb` on, the first argument holding the metadata of the parameters
not visited yet: the value of `deleteMe` when the loop is left, by `break` or at
its end. -/
def RemoveObjectScanParameters (platform : Platform) (name : String) :
    List ParameterKind → Nat → List String → Bool
  | [], _, _ => false
  | type :: rest, pNb, parameters =>
    if ParameterMetadata.IsObject type && GetParameter parameters pNb == name then true
    else if ParameterMetadata.IsExpression "number" type then
      let node := platform.GetRootNode (GetParameter parameters pNb)
      if ExpressionObjectFinder.CheckIfHasObject platform "number" node name then true
      else RemoveObjectScanParameters platform name rest (pNb + 1) parameters
    else if ParameterMetadata.IsExpression "string" type then
      let node := platform.GetRootNode (GetParameter parameters pNb)
      if ExpressionObjectFinder.CheckIfHasObject platform "string" node name then true
      else RemoveObjectScanParameters platform name rest (pNb + 1) parameters
    else RemoveObjectScanParameters platform name rest (pNb + 1) parameters

/-- The loop `for (aId = 0; aId < actions.size(); ++aId)` of the removal, shared
by `RemoveObjectInActions` and `RemoveObjectInConditions` (which differ by the
metadata they look up), on the state `actions`, `aId`, `somethingModified`.
`actions[aId]?` is `none` exactly when the loop condition fails. `recurse` is
the recursive call on a list of sub-instructions. Each unit of fuel pays for one
evaluation of the loop condition; `none` when the fuel runs out, or when a
recursive call returns `none`. -/
def RemoveObjectInInstructionsLoop (platform : Platform)
    (GetMetadata : String → List ParameterKind) (name : String)
    (recurse : List Instruction → Option (Bool × List Instruction)) :
    Nat → List Instruction → Nat → Bool → Option (Bool × List Instruction)
  | 0, _, _, _ => none
  | fuel + 1, actions, aId, somethingModified =>
    match actions[aId]? with
    | none => some (somethingModified, actions)
    | some instruction =>
      let deleteMe := RemoveObjectScanParameters platform name
        (GetMetadata instruction.GetType) 0 instruction.GetParameters
      if deleteMe then
        RemoveObjectInInstructionsLoop platform GetMetadata name recurse fuel
          (actions.eraseIdx aId) (SizeIncrement (SizeDecrement aId)) true
      else if !instruction.GetSubInstructions.isEmpty then
        match recurse instruction.GetSubInstructions with
        | none => none
        | some r =>
          RemoveObjectInInstructionsLoop platform GetMetadata name recurse fuel
            (actions.set aId
              (Instruction.mk instruction.GetType instruction.GetParameters r.2))
            (SizeIncrement aId) (r.1 || somethingModified)
      else
        RemoveObjectInInstructionsLoop platform GetMetadata name recurse fuel actions
          (SizeIncrement aId) somethingModified

/-- The removal with a bound on the depth of the recursive calls: a call runs
the loop from `aId = 0` and `somethingModified = false`, with one unit of fuel
more than the list has instructions, its recursive calls having one level
less. -/
def RemoveObjectInInstructionsDepth (platform : Platform)
    (GetMetadata : String → List ParameterKind) (name : String) :
    Nat → List Instruction → Option (Bool × List Instruction)
  | 0, _ => none
  | depth + 1, actions =>
    RemoveObjectInInstructionsLoop platform GetMetadata name
      (RemoveObjectInInstructionsDepth platform GetMetadata name depth)
      (actions.length + 1) actions 0 false

mutual
/-- The number of nested calls that the sub-instructions of an instruction
ask for. -/
def InstructionCallDepth : Instruction → Nat
  | .mk _ _ subInstructions => InstructionsCallDepth subInstructions
/-- The number of nested calls that a recursive traversal of the list asks
for: one more than the deepest of its instructions. -/
def InstructionsCallDepth : List Instruction → Nat
  | [] => 1
  | instruction :: rest =>
    max (InstructionCallDepth instruction + 1) (InstructionsCallDepth rest)
end

/-- Translation of `EventsRefactorer::RemoveObjectInActions`: the returned
`somethingModified` and the actions after the call, the depth of the recursion
being that of the list. -/
def RemoveObjectInActions (platform : Platform) (actions : List Instruction)
    (name : String) : Option (Bool × List Instruction) :=
  RemoveObjectInInstructionsDepth platform platform.GetActionMetadata name
    (InstructionsCallDepth actions) actions

/-- Translation of `EventsRefactorer::RemoveObjectInConditions`: the returned
`somethingModified` and the conditions after the call, the depth of the
recursion being that of the list. -/
def RemoveObjectInConditions (platform : Platform) (conditions : List Instruction)
    (name : String) : Option (Bool × List Instruction) :=
  RemoveObjectInInstructionsDepth platform platform.GetConditionMetadata name
    (InstructionsCallDepth conditions) conditions

end EventsRefactorer

/-! ## Specification vocabulary for the removal -/

/-- A parameter of kind `type` and text `text` references the object `name`: an
object reference equal to `name`, or a number or string expression whose tree
the finder reports as using `name`. -/
def ParameterReferences (platform : Platform) (name : String) :
    ParameterKind → String → Bool
  | .ObjectReference, text => text == name
  | .NumberExpression, text =>
    ExpressionObjectFinder.CheckIfHasObject platform "number" (platform.GetRootNode text) name
  | .StringExpression, text =>
    ExpressionObjectFinder.CheckIfHasObject platform "string" (platform.GetRootNode text) name
  | .Other, _ => false

/-- An instruction is referencing when some parameter within the parameter
count of its metadata references `name`. -/
def IsReferencing (platform : Platform) (GetMetadata : String → List ParameterKind)
    (name : String) (instruction : Instruction) : Bool :=
  ((GetMetadata instruction.GetType).enum).any (fun entry =>
    ParameterReferences platform name entry.2 (GetParameter instruction.GetParameters entry.1))

mutual
/-- A surviving instruction after the removal: its sub-instructions are
processed in the same way. -/
def RemovedInInstruction (platform : Platform) (GetMetadata : String → List ParameterKind)
    (name : String) : Instruction → Instruction
  | .mk type parameters subInstructions =>
    .mk type parameters (RemovedInInstructions platform GetMetadata name subInstructions)
/-- The list after the removal, as the specification words it: the referencing
instructions are dropped with all their sub-instructions, the others are kept in
order, their sub-instructions being processed recursively. -/
def RemovedInInstructions (platform : Platform) (GetMetadata : String → List ParameterKind)
    (name : String) : List Instruction → List Instruction
  | [] => []
  | instruction :: rest =>
    if IsReferencing platform GetMetadata name instruction then
      RemovedInInstructions platform GetMetadata name rest
    else
      RemovedInInstruction platform GetMetadata name instruction ::
        RemovedInInstructions platform GetMetadata name rest
end

mutual
/-- Something is removed below a surviving instruction. -/
def RemovesBelow (platform : Platform) (GetMetadata : String → List ParameterKind)
    (name : String) : Instruction → Bool
  | .mk _ _ subInstructions => RemovesIn platform GetMetadata name subInstructions
/-- Something is removed at this level or below: an instruction of the list is
referencing, or something is removed below a surviving one. -/
def RemovesIn (platform : Platform) (GetMetadata : String → List ParameterKind)
    (name : String) : List Instruction → Bool
  | [] => false
  | instruction :: rest =>
    (IsReferencing platform GetMetadata name instruction ||
      RemovesBelow platform GetMetadata name instruction) ||
    RemovesIn platform GetMetadata name rest
end

mutual
/-- The number of instructions under an instruction, itself included. -/
def Instruction.Count : Instruction → Nat
  | .mk _ _ subInstructions => 1 + InstructionsCount subInstructions
/-- The number of instructions of a list, at all depths. -/
def InstructionsCount : List Instruction → Nat
  | [] => 0
  | instruction :: rest => instruction.Count + InstructionsCount rest
end

mutual
/-- The sub-instruction lists under an instruction have sizes that a
`std::size_t` holds. -/
def Instruction.SizesFit : Instruction → Bool
  | .mk _ _ subInstructions => InstructionsSizesFit subInstructions
/-- The list, and every sub-instruction list under it, has a size below
`2 ^ 64`, as every `std::vector` has. -/
def InstructionsSizesFit : List Instruction → Bool
  | [] => true
  | instruction :: rest =>
    decide ((instruction :: rest).length < 2 ^ 64) && instruction.SizesFit &&
      InstructionsSizesFit rest
end

/-! ## Searching in instructions and events -/

namespace GdString

/-- Modelled from the spec: the removal of the characters for which `ignored`
holds, `replace_if(begin, end, ignored, "")`. -/
def RemoveIf (ignored : Char → Bool) (text : List Char) : List Char :=
  text.filter (fun c => !ignored c)

/-- Modelled from the spec: `gd::String::LeftTrim`, which drops the leading
whitespace. -/
def LeftTrim (text : List Char) : List Char :=
  text.dropWhile Char.isWhitespace

/-- Modelled from the spec: `gd::String::RightTrim`, which drops the trailing
whitespace. -/
def RightTrim (text : List Char) : List Char :=
  (text.reverse.dropWhile Char.isWhitespace).reverse

/-- Modelled from the spec: `gd::String::RemoveConsecutiveOccurrences(begin, end,
c)`, which collapses every run of the character `c` to a single one. -/
def RemoveConsecutiveOccurrences (c : Char) : List Char → List Char
  | [] => []
  | [x] => [x]
  | x :: y :: rest =>
    if x == c && y == c then RemoveConsecutiveOccurrences c (y :: rest)
    else x :: RemoveConsecutiveOccurrences c (y :: rest)

end GdString

namespace EventsRefactorer

/-- The constant `EventsRefactorer::searchIgnoredCharacters`. -/
def searchIgnoredCharacters : String := ";:,#()"

/-- The predicate given to `replace_if`, the lambda
`[ignored_characters](const char& c) { return ignored_characters.find(c) !=
gd::String::npos; }`. The text is walked code point by code point and the
parameter of the lambda is a `char`: each code point is narrowed to its low
byte (`% 2 ^ 8`) before it is looked up in the ignored characters. These are
all below 128, so the lookup gives the same answer whether `char` is signed or
not. -/
def IsIgnoredCharacter (c : Char) : Bool :=
  (GdString.find searchIgnoredCharacters.data [Char.ofNat (c.toNat % 2 ^ 8)] 0).isSome

/-- The test `foundPosition != gd::String::npos` on a text, where
`foundPosition` is `text.find(search)` when `matchCase` and
`text.FindCaseInsensitive(search)` otherwise. -/
def FoundIn (text search : String) (matchCase : Bool) : Bool :=
  if matchCase then (GdString.find text.data search.data 0).isSome
  else (GdString.FindCaseInsensitive text.data search.data 0).isSome

/-- Translation of `EventsRefactorer::SearchStringInFormattedText`. -/
def SearchStringInFormattedText (platform : Platform) (instruction : Instruction)
    (search : String) (matchCase : Bool) (isCondition : Bool) : Bool :=
  let metadata :=
    if isCondition then platform.GetConditionMetadata instruction.GetType
    else platform.GetActionMetadata instruction.GetType
  let completeSentence := platform.GetFullText instruction metadata
  let completeSentence1 := GdString.RemoveIf IsIgnoredCharacter completeSentence.data
  let completeSentence2 := GdString.RemoveConsecutiveOccurrences ' ' completeSentence1
  FoundIn (String.mk completeSentence2) search matchCase

/-- The parameter loop of `SearchStringInActions` and `SearchStringInConditions`:
true when the loop is left by `return true`. -/
def SearchStringInParameters (search : String) (matchCase : Bool) : List String → Bool
  | [] => false
  | parameter :: rest =>
    if FoundIn parameter search matchCase then true
    else SearchStringInParameters search matchCase rest

mutual
/-- The body of the instruction loop of `SearchStringInActions` (with
`isCondition` false) and `SearchStringInConditions` (with `isCondition` true):
true when the body leaves the function by `return true`. -/
def SearchStringInInstruction (platform : Platform) (isCondition : Bool) (search : String)
    (matchCase inSentences : Bool) : Instruction → Bool
  | .mk type parameters subInstructions =>
    if SearchStringInParameters search matchCase parameters then true
    else if inSentences &&
        SearchStringInFormattedText platform (.mk type parameters subInstructions) search
          matchCase isCondition then true
    else if !subInstructions.isEmpty &&
        SearchStringInInstructions platform isCondition search matchCase inSentences
          subInstructions then true
    else false
/-- The instruction loop of `SearchStringInActions` and
`SearchStringInConditions`, ending on `return false`. -/
def SearchStringInInstructions (platform : Platform) (isCondition : Bool) (search : String)
    (matchCase inSentences : Bool) : List Instruction → Bool
  | [] => false
  | instruction :: rest =>
    if SearchStringInInstruction platform isCondition search matchCase inSentences
        instruction then true
    else SearchStringInInstructions platform isCondition search matchCase inSentences rest
end

/-- Translation of `EventsRefactorer::SearchStringInActions`. -/
def SearchStringInActions (platform : Platform) (actions : List Instruction)
    (search : String) (matchCase inSentences : Bool) : Bool :=
  SearchStringInInstructions platform false search matchCase inSentences actions

/-- Translation of `EventsRefactorer::SearchStringInConditions`. -/
def SearchStringInConditions (platform : Platform) (conditions : List Instruction)
    (search : String) (matchCase inSentences : Bool) : Bool :=
  SearchStringInInstructions platform true search matchCase inSentences conditions

/-- The loop of `EventsRefactorer::SearchStringInEvent` over the searchable
strings of the event. -/
def SearchStringInSearchableStrings (search : String) (matchCase : Bool) :
    List String → Bool
  | [] => false
  | str :: rest =>
    if FoundIn str search matchCase then true
    else SearchStringInSearchableStrings search matchCase rest

/-- Translation of `EventsRefactorer::SearchStringInEvent`. -/
def SearchStringInEvent (event : BaseEvent) (search : String) (matchCase : Bool) : Bool :=
  match event with
  | .mk _ _ searchableStrings _ _ _ =>
    SearchStringInSearchableStrings search matchCase searchableStrings

end EventsRefactorer

/-- The search result `gd::EventsSearchResult`: the event referred to, the list
that owns it and its position in that list. The pointer `eventsList` is
modelled by the address of the list in the event tree: the positions, from the
top-level list down, of the events whose sub-events lead to the list. -/
structure EventsSearchResult where
  /-- The event that the weak pointer `event` refers to. -/
  event : BaseEvent
  /-- The list `eventsList` that owns the event. -/
  eventsList : List Nat
  /-- The index `positionInList` of the event in the list. -/
  positionInList : Nat

namespace EventsRefactorer

/-- The normalisation of `search` at the start of `SearchInEvents`, done only
when `inEventSentences` holds: the ignored characters are removed, the text is
trimmed on both sides and the runs of spaces are collapsed. -/
def NormalizeSearch (search : String) (inEventSentences : Bool) : String :=
  if inEventSentences then
    let search1 := GdString.RemoveIf IsIgnoredCharacter search.data
    let search2 := GdString.RightTrim (GdString.LeftTrim search1)
    String.mk (GdString.RemoveConsecutiveOccurrences ' ' search2)
  else search

/-- The loop over the condition vectors of the event `events[i]` in
`SearchInEvents`: the results pushed by the loop, `result` being the entry
built for the event. -/
def SearchInConditionsVectors (platform : Platform) (search : String)
    (matchCase inEventSentences eventAddedInResults : Bool) (result : EventsSearchResult) :
    List (List Instruction) → List EventsSearchResult
  | [] => []
  | conditions :: rest =>
    (if !eventAddedInResults &&
        SearchStringInConditions platform conditions search matchCase inEventSentences
      then [result] else []) ++
    SearchInConditionsVectors platform search matchCase inEventSentences eventAddedInResults
      result rest

/-- The loop over the action vectors of the event `events[i]` in
`SearchInEvents`: the results pushed by the loop. -/
def SearchInActionsVectors (platform : Platform) (search : String)
    (matchCase inEventSentences eventAddedInResults : Bool) (result : EventsSearchResult) :
    List (List Instruction) → List EventsSearchResult
  | [] => []
  | actions :: rest =>
    (if !eventAddedInResults &&
        SearchStringInActions platform actions search matchCase inEventSentences
      then [result] else []) ++
    SearchInActionsVectors platform search matchCase inEventSentences eventAddedInResults
      result rest

mutual
/-- The body of the event loop of `SearchInEvents` for the event `events[i]` of
the list at address `eventsList`, `search` being the text as normalised at the
start of the call: the results pushed for the event, followed by those of the
recursive call on its sub-events, which normalises the text anew. The local
`eventAddedInResults` is initialised to false and never assigned. -/
def SearchInEvent (platform : Platform) (search : String)
    (matchCase inConditions inActions inEventStrings inEventSentences : Bool)
    (eventsList : List Nat) (i : Nat) : BaseEvent → List EventsSearchResult
  | .mk conditionsVectors actionsVectors searchableStrings expressionsWithMetadata
      canHaveSubEvents subEvents =>
    let event := BaseEvent.mk conditionsVectors actionsVectors searchableStrings
      expressionsWithMetadata canHaveSubEvents subEvents
    let eventAddedInResults := false
    let result : EventsSearchResult := ⟨event, eventsList, i⟩
    (if inConditions then
      SearchInConditionsVectors platform search matchCase inEventSentences
        eventAddedInResults result conditionsVectors
    else []) ++
    (if inActions then
      SearchInActionsVectors platform search matchCase inEventSentences
        eventAddedInResults result actionsVectors
    else []) ++
    (if inEventStrings then
      (if !eventAddedInResults && SearchStringInEvent event search matchCase then [result]
       else [])
    else []) ++
    (if canHaveSubEvents then
      SearchInEventsFrom platform (NormalizeSearch search inEventSentences) matchCase
        inConditions inActions inEventStrings inEventSentences (eventsList ++ [i]) 0 subEvents
    else [])
/-- The event loop `for (i = 0; i < events.size(); ++i)` of `SearchInEvents`
from index `i` on, over the events not visited yet. -/
def SearchInEventsFrom (platform : Platform) (search : String)
    (matchCase inConditions inActions inEventStrings inEventSentences : Bool)
    (eventsList : List Nat) (i : Nat) : List BaseEvent → List EventsSearchResult
  | [] => []
  | event :: rest =>
    SearchInEvent platform search matchCase inConditions inActions inEventStrings
      inEventSentences eventsList i event ++
    SearchInEventsFrom platform search matchCase inConditions inActions inEventStrings
      inEventSentences eventsList (i + 1) rest
end

/-- Translation of `EventsRefactorer::SearchInEvents` on the list `events` found
at the address `eventsList`: the normalisation of `search`, then the loop over
the events. -/
def SearchInEvents (platform : Platform) (events : List BaseEvent) (search : String)
    (matchCase inConditions inActions inEventStrings inEventSentences : Bool)
    (eventsList : List Nat) : List EventsSearchResult :=
  SearchInEventsFrom platform (NormalizeSearch search inEventSentences) matchCase
    inConditions inActions inEventStrings inEventSentences eventsList 0 events

end EventsRefactorer

/-- The event of the search scenario: the condition `Collision(Player, Wall)`
and the action `Delete(Player)`, no searchable string and no sub-event. -/
def scenarioEvent : BaseEvent :=
  BaseEvent.mk [[Instruction.mk "Collision" ["Player", "Wall"] []]]
    [[Instruction.mk "Delete" ["Player"] []]] [] [] false []

/-- The scenario platform with a sentence formatter that renders every
instruction as the sentence "aкb", whose middle letter is the Cyrillic к
(U+043A): its low byte is 0x3A, the code of the colon. -/
def cyrillicSentencePlatform : Platform where
  GetActionMetadata := scenarioPlatform.GetActionMetadata
  GetConditionMetadata := scenarioPlatform.GetConditionMetadata
  HasNoErrors := scenarioPlatform.HasNoErrors
  GetType := scenarioPlatform.GetType
  GetRootNode := scenarioPlatform.GetRootNode
  PrintNode := scenarioPlatform.PrintNode
  GetFullText := fun _ _ => "aкb"

/-- The object that a function call node or an object function name node
names; no object for the other nodes. -/
def ObjectNameOf : ExpressionNode → Option String
  | .FunctionCall nodeObjectName _ _ => some nodeObjectName
  | .ObjectFunctionName nodeObjectName _ => some nodeObjectName
  | _ => none

mutual
/-- The metadata lookup yields no parameter descriptor for the type of the
instruction, nor for the type of any instruction below it. -/
def InstructionTypesUnknown (GetMetadata : String → List ParameterKind) :
    Instruction → Bool
  | .mk type _ subInstructions =>
    (GetMetadata type).isEmpty && InstructionsTypesUnknown GetMetadata subInstructions
/-- Every instruction of the list, at every depth, has a type for which the
metadata lookup yields no parameter descriptor. -/
def InstructionsTypesUnknown (GetMetadata : String → List ParameterKind) :
    List Instruction → Bool
  | [] => true
  | instruction :: rest =>
    InstructionTypesUnknown GetMetadata instruction &&
      InstructionsTypesUnknown GetMetadata rest
end

/-! ## Specification vocabulary for the search -/

/-- The text `text` contains `search`, code points being compared with
`equals`: it splits into a part before, an occurrence that matches `search`
code point by code point, and a part after. -/
def GdString.Contains (equals : Char → Char → Bool) (text search : List Char) : Prop :=
  ∃ before occurrence after : List Char, text = before ++ occurrence ++ after ∧
    List.Forall₂ (fun s c => equals s c = true) search occurrence

/-- The text contains the query: case-sensitively when `matchCase`,
case-insensitively otherwise. -/
def TextContains (text search : String) (matchCase : Bool) : Prop :=
  if matchCase then GdString.Contains (fun a b => a == b) text.data search.data
  else GdString.Contains GdString.EqualsCaseInsensitive text.data search.data

/-- The normalised sentence `N(s)` of an instruction, as the specification words
it: the characters of ";:,#()" are removed from the rendered sentence and every
run of spaces is collapsed to one space. -/
def NormalizedSentence (platform : Platform) (instruction : Instruction)
    (isCondition : Bool) : String :=
  String.mk (GdString.RemoveConsecutiveOccurrences ' '
    ((platform.GetFullText instruction
      (if isCondition then platform.GetConditionMetadata instruction.GetType
       else platform.GetActionMetadata instruction.GetType)).data.filter
      (fun c => !decide (c ∈ [';', ':', ',', '#', '(', ')']))))

mutual
/-- An instruction followed by all the instructions below it. -/
def InstructionWithSubInstructions : Instruction → List Instruction
  | .mk type parameters subInstructions =>
    .mk type parameters subInstructions :: AllInstructions subInstructions
/-- All the instructions of a list, at every nesting depth. -/
def AllInstructions : List Instruction → List Instruction
  | [] => []
  | instruction :: rest => InstructionWithSubInstructions instruction ++ AllInstructions rest
end

/-- The instruction itself matches the query: one of its parameters is found to
hold it, or sentences are searched and its rendered sentence is found to hold
it. -/
def InstructionMatches (platform : Platform) (isCondition : Bool) (search : String)
    (matchCase inSentences : Bool) (instruction : Instruction) : Bool :=
  SearchStringInParameters search matchCase instruction.GetParameters ||
    (inSentences &&
      SearchStringInFormattedText platform instruction search matchCase isCondition)

/-- The normal form of a text for a given test of the ignored characters: the
ignored characters are removed, the leading and trailing whitespace is trimmed,
and every run of spaces is collapsed to one space. -/
def GdString.Normalized (ignored : Char → Bool) (text : List Char) : List Char :=
  GdString.RemoveConsecutiveOccurrences ' '
    (GdString.RightTrim (GdString.LeftTrim (GdString.RemoveIf ignored text)))

/-- The normalised query `Q(q)`, as the specification words it: the characters of
";:,#()" are removed, the leading and trailing whitespace is trimmed, and every
run of spaces is collapsed to one space. -/
def NormalizedQuery (search : String) : String :=
  String.mk (GdString.RemoveConsecutiveOccurrences ' '
    (GdString.RightTrim (GdString.LeftTrim
      (search.data.filter (fun c => !decide (c ∈ [';', ':', ',', '#', '(', ')']))))))

/-! ## Replacing a string in instructions -/

/-- Modelled from the spec: `gd::String::FindAndReplace(search, replacement,
true)`, the case-sensitive replacement, a single left-to-right pass over the
non-overlapping occurrences of `search`. -/
def GdString.FindAndReplace (text search replacement : String) : String :=
  String.mk (ReplaceLeftmostOccurrences (fun a b => a == b) search.data replacement.data 0
    text.data)

namespace EventsRefactorer

/-- The value `newParameter` computed for a text by the replace operations:
`FindAndReplace` when `matchCase`, `ReplaceAllOccurrencesCaseInsensitive`
otherwise; `none` when the case-insensitive loop does not exit. -/
def ReplaceStringInText (text toReplace newString : String) (matchCase : Bool) :
    Option String :=
  if matchCase then some (GdString.FindAndReplace text toReplace newString)
  else ReplaceAllOccurrencesCaseInsensitive text toReplace newString

/-- The parameter loop `for (pNb = 0; pNb < GetParameters().size(); ++pNb)` of
`ReplaceStringInActions` and `ReplaceStringInConditions`, with `count`
iterations left from index `pNb`, on the parameters of the instruction and
`somethingModified`. -/
def ReplaceStringInParameters (toReplace newString : String) (matchCase : Bool) :
    Nat → Nat → List String → Bool → Option (Bool × List String)
  | 0, _, parameters, somethingModified => some (somethingModified, parameters)
  | count + 1, pNb, parameters, somethingModified =>
    match ReplaceStringInText (GetParameter parameters pNb) toReplace newString matchCase with
    | none => none
    | some newParameter =>
      if newParameter != GetParameter parameters pNb then
        ReplaceStringInParameters toReplace newString matchCase count (pNb + 1)
          (SetParameter parameters pNb newParameter) true
      else
        ReplaceStringInParameters toReplace newString matchCase count (pNb + 1)
          parameters somethingModified

mutual
/-- The body of the instruction loop of `ReplaceStringInActions` and
`ReplaceStringInConditions`: the parameter loop, then the recursive call on
non-empty sub-instructions, whose result is not used. -/
def ReplaceStringInInstruction (toReplace newString : String) (matchCase : Bool) :
    Instruction → Bool → Option (Bool × Instruction)
  | .mk type parameters subInstructions, somethingModified =>
    match ReplaceStringInParameters toReplace newString matchCase parameters.length 0
        parameters somethingModified with
    | none => none
    | some replaced =>
      if !subInstructions.isEmpty then
        match ReplaceStringInInstructions toReplace newString matchCase subInstructions
            false with
        | none => none
        | some sub => some (replaced.1, .mk type replaced.2 sub.2)
      else some (replaced.1, .mk type replaced.2 subInstructions)
/-- The instruction loop of `ReplaceStringInActions` and
`ReplaceStringInConditions`: the instructions left to visit and
`somethingModified` go in, the result and the instructions after the loop come
out. -/
def ReplaceStringInInstructions (toReplace newString : String) (matchCase : Bool) :
    List Instruction → Bool → Option (Bool × List Instruction)
  | [], somethingModified => some (somethingModified, [])
  | instruction :: rest, somethingModified =>
    match ReplaceStringInInstruction toReplace newString matchCase instruction
        somethingModified with
    | none => none
    | some body =>
      match ReplaceStringInInstructions toReplace newString matchCase rest body.1 with
      | none => none
      | some r => some (r.1, body.2 :: r.2)
end

/-- Translation of `EventsRefactorer::ReplaceStringInActions`: the returned
`somethingModified` and the actions after the call; `none` when a replacement
loop does not exit. -/
def ReplaceStringInActions (actions : List Instruction) (toReplace newString : String)
    (matchCase : Bool) : Option (Bool × List Instruction) :=
  ReplaceStringInInstructions toReplace newString matchCase actions false

/-- Translation of `EventsRefactorer::ReplaceStringInConditions`: the returned
`somethingModified` and the conditions after the call; `none` when a
replacement loop does not exit. -/
def ReplaceStringInConditions (conditions : List Instruction)
    (toReplace newString : String) (matchCase : Bool) : Option (Bool × List Instruction) :=
  ReplaceStringInInstructions toReplace newString matchCase conditions false

end EventsRefactorer

/-- The substring substitution `R` of the replace operations, for a non-empty
search text: the single left-to-right pass over the non-overlapping
occurrences, case-sensitive when `matchCase`, case-insensitive otherwise. -/
def ReplacedText (toReplace newString : String) (matchCase : Bool) (text : String) : String :=
  String.mk (ReplaceLeftmostOccurrences
    (if matchCase then (fun a b => a == b) else GdString.EqualsCaseInsensitive)
    toReplace.data newString.data 0 text.data)

mutual
/-- The instruction whose parameters, and those of the instructions below it,
are the images by `f` of the former ones. -/
def MapParametersInInstruction (f : String → String) : Instruction → Instruction
  | .mk type parameters subInstructions =>
    .mk type (parameters.map f) (MapParametersInInstructions f subInstructions)
/-- The instruction list with the same instructions in the same order and with
the same sub-instruction structure, every parameter being the image by `f` of
the former one. -/
def MapParametersInInstructions (f : String → String) : List Instruction → List Instruction
  | [] => []
  | instruction :: rest =>
    MapParametersInInstruction f instruction :: MapParametersInInstructions f rest
end

/-- The flag that the replacement returns for a list: some parameter of an
instruction of the list itself, nesting left aside, is changed by `f`. -/
def ChangesTopLevelParameter (f : String → String) (instructions : List Instruction) : Bool :=
  instructions.any (fun instruction =>
    instruction.GetParameters.any (fun text => f text != text))

/-! ## Renaming an object in events -/

/-- The condition vectors of an event: `BaseEvent::GetAllConditionsVectors`. -/
def BaseEvent.GetAllConditionsVectors : BaseEvent → List (List Instruction)
  | .mk conditionsVectors _ _ _ _ _ => conditionsVectors

/-- The action vectors of an event: `BaseEvent::GetAllActionsVectors`. -/
def BaseEvent.GetAllActionsVectors : BaseEvent → List (List Instruction)
  | .mk _ actionsVectors _ _ _ _ => actionsVectors

/-- The searchable strings of an event: `BaseEvent::GetAllSearchableStrings`. -/
def BaseEvent.GetAllSearchableStrings : BaseEvent → List String
  | .mk _ _ searchableStrings _ _ _ => searchableStrings

/-- The expressions that an event holds itself, each with its metadata:
`BaseEvent::GetAllExpressionsWithMetadata`. -/
def BaseEvent.GetAllExpressionsWithMetadata : BaseEvent → List (String × ParameterKind)
  | .mk _ _ _ expressionsWithMetadata _ _ => expressionsWithMetadata

/-- Whether the kind of the event supports sub-events:
`BaseEvent::CanHaveSubEvents`. -/
def BaseEvent.CanHaveSubEvents : BaseEvent → Bool
  | .mk _ _ _ _ canHaveSubEvents _ => canHaveSubEvents

/-- The sub-events of an event: `BaseEvent::GetSubEvents`. -/
def BaseEvent.GetSubEvents : BaseEvent → List BaseEvent
  | .mk _ _ _ _ _ subEvents => subEvents

namespace EventsRefactorer

/-- Translation of `EventsRefactorer::RenameObjectInEventParameters`: the
returned `somethingModified` and the expression after the call. -/
def RenameObjectInEventParameters (platform : Platform) (expression : String)
    (parameterMetadata : ParameterKind) (oldName newName : String) : Bool × String :=
  let somethingModified := false
  if ParameterMetadata.IsObject parameterMetadata && expression == oldName then
    (somethingModified, newName)
  else if ParameterMetadata.IsExpression "number" parameterMetadata then
    let node := platform.GetRootNode expression
    let renamed := ExpressionObjectRenamer.Rename platform "number" node oldName newName
    if renamed.1 then (somethingModified, platform.PrintNode renamed.2)
    else (somethingModified, expression)
  else if ParameterMetadata.IsExpression "string" parameterMetadata then
    let node := platform.GetRootNode expression
    let renamed := ExpressionObjectRenamer.Rename platform "string" node oldName newName
    if renamed.1 then (somethingModified, platform.PrintNode renamed.2)
    else (somethingModified, expression)
  else (somethingModified, expression)

mutual
/-- The body of the event loop of `RenameObjectInEvents`: the loops over the
condition vectors, the action vectors and the expressions of the event, whose
results are not used, then the recursive call on the sub-events when the event
can have some. -/
def RenameObjectInEvent (platform : Platform) (oldName newName : String) :
    BaseEvent → BaseEvent
  | .mk conditionsVectors actionsVectors searchableStrings expressionsWithMetadata
      canHaveSubEvents subEvents =>
    .mk
      (conditionsVectors.map (fun conditions =>
        (RenameObjectInConditions platform conditions oldName newName).2))
      (actionsVectors.map (fun actions =>
        (RenameObjectInActions platform actions oldName newName).2))
      searchableStrings
      (expressionsWithMetadata.map (fun expressionWithMetadata =>
        ((RenameObjectInEventParameters platform expressionWithMetadata.1
          expressionWithMetadata.2 oldName newName).2, expressionWithMetadata.2)))
      canHaveSubEvents
      (if canHaveSubEvents then RenameObjectInEventsLoop platform oldName newName subEvents
       else subEvents)
/-- The event loop `for (i = 0; i < events.size(); ++i)` of
`RenameObjectInEvents`. -/
def RenameObjectInEventsLoop (platform : Platform) (oldName newName : String) :
    List BaseEvent → List BaseEvent
  | [] => []
  | event :: rest =>
    RenameObjectInEvent platform oldName newName event ::
      RenameObjectInEventsLoop platform oldName newName rest
end

/-- Translation of `EventsRefactorer::RenameObjectInEvents`: the events after
the call. -/
def RenameObjectInEvents (platform : Platform) (events : List BaseEvent)
    (oldName newName : String) : List BaseEvent :=
  RenameObjectInEventsLoop platform oldName newName events

end EventsRefactorer

/-! ## Specification vocabulary for event trees -/

/-- The event list reached from `events` by following `path` through the
sub-events of events that declare sub-event support: each index of the path
selects an event, which must support sub-events, and whose sub-events are
entered. The empty path is the list itself. -/
def SubEventsAt : List BaseEvent → List Nat → Option (List BaseEvent)
  | events, [] => some events
  | events, index :: path =>
    match events[index]? with
    | some event =>
      if event.CanHaveSubEvents then SubEventsAt event.GetSubEvents path else none
    | none => none

/-- The event at position `index` of the list reached by `path`: any event
reachable through sub-event lists of events that declare sub-event support. -/
def EventAt (events : List BaseEvent) (path : List Nat) (index : Nat) : Option BaseEvent :=
  match SubEventsAt events path with
  | some list => list[index]?
  | none => none

/-- A platform for which every text is the name of an object: the parser reads
a text as an identifier, which the printer writes back, the validator accepts
everything and every identifier is an object; the actions "Delete" and "SetX"
have the metadata of the scenario platform. -/
def identifierPlatform : Platform where
  GetActionMetadata := fun type =>
    if type == "Delete" then [ParameterKind.ObjectReference]
    else if type == "SetX" then [ParameterKind.ObjectReference, ParameterKind.NumberExpression]
    else []
  GetConditionMetadata := fun type =>
    if type == "Collision" then [ParameterKind.ObjectReference, ParameterKind.ObjectReference]
    else []
  HasNoErrors := fun _ _ => true
  GetType := fun _ _ => ParameterKind.ObjectReference
  GetRootNode := fun text => .Identifier text
  PrintNode := fun node =>
    match node with
    | .Identifier identifierName => identifierName
    | _ => ""
  GetFullText := fun instruction _ => instruction.GetType

/-! ## Specification vocabulary for the search results -/

/-- The address of the event that a search result reports: the address of its
list followed by its position in the list. -/
def EventsSearchResult.Address (result : EventsSearchResult) : List Nat :=
  result.eventsList ++ [result.positionInList]

/-- The pre-order of the event tree on addresses: an address precedes, or is,
another one when it is an initial part of it (an event and its descendants) or
when it is smaller at the first position where they differ (an event and a
later sibling, or their descendants). -/
def PrecedesOrEqual : List Nat → List Nat → Bool
  | [], _ => true
  | _ :: _, [] => false
  | x :: xs, y :: ys => decide (x < y) || (x == y && PrecedesOrEqual xs ys)

/-- The result `result`, returned by the search of the events `events` that
are at the positions `i`, `i + 1`, ... of the list at address `eventsList`,
locates the event it reports: it is one of these events, with this list and its
position, or an event reached below one of them through sub-event lists of
events that declare sub-event support. -/
def LocatedFrom (events : List BaseEvent) (eventsList : List Nat) (i : Nat)
    (result : EventsSearchResult) : Prop :=
  (result.eventsList = eventsList ∧
    ∃ k : Nat, result.positionInList = i + k ∧ events[k]? = some result.event) ∨
  (∃ (j : Nat) (path : List Nat), result.eventsList = eventsList ++ (i + j) :: path ∧
    EventAt events (j :: path) result.positionInList = some result.event)

/-- The event matches the query in a participating check: conditions are
searched and one of its condition vectors matches, or actions are searched and
one of its action vectors matches, or the event strings are searched and one of
its searchable strings holds the query. -/
def EventMatches (platform : Platform) (search : String)
    (matchCase inConditions inActions inEventStrings inEventSentences : Bool)
    (event : BaseEvent) : Bool :=
  (inConditions && event.GetAllConditionsVectors.any (fun conditions =>
    SearchStringInConditions platform conditions search matchCase inEventSentences)) ||
  (inActions && event.GetAllActionsVectors.any (fun actions =>
    SearchStringInActions platform actions search matchCase inEventSentences)) ||
  (inEventStrings && SearchStringInEvent event search matchCase)

/-! ## The traversals with checked parameter indices

Each traversal is written once more with every read `GetParameter(pNb)` and
every write `SetParameter(pNb, ...)` checked against the number of parameters
of the instruction: the checked traversal has no outcome (`none`) as soon as an
index is out of range, and otherwise proceeds as the traversal does. -/

/-- The read `GetParameter(pNb)` with its index checked: `none` when `pNb` is
not below the number of parameters. -/
def GetParameterChecked (parameters : List String) (pNb : Nat) : Option String :=
  parameters[pNb]?

/-- The write `SetParameter(pNb, value)` with its index checked: `none` when
`pNb` is not below the number of parameters. -/
def SetParameterChecked (parameters : List String) (pNb : Nat) (value : String) :
    Option (List String) :=
  if pNb < parameters.length then some (parameters.set pNb value) else none

mutual
/-- The instruction, and every instruction below it, has at least as many
parameters as its metadata declares. -/
def InstructionParametersFit (GetMetadata : String → List ParameterKind) :
    Instruction → Bool
  | .mk type parameters subInstructions =>
    decide ((GetMetadata type).length ≤ parameters.length) &&
      InstructionsParametersFit GetMetadata subInstructions
/-- Every instruction of the list, at every depth, has at least as many
parameters as its metadata declares. -/
def InstructionsParametersFit (GetMetadata : String → List ParameterKind) :
    List Instruction → Bool
  | [] => true
  | instruction :: rest =>
    InstructionParametersFit GetMetadata instruction &&
      InstructionsParametersFit GetMetadata rest
end

namespace EventsRefactorer

/-- The body of the parameter loop of the rename with checked indices. The
parameter is read in the first test only when the kind is an object kind, since
`&&` evaluates its right operand only then. -/
def RenameObjectInParameterChecked (platform : Platform) (oldName newName : String)
    (type : ParameterKind) (pNb : Nat) (parameters : List String) : Option (List String) :=
  match (if ParameterMetadata.IsObject type then
      (GetParameterChecked parameters pNb).map (fun parameter => parameter == oldName)
    else some false) with
  | none => none
  | some isObjectToRename =>
    if isObjectToRename then SetParameterChecked parameters pNb newName
    else if ParameterMetadata.IsExpression "number" type then
      match GetParameterChecked parameters pNb with
      | none => none
      | some parameter =>
        let node := platform.GetRootNode parameter
        let renamed := ExpressionObjectRenamer.Rename platform "number" node oldName newName
        if renamed.1 then SetParameterChecked parameters pNb (platform.PrintNode renamed.2)
        else some parameters
    else if ParameterMetadata.IsExpression "string" type then
      match GetParameterChecked parameters pNb with
      | none => none
      | some parameter =>
        let node := platform.GetRootNode parameter
        let renamed := ExpressionObjectRenamer.Rename platform "string" node oldName newName
        if renamed.1 then SetParameterChecked parameters pNb (platform.PrintNode renamed.2)
        else some parameters
    else some parameters

/-- The parameter loop of the rename with checked indices, from index `pNb`
on. -/
def RenameObjectInParametersChecked (platform : Platform) (oldName newName : String) :
    List ParameterKind → Nat → List String → Option (List String)
  | [], _, parameters => some parameters
  | type :: rest, pNb, parameters =>
    match RenameObjectInParameterChecked platform oldName newName type pNb parameters with
    | none => none
    | some parameters1 =>
      RenameObjectInParametersChecked platform oldName newName rest (pNb + 1) parameters1

mutual
/-- The body of the instruction loop of the rename with checked indices. -/
def RenameObjectInInstructionChecked (platform : Platform)
    (GetMetadata : String → List ParameterKind) (oldName newName : String) :
    Instruction → Bool → Option (Bool × Instruction)
  | .mk type parameters subInstructions, somethingModified =>
    match RenameObjectInParametersChecked platform oldName newName (GetMetadata type) 0
        parameters with
    | none => none
    | some parameters1 =>
      if !subInstructions.isEmpty then
        match RenameObjectInInstructionsChecked platform GetMetadata oldName newName
            subInstructions false with
        | none => none
        | some r => some (r.1 || somethingModified, .mk type parameters1 r.2)
      else some (somethingModified, .mk type parameters1 subInstructions)
/-- The instruction loop of the rename with checked indices. -/
def RenameObjectInInstructionsChecked (platform : Platform)
    (GetMetadata : String → List ParameterKind) (oldName newName : String) :
    List Instruction → Bool → Option (Bool × List Instruction)
  | [], somethingModified => some (somethingModified, [])
  | instruction :: rest, somethingModified =>
    match RenameObjectInInstructionChecked platform GetMetadata oldName newName instruction
        somethingModified with
    | none => none
    | some body =>
      match RenameObjectInInstructionsChecked platform GetMetadata oldName newName rest
          body.1 with
      | none => none
      | some r => some (r.1, body.2 :: r.2)
end

/-- The parameter loop of the removal with checked indices, from index `pNb`
on: the value of `deleteMe` when the loop is left. -/
def RemoveObjectScanParametersChecked (platform : Platform) (name : String) :
    List ParameterKind → Nat → List String → Option Bool
  | [], _, _ => some false
  | type :: rest, pNb, parameters =>
    match (if ParameterMetadata.IsObject type then
        (GetParameterChecked parameters pNb).map (fun parameter => parameter == name)
      else some false) with
    | none => none
    | some isObjectToRemove =>
      if isObjectToRemove then some true
      else if ParameterMetadata.IsExpression "number" type then
        match GetParameterChecked parameters pNb with
        | none => none
        | some parameter =>
          let node := platform.GetRootNode parameter
          if ExpressionObjectFinder.CheckIfHasObject platform "number" node name then
            some true
          else RemoveObjectScanParametersChecked platform name rest (pNb + 1) parameters
      else if ParameterMetadata.IsExpression "string" type then
        match GetParameterChecked parameters pNb with
        | none => none
        | some parameter =>
          let node := platform.GetRootNode parameter
          if ExpressionObjectFinder.CheckIfHasObject platform "string" node name then
            some true
          else RemoveObjectScanParametersChecked platform name rest (pNb + 1) parameters
      else RemoveObjectScanParametersChecked platform name rest (pNb + 1) parameters

/-- The instruction loop of the removal with checked indices: the loop of
`RemoveObjectInInstructionsLoop`, the parameter loop being the checked one. -/
def RemoveObjectInInstructionsLoopChecked (platform : Platform)
    (GetMetadata : String → List ParameterKind) (name : String)
    (recurse : List Instruction → Option (Bool × List Instruction)) :
    Nat → List Instruction → Nat → Bool → Option (Bool × List Instruction)
  | 0, _, _, _ => none
  | fuel + 1, actions, aId, somethingModified =>
    match actions[aId]? with
    | none => some (somethingModified, actions)
    | some instruction =>
      match RemoveObjectScanParametersChecked platform name
          (GetMetadata instruction.GetType) 0 instruction.GetParameters with
      | none => none
      | some deleteMe =>
        if deleteMe then
          RemoveObjectInInstructionsLoopChecked platform GetMetadata name recurse fuel
            (actions.eraseIdx aId) (SizeIncrement (SizeDecrement aId)) true
        else if !instruction.GetSubInstructions.isEmpty then
          match recurse instruction.GetSubInstructions with
          | none => none
          | some r =>
            RemoveObjectInInstructionsLoopChecked platform GetMetadata name recurse fuel
              (actions.set aId
                (Instruction.mk instruction.GetType instruction.GetParameters r.2))
              (SizeIncrement aId) (r.1 || somethingModified)
        else
          RemoveObjectInInstructionsLoopChecked platform GetMetadata name recurse fuel
            actions (SizeIncrement aId) somethingModified

/-- The removal with checked indices and a bound on the depth of the recursive
calls, as `RemoveObjectInInstructionsDepth`. -/
def RemoveObjectInInstructionsDepthChecked (platform : Platform)
    (GetMetadata : String → List ParameterKind) (name : String) :
    Nat → List Instruction → Option (Bool × List Instruction)
  | 0, _ => none
  | depth + 1, actions =>
    RemoveObjectInInstructionsLoopChecked platform GetMetadata name
      (RemoveObjectInInstructionsDepthChecked platform GetMetadata name depth)
      (actions.length + 1) actions 0 false

end EventsRefactorer
namespace EventsRefactorer

/-- The parameter loop `for (pNb = 0; pNb < GetParameters().size(); ++pNb)` of
the search with checked indices, with `count` iterations left from index
`pNb`: true when the loop is left by `return true`. -/
def SearchStringInParametersChecked (search : String) (matchCase : Bool) :
    Nat → Nat → List String → Option Bool
  | 0, _, _ => some false
  | count + 1, pNb, parameters =>
    match GetParameterChecked parameters pNb with
    | none => none
    | some parameter =>
      if FoundIn parameter search matchCase then some true
      else SearchStringInParametersChecked search matchCase count (pNb + 1) parameters

mutual
/-- The body of the instruction loop of the search with checked indices. -/
def SearchStringInInstructionChecked (platform : Platform) (isCondition : Bool)
    (search : String) (matchCase inSentences : Bool) : Instruction → Option Bool
  | .mk type parameters subInstructions =>
    match SearchStringInParametersChecked search matchCase parameters.length 0
        parameters with
    | none => none
    | some found =>
      if found then some true
      else if inSentences &&
          SearchStringInFormattedText platform (.mk type parameters subInstructions) search
            matchCase isCondition then some true
      else if !subInstructions.isEmpty then
        SearchStringInInstructionsChecked platform isCondition search matchCase inSentences
          subInstructions
      else some false
/-- The instruction loop of the search with checked indices. -/
def SearchStringInInstructionsChecked (platform : Platform) (isCondition : Bool)
    (search : String) (matchCase inSentences : Bool) : List Instruction → Option Bool
  | [] => some false
  | instruction :: rest =>
    match SearchStringInInstructionChecked platform isCondition search matchCase
        inSentences instruction with
    | none => none
    | some found =>
      if found then some true
      else
        SearchStringInInstructionsChecked platform isCondition search matchCase
          inSentences rest
end

/-- The parameter loop of the replacement with checked indices, with `count`
iterations left from index `pNb`. The outer `none` is an index out of range;
the inner option is that of `ReplaceStringInParameters`, `none` when a
replacement loop does not exit. -/
def ReplaceStringInParametersChecked (toReplace newString : String) (matchCase : Bool) :
    Nat → Nat → List String → Bool → Option (Option (Bool × List String))
  | 0, _, parameters, somethingModified => some (some (somethingModified, parameters))
  | count + 1, pNb, parameters, somethingModified =>
    match GetParameterChecked parameters pNb with
    | none => none
    | some parameter =>
      match ReplaceStringInText parameter toReplace newString matchCase with
      | none => some none
      | some newParameter =>
        if newParameter != parameter then
          match SetParameterChecked parameters pNb newParameter with
          | none => none
          | some parameters1 =>
            ReplaceStringInParametersChecked toReplace newString matchCase count (pNb + 1)
              parameters1 true
        else
          ReplaceStringInParametersChecked toReplace newString matchCase count (pNb + 1)
            parameters somethingModified

mutual
/-- The body of the instruction loop of the replacement with checked indices;
the outer `none` is an index out of range. -/
def ReplaceStringInInstructionChecked (toReplace newString : String) (matchCase : Bool) :
    Instruction → Bool → Option (Option (Bool × Instruction))
  | .mk type parameters subInstructions, somethingModified =>
    match ReplaceStringInParametersChecked toReplace newString matchCase parameters.length
        0 parameters somethingModified with
    | none => none
    | some none => some none
    | some (some replaced) =>
      if !subInstructions.isEmpty then
        match ReplaceStringInInstructionsChecked toReplace newString matchCase
            subInstructions false with
        | none => none
        | some none => some none
        | some (some sub) => some (some (replaced.1, .mk type replaced.2 sub.2))
      else some (some (replaced.1, .mk type replaced.2 subInstructions))
/-- The instruction loop of the replacement with checked indices; the outer
`none` is an index out of range. -/
def ReplaceStringInInstructionsChecked (toReplace newString : String) (matchCase : Bool) :
    List Instruction → Bool → Option (Option (Bool × List Instruction))
  | [], somethingModified => some (some (somethingModified, []))
  | instruction :: rest, somethingModified =>
    match ReplaceStringInInstructionChecked toReplace newString matchCase instruction
        somethingModified with
    | none => none
    | some none => some none
    | some (some body) =>
      match ReplaceStringInInstructionsChecked toReplace newString matchCase rest
          body.1 with
      | none => none
      | some none => some none
      | some (some r) => some (some (r.1, body.2 :: r.2))
end

end EventsRefactorer

namespace EventsRefactorer

/-- The loop over the condition vectors of an event in `RemoveObjectInEvents`:
`RemoveObjectInConditions` runs on each vector, its result `conditionsModified`
is not used; the vectors after the loop, `none` when a call does not return. -/
def RemoveObjectInConditionsVectors (platform : Platform) (name : String) :
    List (List Instruction) → Option (List (List Instruction))
  | [] => some []
  | conditions :: rest =>
    match RemoveObjectInConditions platform conditions name with
    | none => none
    | some conditionsModified =>
      match RemoveObjectInConditionsVectors platform name rest with
      | none => none
      | some rest1 => some (conditionsModified.2 :: rest1)

/-- The loop over the action vectors of an event in `RemoveObjectInEvents`:
`RemoveObjectInActions` runs on each vector, its result `actionsModified` is
not used; the vectors after the loop, `none` when a call does not return. -/
def RemoveObjectInActionsVectors (platform : Platform) (name : String) :
    List (List Instruction) → Option (List (List Instruction))
  | [] => some []
  | actions :: rest =>
    match RemoveObjectInActions platform actions name with
    | none => none
    | some actionsModified =>
      match RemoveObjectInActionsVectors platform name rest with
      | none => none
      | some rest1 => some (actionsModified.2 :: rest1)

mutual
/-- The body of the event loop of `RemoveObjectInEvents`: the loop over the
condition vectors, the loop over the action vectors, then the recursive call on
the sub-events when the event can have some. The searchable strings and the
expressions of the event are not touched. -/
def RemoveObjectInEvent (platform : Platform) (name : String) : BaseEvent → Option BaseEvent
  | .mk conditionsVectors actionsVectors searchableStrings expressionsWithMetadata
      canHaveSubEvents subEvents =>
    match RemoveObjectInConditionsVectors platform name conditionsVectors with
    | none => none
    | some conditionsVectors1 =>
      match RemoveObjectInActionsVectors platform name actionsVectors with
      | none => none
      | some actionsVectors1 =>
        if canHaveSubEvents then
          match RemoveObjectInEventsLoop platform name subEvents with
          | none => none
          | some subEvents1 =>
            some (.mk conditionsVectors1 actionsVectors1 searchableStrings
              expressionsWithMetadata canHaveSubEvents subEvents1)
        else
          some (.mk conditionsVectors1 actionsVectors1 searchableStrings
            expressionsWithMetadata canHaveSubEvents subEvents)
/-- The event loop `for (i = 0; i < events.size(); ++i)` of
`RemoveObjectInEvents`. -/
def RemoveObjectInEventsLoop (platform : Platform) (name : String) :
    List BaseEvent → Option (List BaseEvent)
  | [] => some []
  | event :: rest =>
    match RemoveObjectInEvent platform name event with
    | none => none
    | some event1 =>
      match RemoveObjectInEventsLoop platform name rest with
      | none => none
      | some rest1 => some (event1 :: rest1)
end

/-- Translation of `EventsRefactorer::RemoveObjectInEvents`: the events after
the call, `none` when the call does not return. -/
def RemoveObjectInEvents (platform : Platform) (events : List BaseEvent) (name : String) :
    Option (List BaseEvent) :=
  RemoveObjectInEventsLoop platform name events

end EventsRefactorer

/-! ## Specification vocabulary for the removal in events -/

mutual
/-- The instruction lists that the removal visits in the event and below it
have sizes that a `std::size_t` holds. -/
def EventSizesFit : BaseEvent → Bool
  | .mk conditionsVectors actionsVectors _ _ canHaveSubEvents subEvents =>
    conditionsVectors.all InstructionsSizesFit && actionsVectors.all InstructionsSizesFit &&
      (!canHaveSubEvents || EventsSizesFit subEvents)
/-- The instruction lists that the removal visits in the events of the list,
and in the events reached from them through events that declare sub-event
support, have sizes that a `std::size_t` holds. -/
def EventsSizesFit : List BaseEvent → Bool
  | [] => true
  | event :: rest => EventSizesFit event && EventsSizesFit rest
end

mutual
/-- The event after the removal: every condition vector and every action
vector after removal, the sub-events after removal when the event declares
sub-event support, and nothing else changed. -/
def RemovedInEvent (platform : Platform) (name : String) : BaseEvent → BaseEvent
  | .mk conditionsVectors actionsVectors searchableStrings expressionsWithMetadata
      canHaveSubEvents subEvents =>
    .mk
      (conditionsVectors.map (RemovedInInstructions platform platform.GetConditionMetadata name))
      (actionsVectors.map (RemovedInInstructions platform platform.GetActionMetadata name))
      searchableStrings expressionsWithMetadata canHaveSubEvents
      (if canHaveSubEvents then RemovedInEvents platform name subEvents else subEvents)
/-- The event list after the removal: the same events in the same order, each
after removal. -/
def RemovedInEvents (platform : Platform) (name : String) : List BaseEvent → List BaseEvent
  | [] => []
  | event :: rest => RemovedInEvent platform name event :: RemovedInEvents platform name rest
end

/-! ## Replacing a text in events -/

/-- Modelled from the spec: `BaseEvent::ReplaceAllSearchableStrings`, the "set
all searchable strings" operation, on the searchable strings that the event
owns: a no-op when the number of new strings is not that of the strings of the
event; the flag tells whether the strings have been changed. -/
def ReplaceAllSearchableStrings (searchableStrings newSearchableString : List String) :
    Bool × List String :=
  if newSearchableString.length = searchableStrings.length then
    (newSearchableString != searchableStrings, newSearchableString)
  else (false, searchableStrings)

namespace EventsRefactorer

/-- The loop of `ReplaceStringInEventSearchableStrings` that builds
`newEventStrings`, one new text for each searchable string; `none` when a
replacement loop does not exit. -/
def ReplaceStringInStrings (toReplace newString : String) (matchCase : Bool) :
    List String → Option (List String)
  | [] => some []
  | stringEvent :: rest =>
    match ReplaceStringInText stringEvent toReplace newString matchCase with
    | none => none
    | some newStringEvent =>
      match ReplaceStringInStrings toReplace newString matchCase rest with
      | none => none
      | some newEventStrings => some (newStringEvent :: newEventStrings)

/-- Translation of `EventsRefactorer::ReplaceStringInEventSearchableStrings`, on
the searchable strings of the event, which are all it reads and writes of the
event: the returned `somethingModified` and the searchable strings after the
call. -/
def ReplaceStringInEventSearchableStrings (searchableStrings : List String)
    (toReplace newString : String) (matchCase : Bool) : Option (Bool × List String) :=
  match ReplaceStringInStrings toReplace newString matchCase searchableStrings with
  | none => none
  | some newEventStrings =>
    some (ReplaceAllSearchableStrings searchableStrings newEventStrings)

/-- The loop over the condition vectors of the event `events[i]` in
`ReplaceStringInEvents`, on the state `eventModified` and the number `pushed` of
entries pushed for the event so far: the state and the vectors after the loop.
Every entry pushed for the event is the same entry, so the number of pushes
stands for them. -/
def ReplaceStringInConditionsVectors (toReplace newString : String) (matchCase : Bool) :
    List (List Instruction) → Bool → Nat → Option (Bool × Nat × List (List Instruction))
  | [], eventModified, pushed => some (eventModified, pushed, [])
  | conditions :: rest, eventModified, pushed =>
    match ReplaceStringInConditions conditions toReplace newString matchCase with
    | none => none
    | some conditionsModified =>
      let state : Bool × Nat :=
        if conditionsModified.1 && !eventModified then (true, pushed + 1)
        else (eventModified, pushed)
      match ReplaceStringInConditionsVectors toReplace newString matchCase rest state.1
          state.2 with
      | none => none
      | some r => some (r.1, r.2.1, conditionsModified.2 :: r.2.2)

/-- The loop over the action vectors of the event `events[i]` in
`ReplaceStringInEvents`, on the state `eventModified` and the number `pushed` of
entries pushed for the event so far. -/
def ReplaceStringInActionsVectors (toReplace newString : String) (matchCase : Bool) :
    List (List Instruction) → Bool → Nat → Option (Bool × Nat × List (List Instruction))
  | [], eventModified, pushed => some (eventModified, pushed, [])
  | actions :: rest, eventModified, pushed =>
    match ReplaceStringInActions actions toReplace newString matchCase with
    | none => none
    | some actionsModified =>
      let state : Bool × Nat :=
        if actionsModified.1 && !eventModified then (true, pushed + 1)
        else (eventModified, pushed)
      match ReplaceStringInActionsVectors toReplace newString matchCase rest state.1
          state.2 with
      | none => none
      | some r => some (r.1, r.2.1, actionsModified.2 :: r.2.2)

mutual
/-- The body of the event loop of `ReplaceStringInEvents` for the event
`events[i]` of the list at address `eventsList`: the three checks, each under
its flag, then the recursive call on the sub-events when the event can have
some, which starts with the test of the empty search text as every call does.
The results are the entries pushed for the event, followed by those of the
recursive call; an entry refers to the event, read here as it is when the call
returns. The event after the body comes out with the results. -/
def ReplaceStringInEvent (toReplace newString : String)
    (matchCase inConditions inActions inEventStrings : Bool)
    (eventsList : List Nat) (i : Nat) : BaseEvent → Option (List EventsSearchResult × BaseEvent)
  | .mk conditionsVectors actionsVectors searchableStrings expressionsWithMetadata
      canHaveSubEvents subEvents =>
    match (if inConditions then
        ReplaceStringInConditionsVectors toReplace newString matchCase conditionsVectors
          false 0
      else some (false, 0, conditionsVectors)) with
    | none => none
    | some c =>
      match (if inActions then
          ReplaceStringInActionsVectors toReplace newString matchCase actionsVectors c.1
            c.2.1
        else some (c.1, c.2.1, actionsVectors)) with
      | none => none
      | some a =>
        match (if inEventStrings then
            match ReplaceStringInEventSearchableStrings searchableStrings toReplace
                newString matchCase with
            | none => none
            | some eventStringModified =>
              if eventStringModified.1 && !a.1 then
                some (true, a.2.1 + 1, eventStringModified.2)
              else some (a.1, a.2.1, eventStringModified.2)
          else some (a.1, a.2.1, searchableStrings)) with
        | none => none
        | some s =>
          match (if canHaveSubEvents then
              (if toReplace = "" then some ([], subEvents)
               else
                ReplaceStringInEventsFrom toReplace newString matchCase inConditions
                  inActions inEventStrings (eventsList ++ [i]) 0 subEvents)
            else some ([], subEvents)) with
          | none => none
          | some modifiedSubEvent =>
            let event := BaseEvent.mk c.2.2 a.2.2 s.2.2 expressionsWithMetadata
              canHaveSubEvents modifiedSubEvent.2
            some (List.replicate s.2.1 ⟨event, eventsList, i⟩ ++ modifiedSubEvent.1, event)
/-- The event loop `for (i = 0; i < events.size(); ++i)` of
`ReplaceStringInEvents` from index `i` on, over the events not visited yet:
the results and the events after the loop. -/
def ReplaceStringInEventsFrom (toReplace newString : String)
    (matchCase inConditions inActions inEventStrings : Bool)
    (eventsList : List Nat) (i : Nat) :
    List BaseEvent → Option (List EventsSearchResult × List BaseEvent)
  | [] => some ([], [])
  | event :: rest =>
    match ReplaceStringInEvent toReplace newString matchCase inConditions inActions
        inEventStrings eventsList i event with
    | none => none
    | some body =>
      match ReplaceStringInEventsFrom toReplace newString matchCase inConditions inActions
          inEventStrings eventsList (i + 1) rest with
      | none => none
      | some r => some (body.1 ++ r.1, body.2 :: r.2)
end

/-- Translation of `EventsRefactorer::ReplaceStringInEvents` on the list
`events` found at the address `eventsList`: the returned `modifiedEvents` and
the events after the call; `none` when a replacement loop does not exit. -/
def ReplaceStringInEvents (events : List BaseEvent) (toReplace newString : String)
    (matchCase inConditions inActions inEventStrings : Bool) (eventsList : List Nat) :
    Option (List EventsSearchResult × List BaseEvent) :=
  if toReplace = "" then some ([], events)
  else
    ReplaceStringInEventsFrom toReplace newString matchCase inConditions inActions
      inEventStrings eventsList 0 events

end EventsRefactorer

/-! ## Specification vocabulary for the replacement in events -/

/-- A participating check reports a modification of the event: conditions are
replaced in and `ReplaceStringInConditions` returns true on one of its condition
vectors, or actions are replaced in and `ReplaceStringInActions` returns true on
one of its action vectors, or event strings are replaced in and
`ReplaceStringInEventSearchableStrings` returns true. -/
def ReportsModification (toReplace newString : String)
    (matchCase inConditions inActions inEventStrings : Bool) (event : BaseEvent) : Bool :=
  (inConditions && event.GetAllConditionsVectors.any (fun conditions =>
    match ReplaceStringInConditions conditions toReplace newString matchCase with
    | some conditionsModified => conditionsModified.1
    | none => false)) ||
  (inActions && event.GetAllActionsVectors.any (fun actions =>
    match ReplaceStringInActions actions toReplace newString matchCase with
    | some actionsModified => actionsModified.1
    | none => false)) ||
  (inEventStrings &&
    match ReplaceStringInEventSearchableStrings event.GetAllSearchableStrings toReplace
        newString matchCase with
    | some eventStringModified => eventStringModified.1
    | none => false)

mutual
/-- The addresses listed for an event at position `i` of the list at address
`eventsList`, as the specification words it: the address of the event, once,
when a participating check reports a modification, followed by the addresses
listed for its sub-events when the event declares sub-event support. -/
def ModifiedEventAddresses (toReplace newString : String)
    (matchCase inConditions inActions inEventStrings : Bool)
    (eventsList : List Nat) (i : Nat) : BaseEvent → List (List Nat)
  | .mk conditionsVectors actionsVectors searchableStrings expressionsWithMetadata
      canHaveSubEvents subEvents =>
    (if ReportsModification toReplace newString matchCase inConditions inActions
        inEventStrings (.mk conditionsVectors actionsVectors searchableStrings
          expressionsWithMetadata canHaveSubEvents subEvents)
      then [eventsList ++ [i]] else []) ++
    (if canHaveSubEvents then
      ModifiedEventsAddressesFrom toReplace newString matchCase inConditions inActions
        inEventStrings (eventsList ++ [i]) 0 subEvents
     else [])
/-- The addresses listed for the events of a list from position `i` on, as the
specification words it: those of the first event and of its sub-events, then
those of the next sibling. -/
def ModifiedEventsAddressesFrom (toReplace newString : String)
    (matchCase inConditions inActions inEventStrings : Bool)
    (eventsList : List Nat) (i : Nat) : List BaseEvent → List (List Nat)
  | [] => []
  | event :: rest =>
    ModifiedEventAddresses toReplace newString matchCase inConditions inActions
      inEventStrings eventsList i event ++
    ModifiedEventsAddressesFrom toReplace newString matchCase inConditions inActions
      inEventStrings eventsList (i + 1) rest
end

/-- The event at an address of the tree, an address being the positions to
follow from the top-level list through the sub-events of events that declare
sub-event support, the last one being the position of the event in its list. -/
def EventAtAddress : List BaseEvent → List Nat → Option BaseEvent
  | _, [] => none
  | events, [index] => events[index]?
  | events, index :: next :: rest =>
    match events[index]? with
    | some event =>
      if event.CanHaveSubEvents then EventAtAddress event.GetSubEvents (next :: rest)
      else none
    | none => none

/-- The number of times the address is to be listed by the replacement in
events: once when it is the address of an event for which a participating check
reports a modification, never otherwise. -/
def ModifiedEventCount (toReplace newString : String)
    (matchCase inConditions inActions inEventStrings : Bool) (events : List BaseEvent)
    (address : List Nat) : Nat :=
  match EventAtAddress events address with
  | some event =>
    (ReportsModification toReplace newString matchCase inConditions inActions
      inEventStrings event).toNat
  | none => 0

/-! # Properties -/

/-! ## The expression workers -/

mutual
/-- The renamer worker sets its flag exactly when the tree holds a matching node
and produces the tree with the matching nodes renamed. -/
theorem RenamerVisit_eq (platform : Platform)
    (rootType objectName objectNewName : String) :
    ∀ (node : ExpressionNode) (flag : Bool),
      ExpressionObjectRenamer.Visit platform rootType objectName objectNewName node flag =
        (flag || ContainsMatchingNode platform rootType objectName node,
          RenameMatchingNodes platform rootType objectName objectNewName node)
  | .Operator op l r, flag => by
    simp [ExpressionObjectRenamer.Visit, ContainsMatchingNode, RenameMatchingNodes,
      RenamerVisit_eq platform rootType objectName objectNewName l,
      RenamerVisit_eq platform rootType objectName objectNewName r,
      Bool.or_assoc]
  | .UnaryOperator op f, flag => by
    simp [ExpressionObjectRenamer.Visit, ContainsMatchingNode, RenameMatchingNodes,
      RenamerVisit_eq platform rootType objectName objectNewName f]
  | .SubExpression e, flag => by
    simp [ExpressionObjectRenamer.Visit, ContainsMatchingNode, RenameMatchingNodes,
      RenamerVisit_eq platform rootType objectName objectNewName e]
  | .Variable name c, flag => by
    simp [ExpressionObjectRenamer.Visit, ContainsMatchingNode, RenameMatchingNodes,
      RenamerVisitChild_eq platform rootType objectName objectNewName c]
  | .VariableAccessor name c, flag => by
    simp [ExpressionObjectRenamer.Visit, ContainsMatchingNode, RenameMatchingNodes,
      RenamerVisitChild_eq platform rootType objectName objectNewName c]
  | .VariableBracketAccessor e c, flag => by
    simp [ExpressionObjectRenamer.Visit, ContainsMatchingNode, RenameMatchingNodes,
      RenamerVisit_eq platform rootType objectName objectNewName e,
      RenamerVisitChild_eq platform rootType objectName objectNewName c,
      Bool.or_assoc]
  | .Identifier n, flag => by
    simp only [ExpressionObjectRenamer.Visit, ContainsMatchingNode, RenameMatchingNodes,
      IsMatchingNode, RenamedName]
    by_cases h : (ParameterMetadata.IsObject (platform.GetType rootType (.Identifier n)) &&
      n == objectName) = true
    · simp [h]
    · rw [if_neg h, if_neg h]
      simp only [Bool.not_eq_true] at h
      simp [h]
  | .ObjectFunctionName o f, flag => by
    simp only [ExpressionObjectRenamer.Visit, ContainsMatchingNode, RenameMatchingNodes,
      IsMatchingNode, RenamedName]
    by_cases h : (o == objectName) = true
    · simp [h]
    · rw [if_neg h, if_neg h]
      simp only [Bool.not_eq_true] at h
      simp [h]
  | .FunctionCall o f ps, flag => by
    simp only [ExpressionObjectRenamer.Visit, ContainsMatchingNode, RenameMatchingNodes,
      IsMatchingNode, RenamedName,
      RenamerVisitParameters_eq platform rootType objectName objectNewName ps]
    by_cases h : (o == objectName) = true <;> simp [h, Bool.or_assoc]
  | .Text t, flag => by
    simp [ExpressionObjectRenamer.Visit, ContainsMatchingNode, RenameMatchingNodes]
  | .Number n, flag => by
    simp [ExpressionObjectRenamer.Visit, ContainsMatchingNode, RenameMatchingNodes]
  | .Empty, flag => by
    simp [ExpressionObjectRenamer.Visit, ContainsMatchingNode, RenameMatchingNodes]
/-- The guarded visit of the optional child, likewise. -/
theorem RenamerVisitChild_eq (platform : Platform)
    (rootType objectName objectNewName : String) :
    ∀ (child : Option ExpressionNode) (flag : Bool),
      ExpressionObjectRenamer.VisitChild platform rootType objectName objectNewName child flag =
        (flag || ChildContainsMatchingNode platform rootType objectName child,
          RenameMatchingChild platform rootType objectName objectNewName child)
  | none, flag => by
    simp [ExpressionObjectRenamer.VisitChild, ChildContainsMatchingNode, RenameMatchingChild]
  | some c, flag => by
    simp [ExpressionObjectRenamer.VisitChild, ChildContainsMatchingNode, RenameMatchingChild,
      RenamerVisit_eq platform rootType objectName objectNewName c]
/-- The loop over the call parameters, likewise. -/
theorem RenamerVisitParameters_eq (platform : Platform)
    (rootType objectName objectNewName : String) :
    ∀ (parameters : List ExpressionNode) (flag : Bool),
      ExpressionObjectRenamer.VisitParameters platform rootType objectName objectNewName
          parameters flag =
        (flag || ParametersContainMatchingNode platform rootType objectName parameters,
          RenameMatchingParameters platform rootType objectName objectNewName parameters)
  | [], flag => by
    simp [ExpressionObjectRenamer.VisitParameters, ParametersContainMatchingNode,
      RenameMatchingParameters]
  | p :: ps, flag => by
    simp [ExpressionObjectRenamer.VisitParameters, ParametersContainMatchingNode,
      RenameMatchingParameters,
      RenamerVisit_eq platform rootType objectName objectNewName p,
      RenamerVisitParameters_eq platform rootType objectName objectNewName ps,
      Bool.or_assoc]
end

mutual
/-- The finder worker sets its flag exactly when the tree holds a matching node. -/
theorem FinderVisit_eq (platform : Platform) (rootType objectName : String) :
    ∀ (node : ExpressionNode) (flag : Bool),
      ExpressionObjectFinder.Visit platform rootType objectName node flag =
        (flag || ContainsMatchingNode platform rootType objectName node)
  | .Operator op l r, flag => by
    simp [ExpressionObjectFinder.Visit, ContainsMatchingNode,
      FinderVisit_eq platform rootType objectName l,
      FinderVisit_eq platform rootType objectName r, Bool.or_assoc]
  | .UnaryOperator op f, flag => by
    simp [ExpressionObjectFinder.Visit, ContainsMatchingNode,
      FinderVisit_eq platform rootType objectName f]
  | .SubExpression e, flag => by
    simp [ExpressionObjectFinder.Visit, ContainsMatchingNode,
      FinderVisit_eq platform rootType objectName e]
  | .Variable name c, flag => by
    simp [ExpressionObjectFinder.Visit, ContainsMatchingNode,
      FinderVisitChild_eq platform rootType objectName c]
  | .VariableAccessor name c, flag => by
    simp [ExpressionObjectFinder.Visit, ContainsMatchingNode,
      FinderVisitChild_eq platform rootType objectName c]
  | .VariableBracketAccessor e c, flag => by
    simp [ExpressionObjectFinder.Visit, ContainsMatchingNode,
      FinderVisit_eq platform rootType objectName e,
      FinderVisitChild_eq platform rootType objectName c, Bool.or_assoc]
  | .Identifier n, flag => by
    simp only [ExpressionObjectFinder.Visit, ContainsMatchingNode, IsMatchingNode]
    by_cases h : (ParameterMetadata.IsObject (platform.GetType rootType (.Identifier n)) &&
      n == objectName) = true
    · simp [h]
    · rw [if_neg h]
      simp only [Bool.not_eq_true] at h
      simp [h]
  | .ObjectFunctionName o f, flag => by
    simp only [ExpressionObjectFinder.Visit, ContainsMatchingNode, IsMatchingNode]
    by_cases h : (o == objectName) = true
    · simp [h]
    · rw [if_neg h]
      simp only [Bool.not_eq_true] at h
      simp [h]
  | .FunctionCall o f ps, flag => by
    simp only [ExpressionObjectFinder.Visit, ContainsMatchingNode, IsMatchingNode,
      FinderVisitParameters_eq platform rootType objectName ps]
    by_cases h : (o == objectName) = true <;> simp [h, Bool.or_assoc]
  | .Text t, flag => by simp [ExpressionObjectFinder.Visit, ContainsMatchingNode]
  | .Number n, flag => by simp [ExpressionObjectFinder.Visit, ContainsMatchingNode]
  | .Empty, flag => by simp [ExpressionObjectFinder.Visit, ContainsMatchingNode]
/-- The guarded visit of the optional child by the finder, likewise. -/
theorem FinderVisitChild_eq (platform : Platform)
    (rootType objectName : String) :
    ∀ (child : Option ExpressionNode) (flag : Bool),
      ExpressionObjectFinder.VisitChild platform rootType objectName child flag =
        (flag || ChildContainsMatchingNode platform rootType objectName child)
  | none, flag => by simp [ExpressionObjectFinder.VisitChild, ChildContainsMatchingNode]
  | some c, flag => by
    simp [ExpressionObjectFinder.VisitChild, ChildContainsMatchingNode,
      FinderVisit_eq platform rootType objectName c]
/-- The loop of the finder over the call parameters, likewise. -/
theorem FinderVisitParameters_eq (platform : Platform)
    (rootType objectName : String) :
    ∀ (parameters : List ExpressionNode) (flag : Bool),
      ExpressionObjectFinder.VisitParameters platform rootType objectName parameters flag =
        (flag || ParametersContainMatchingNode platform rootType objectName parameters)
  | [], flag => by
    simp [ExpressionObjectFinder.VisitParameters, ParametersContainMatchingNode]
  | p :: ps, flag => by
    simp [ExpressionObjectFinder.VisitParameters, ParametersContainMatchingNode,
      FinderVisit_eq platform rootType objectName p,
      FinderVisitParameters_eq platform rootType objectName ps, Bool.or_assoc]
end

/-- A node is a member of its own list of nodes. -/
theorem mem_Nodes_self (node : ExpressionNode) : node ∈ Nodes node := by
  cases node <;> simp [Nodes]

mutual
/-- The recursive test for a matching node is the existence of a matching node
among the nodes of the tree. -/
theorem ContainsMatchingNode_iff (platform : Platform) (rootType objectName : String) :
    ∀ node : ExpressionNode,
      (ContainsMatchingNode platform rootType objectName node = true ↔
        ∃ n ∈ Nodes node, IsMatchingNode platform rootType objectName n = true)
  | .Operator op l r => by
    simp [ContainsMatchingNode, Nodes, IsMatchingNode,
      ContainsMatchingNode_iff platform rootType objectName l,
      ContainsMatchingNode_iff platform rootType objectName r, or_and_right, exists_or]
  | .UnaryOperator op f => by
    simp [ContainsMatchingNode, Nodes, IsMatchingNode,
      ContainsMatchingNode_iff platform rootType objectName f]
  | .SubExpression e => by
    simp [ContainsMatchingNode, Nodes, IsMatchingNode,
      ContainsMatchingNode_iff platform rootType objectName e]
  | .Variable name c => by
    simp [ContainsMatchingNode, Nodes, IsMatchingNode,
      ChildContainsMatchingNode_iff platform rootType objectName c]
  | .VariableAccessor name c => by
    simp [ContainsMatchingNode, Nodes, IsMatchingNode,
      ChildContainsMatchingNode_iff platform rootType objectName c]
  | .VariableBracketAccessor e c => by
    simp [ContainsMatchingNode, Nodes, IsMatchingNode,
      ContainsMatchingNode_iff platform rootType objectName e,
      ChildContainsMatchingNode_iff platform rootType objectName c, or_and_right, exists_or]
  | .Identifier n => by simp [ContainsMatchingNode, Nodes]
  | .ObjectFunctionName o f => by simp [ContainsMatchingNode, Nodes]
  | .FunctionCall o f ps => by
    simp [ContainsMatchingNode, Nodes,
      ParametersContainMatchingNode_iff platform rootType objectName ps]
  | .Text t => by simp [ContainsMatchingNode, Nodes, IsMatchingNode]
  | .Number n => by simp [ContainsMatchingNode, Nodes, IsMatchingNode]
  | .Empty => by simp [ContainsMatchingNode, Nodes, IsMatchingNode]
/-- The same for an optional child. -/
theorem ChildContainsMatchingNode_iff (platform : Platform) (rootType objectName : String) :
    ∀ child : Option ExpressionNode,
      (ChildContainsMatchingNode platform rootType objectName child = true ↔
        ∃ n ∈ ChildNodes child, IsMatchingNode platform rootType objectName n = true)
  | none => by simp [ChildContainsMatchingNode, ChildNodes]
  | some c => by
    simp [ChildContainsMatchingNode, ChildNodes,
      ContainsMatchingNode_iff platform rootType objectName c]
/-- The same for the parameters of a call. -/
theorem ParametersContainMatchingNode_iff (platform : Platform)
    (rootType objectName : String) :
    ∀ parameters : List ExpressionNode,
      (ParametersContainMatchingNode platform rootType objectName parameters = true ↔
        ∃ n ∈ ParametersNodes parameters, IsMatchingNode platform rootType objectName n = true)
  | [] => by simp [ParametersContainMatchingNode, ParametersNodes]
  | p :: ps => by
    simp [ParametersContainMatchingNode, ParametersNodes,
      ContainsMatchingNode_iff platform rootType objectName p,
      ParametersContainMatchingNode_iff platform rootType objectName ps, or_and_right,
      exists_or]
end

mutual
/-- The tree with the matching nodes renamed is in the rename frame of the tree. -/
theorem RenameFrame_RenameMatchingNodes (platform : Platform)
    (rootType objectName objectNewName : String) :
    ∀ node : ExpressionNode,
      RenameFrame platform rootType objectName node
        (RenameMatchingNodes platform rootType objectName objectNewName node)
  | .Operator op l r =>
    ⟨_, _, rfl, RenameFrame_RenameMatchingNodes platform rootType objectName objectNewName l,
      RenameFrame_RenameMatchingNodes platform rootType objectName objectNewName r⟩
  | .UnaryOperator op f =>
    ⟨_, rfl, RenameFrame_RenameMatchingNodes platform rootType objectName objectNewName f⟩
  | .SubExpression e =>
    ⟨_, rfl, RenameFrame_RenameMatchingNodes platform rootType objectName objectNewName e⟩
  | .Variable name c =>
    ⟨_, rfl, RenameFrameChild_RenameMatchingChild platform rootType objectName objectNewName c⟩
  | .VariableAccessor name c =>
    ⟨_, rfl, RenameFrameChild_RenameMatchingChild platform rootType objectName objectNewName c⟩
  | .VariableBracketAccessor e c =>
    ⟨_, _, rfl, RenameFrame_RenameMatchingNodes platform rootType objectName objectNewName e,
      RenameFrameChild_RenameMatchingChild platform rootType objectName objectNewName c⟩
  | .Identifier n => by
    refine ⟨_, rfl, ?_, ?_⟩
    · intro h
      simp [RenamedName, IsMatchingNode, h]
    · intro h
      simp [RenamedName, IsMatchingNode, h]
  | .ObjectFunctionName o f => by
    refine ⟨_, rfl, ?_⟩
    intro h
    simp [RenamedName, IsMatchingNode, h]
  | .FunctionCall o f ps => by
    refine ⟨_, _, rfl, ?_, ?_,
      RenameFrameParameters_RenameMatchingParameters platform rootType objectName
        objectNewName ps⟩
    · intro h
      simp [RenamedName, IsMatchingNode, h]
    · exact RenameMatchingParameters_length platform rootType objectName objectNewName ps
  | .Text t => rfl
  | .Number n => rfl
  | .Empty => rfl
/-- The same for an optional child. -/
theorem RenameFrameChild_RenameMatchingChild (platform : Platform)
    (rootType objectName objectNewName : String) :
    ∀ child : Option ExpressionNode,
      RenameFrameChild platform rootType objectName child
        (RenameMatchingChild platform rootType objectName objectNewName child)
  | none => rfl
  | some c =>
    ⟨_, rfl, RenameFrame_RenameMatchingNodes platform rootType objectName objectNewName c⟩
/-- The same for the parameters of a call. -/
theorem RenameFrameParameters_RenameMatchingParameters (platform : Platform)
    (rootType objectName objectNewName : String) :
    ∀ parameters : List ExpressionNode,
      RenameFrameParameters platform rootType objectName parameters
        (RenameMatchingParameters platform rootType objectName objectNewName parameters)
  | [] => rfl
  | p :: ps =>
    ⟨_, _, rfl, RenameFrame_RenameMatchingNodes platform rootType objectName objectNewName p,
      RenameFrameParameters_RenameMatchingParameters platform rootType objectName
        objectNewName ps⟩
/-- Renaming keeps the number of call parameters. -/
theorem RenameMatchingParameters_length (platform : Platform)
    (rootType objectName objectNewName : String) :
    ∀ parameters : List ExpressionNode,
      (RenameMatchingParameters platform rootType objectName objectNewName parameters).length
        = parameters.length
  | [] => rfl
  | p :: ps => by
    simp [RenameMatchingParameters,
      RenameMatchingParameters_length platform rootType objectName objectNewName ps]
end

mutual
/-- A tree without matching node is its own renaming. -/
theorem RenameMatchingNodes_of_no_match (platform : Platform)
    (rootType objectName objectNewName : String) :
    ∀ node : ExpressionNode,
      ContainsMatchingNode platform rootType objectName node = false →
        RenameMatchingNodes platform rootType objectName objectNewName node = node
  | .Operator op l r => by
    intro h
    simp only [ContainsMatchingNode, Bool.or_eq_false_iff] at h
    simp [RenameMatchingNodes,
      RenameMatchingNodes_of_no_match platform rootType objectName objectNewName l h.1,
      RenameMatchingNodes_of_no_match platform rootType objectName objectNewName r h.2]
  | .UnaryOperator op f => by
    intro h
    simp only [ContainsMatchingNode] at h
    simp [RenameMatchingNodes,
      RenameMatchingNodes_of_no_match platform rootType objectName objectNewName f h]
  | .SubExpression e => by
    intro h
    simp only [ContainsMatchingNode] at h
    simp [RenameMatchingNodes,
      RenameMatchingNodes_of_no_match platform rootType objectName objectNewName e h]
  | .Variable name c => by
    intro h
    simp only [ContainsMatchingNode] at h
    simp [RenameMatchingNodes,
      RenameMatchingChild_of_no_match platform rootType objectName objectNewName c h]
  | .VariableAccessor name c => by
    intro h
    simp only [ContainsMatchingNode] at h
    simp [RenameMatchingNodes,
      RenameMatchingChild_of_no_match platform rootType objectName objectNewName c h]
  | .VariableBracketAccessor e c => by
    intro h
    simp only [ContainsMatchingNode, Bool.or_eq_false_iff] at h
    simp [RenameMatchingNodes,
      RenameMatchingNodes_of_no_match platform rootType objectName objectNewName e h.1,
      RenameMatchingChild_of_no_match platform rootType objectName objectNewName c h.2]
  | .Identifier n => by
    intro h
    simp only [ContainsMatchingNode] at h
    simp [RenameMatchingNodes, RenamedName, h]
  | .ObjectFunctionName o f => by
    intro h
    simp only [ContainsMatchingNode] at h
    simp [RenameMatchingNodes, RenamedName, h]
  | .FunctionCall o f ps => by
    intro h
    simp only [ContainsMatchingNode, Bool.or_eq_false_iff] at h
    simp [RenameMatchingNodes, RenamedName, h.1,
      RenameMatchingParameters_of_no_match platform rootType objectName objectNewName ps h.2]
  | .Text t => fun _ => rfl
  | .Number n => fun _ => rfl
  | .Empty => fun _ => rfl
/-- The same for an optional child. -/
theorem RenameMatchingChild_of_no_match (platform : Platform)
    (rootType objectName objectNewName : String) :
    ∀ child : Option ExpressionNode,
      ChildContainsMatchingNode platform rootType objectName child = false →
        RenameMatchingChild platform rootType objectName objectNewName child = child
  | none => fun _ => rfl
  | some c => by
    intro h
    simp only [ChildContainsMatchingNode] at h
    simp [RenameMatchingChild,
      RenameMatchingNodes_of_no_match platform rootType objectName objectNewName c h]
/-- The same for the parameters of a call. -/
theorem RenameMatchingParameters_of_no_match (platform : Platform)
    (rootType objectName objectNewName : String) :
    ∀ parameters : List ExpressionNode,
      ParametersContainMatchingNode platform rootType objectName parameters = false →
        RenameMatchingParameters platform rootType objectName objectNewName parameters
          = parameters
  | [] => fun _ => rfl
  | p :: ps => by
    intro h
    simp only [ParametersContainMatchingNode, Bool.or_eq_false_iff] at h
    simp [RenameMatchingParameters,
      RenameMatchingNodes_of_no_match platform rootType objectName objectNewName p h.1,
      RenameMatchingParameters_of_no_match platform rootType objectName objectNewName ps h.2]
end

mutual
/-- Every tree is in its own rename frame. -/
theorem RenameFrame_refl (platform : Platform) (rootType objectName : String) :
    ∀ node : ExpressionNode, RenameFrame platform rootType objectName node node
  | .Operator _ l r =>
    ⟨_, _, rfl, RenameFrame_refl platform rootType objectName l,
      RenameFrame_refl platform rootType objectName r⟩
  | .UnaryOperator _ f => ⟨_, rfl, RenameFrame_refl platform rootType objectName f⟩
  | .SubExpression e => ⟨_, rfl, RenameFrame_refl platform rootType objectName e⟩
  | .Variable _ c => ⟨_, rfl, RenameFrameChild_refl platform rootType objectName c⟩
  | .VariableAccessor _ c => ⟨_, rfl, RenameFrameChild_refl platform rootType objectName c⟩
  | .VariableBracketAccessor e c =>
    ⟨_, _, rfl, RenameFrame_refl platform rootType objectName e,
      RenameFrameChild_refl platform rootType objectName c⟩
  | .Identifier _ => ⟨_, rfl, fun _ => rfl, fun _ => rfl⟩
  | .ObjectFunctionName _ _ => ⟨_, rfl, fun _ => rfl⟩
  | .FunctionCall _ _ ps =>
    ⟨_, _, rfl, fun _ => rfl, rfl, RenameFrameParameters_refl platform rootType objectName ps⟩
  | .Text _ => rfl
  | .Number _ => rfl
  | .Empty => rfl
/-- The same for an optional child. -/
theorem RenameFrameChild_refl (platform : Platform) (rootType objectName : String) :
    ∀ child : Option ExpressionNode, RenameFrameChild platform rootType objectName child child
  | none => rfl
  | some c => ⟨_, rfl, RenameFrame_refl platform rootType objectName c⟩
/-- The same for the parameters of a call. -/
theorem RenameFrameParameters_refl (platform : Platform) (rootType objectName : String) :
    ∀ parameters : List ExpressionNode,
      RenameFrameParameters platform rootType objectName parameters parameters
  | [] => rfl
  | p :: ps =>
    ⟨_, _, rfl, RenameFrame_refl platform rootType objectName p,
      RenameFrameParameters_refl platform rootType objectName ps⟩
end

/-! ## Renaming in instructions -/

/-- Writing back the value read at an index leaves a parameter list as it is. -/
theorem SetParameter_GetParameter_self (parameters : List String) (pNb : Nat) :
    SetParameter parameters pNb (GetParameter parameters pNb) = parameters := by
  unfold SetParameter GetParameter
  apply List.ext_getElem?
  intro i
  by_cases h : pNb = i
  · subst h
    by_cases hlt : pNb < parameters.length
    · simp [List.getElem?_set, hlt, List.getD_eq_getElem?_getD]
    · simp [List.getElem?_set, hlt]
      exact Nat.le_of_not_lt hlt
  · simp [List.getElem?_set, h]

/-- The body of the parameter loop of the rename writes, at index `pNb`, the
renamed text of the parameter. -/
theorem RenameObjectInParameter_eq (platform : Platform) (oldName newName : String)
    (type : ParameterKind) (pNb : Nat) (parameters : List String) :
    RenameObjectInParameter platform oldName newName type pNb parameters =
      SetParameter parameters pNb
        (RenamedParameter platform oldName newName type (GetParameter parameters pNb)) := by
  unfold RenameObjectInParameter RenamedParameter
  split
  · rfl
  · split
    · dsimp only
      split
      · rfl
      · exact (SetParameter_GetParameter_self parameters pNb).symm
    · split
      · dsimp only
        split
        · rfl
        · exact (SetParameter_GetParameter_self parameters pNb).symm
      · exact (SetParameter_GetParameter_self parameters pNb).symm

/-- The parameter loop of the rename, started at index `pNb`: each parameter
with a metadata entry holds its renamed text, the others are kept. -/
theorem RenameObjectInParameters_getElem? (platform : Platform) (oldName newName : String) :
    ∀ (types : List ParameterKind) (pNb : Nat) (parameters : List String) (i : Nat),
      (RenameObjectInParameters platform oldName newName types pNb parameters)[i]? =
        (parameters[i]?).map (fun text =>
          if pNb ≤ i then
            match types[i - pNb]? with
            | some type => RenamedParameter platform oldName newName type text
            | none => text
          else text)
  | [], pNb, parameters, i => by
    simp [RenameObjectInParameters]
  | type :: rest, pNb, parameters, i => by
    rw [RenameObjectInParameters,
      RenameObjectInParameters_getElem? platform oldName newName rest (pNb + 1),
      RenameObjectInParameter_eq]
    unfold SetParameter GetParameter
    rw [List.getElem?_set]
    by_cases h : pNb = i
    · subst h
      by_cases hlt : pNb < parameters.length
      · simp [hlt, List.getD_eq_getElem?_getD, List.getElem?_eq_getElem hlt]
      · simp [hlt, List.getElem?_eq_none (Nat.le_of_not_lt hlt)]
    · rw [if_neg h]
      cases hget : parameters[i]? with
      | none => rfl
      | some text =>
        simp only [Option.map_some']
        by_cases hle : pNb + 1 ≤ i
        · have hle2 : pNb ≤ i := by omega
          have hidx : i - pNb = (i - (pNb + 1)) + 1 := by omega
          rw [if_pos hle, if_pos hle2, hidx, List.getElem?_cons_succ]
        · have hle2 : ¬ pNb ≤ i := by omega
          rw [if_neg hle, if_neg hle2]

/-- The parameter loop of the rename keeps the number of parameters. -/
theorem RenameObjectInParameters_length (platform : Platform) (oldName newName : String) :
    ∀ (types : List ParameterKind) (pNb : Nat) (parameters : List String),
      (RenameObjectInParameters platform oldName newName types pNb parameters).length =
        parameters.length
  | [], _, _ => rfl
  | type :: rest, pNb, parameters => by
    rw [RenameObjectInParameters,
      RenameObjectInParameters_length platform oldName newName rest (pNb + 1),
      RenameObjectInParameter_eq]
    simp [SetParameter]

mutual
/-- The body of the instruction loop of the rename returns the flag it was
given and the instruction run through the parameter loop at every depth. -/
theorem RenameObjectInInstruction_eq (platform : Platform)
    (GetMetadata : String → List ParameterKind) (oldName newName : String) :
    ∀ (instruction : Instruction) (somethingModified : Bool),
      RenameObjectInInstruction platform GetMetadata oldName newName instruction
          somethingModified =
        (somethingModified,
          RenamedInstruction platform GetMetadata oldName newName instruction)
  | .mk type parameters subInstructions, somethingModified => by
    rw [RenameObjectInInstruction, RenamedInstruction]
    simp only [RenameObjectInInstructions_eq platform GetMetadata oldName newName
      subInstructions false, Bool.false_or]
    cases subInstructions with
    | nil => simp [RenamedInstructions]
    | cons s ss => simp
/-- The instruction loop of the rename returns the flag it was given and the
list in which every instruction went through the parameter loop. -/
theorem RenameObjectInInstructions_eq (platform : Platform)
    (GetMetadata : String → List ParameterKind) (oldName newName : String) :
    ∀ (instructions : List Instruction) (somethingModified : Bool),
      RenameObjectInInstructions platform GetMetadata oldName newName instructions
          somethingModified =
        (somethingModified,
          RenamedInstructions platform GetMetadata oldName newName instructions)
  | [], somethingModified => by
    rw [RenameObjectInInstructions, RenamedInstructions]
  | instruction :: rest, somethingModified => by
    rw [RenameObjectInInstructions, RenamedInstructions]
    simp only [RenameObjectInInstruction_eq platform GetMetadata oldName newName instruction,
      RenameObjectInInstructions_eq platform GetMetadata oldName newName rest]
end

/-- The type of a constructed instruction. -/
theorem Instruction.GetType_mk (type : String) (parameters : List String)
    (subInstructions : List Instruction) :
    (Instruction.mk type parameters subInstructions).GetType = type := rfl

/-- The parameters of a constructed instruction. -/
theorem Instruction.GetParameters_mk (type : String) (parameters : List String)
    (subInstructions : List Instruction) :
    (Instruction.mk type parameters subInstructions).GetParameters = parameters := rfl

/-- The sub-instructions of a constructed instruction. -/
theorem Instruction.GetSubInstructions_mk (type : String) (parameters : List String)
    (subInstructions : List Instruction) :
    (Instruction.mk type parameters subInstructions).GetSubInstructions = subInstructions :=
  rfl

/-- The renamed instruction, through its accessors. -/
theorem RenamedInstruction_eq (platform : Platform)
    (GetMetadata : String → List ParameterKind) (oldName newName : String)
    (instruction : Instruction) :
    RenamedInstruction platform GetMetadata oldName newName instruction =
      Instruction.mk instruction.GetType
        (RenameObjectInParameters platform oldName newName
          (GetMetadata instruction.GetType) 0 instruction.GetParameters)
        (RenamedInstructions platform GetMetadata oldName newName
          instruction.GetSubInstructions) := by
  cases instruction with
  | mk type parameters subInstructions => rw [RenamedInstruction]; rfl

/-- Reading an index of the renamed list gives the renamed instruction. -/
theorem RenamedInstructions_getElem? (platform : Platform)
    (GetMetadata : String → List ParameterKind) (oldName newName : String) :
    ∀ (instructions : List Instruction) (index : Nat),
      (RenamedInstructions platform GetMetadata oldName newName instructions)[index]? =
        (instructions[index]?).map
          (RenamedInstruction platform GetMetadata oldName newName)
  | [], index => by simp [RenamedInstructions]
  | instruction :: rest, 0 => by simp [RenamedInstructions]
  | instruction :: rest, index + 1 => by
    simp [RenamedInstructions,
      RenamedInstructions_getElem? platform GetMetadata oldName newName rest index]

/-- Following a path in the renamed list reaches the renamed sub-list. -/
theorem SubInstructionsAt_RenamedInstructions (platform : Platform)
    (GetMetadata : String → List ParameterKind) (oldName newName : String) :
    ∀ (path : List Nat) (instructions : List Instruction),
      SubInstructionsAt (RenamedInstructions platform GetMetadata oldName newName instructions)
          path =
        (SubInstructionsAt instructions path).map
          (RenamedInstructions platform GetMetadata oldName newName)
  | [], instructions => rfl
  | index :: path, instructions => by
    simp only [SubInstructionsAt, RenamedInstructions_getElem?]
    cases instructions[index]? with
    | none => rfl
    | some instruction =>
      simp only [Option.map_some', RenamedInstruction_eq, Instruction.GetSubInstructions_mk]
      exact SubInstructionsAt_RenamedInstructions platform GetMetadata oldName newName path _

/-- Every instruction of the original list, at any depth, is found at the same
place after the rename, its parameters having gone through the parameter
loop. -/
theorem InstructionAt_RenamedInstructions (platform : Platform)
    (GetMetadata : String → List ParameterKind) (oldName newName : String)
    (instructions : List Instruction) (path : List Nat) (index : Nat)
    (instruction : Instruction)
    (h : InstructionAt instructions path index = some instruction) :
    InstructionAt (RenamedInstructions platform GetMetadata oldName newName instructions)
        path index =
      some (Instruction.mk instruction.GetType
        (RenameObjectInParameters platform oldName newName
          (GetMetadata instruction.GetType) 0 instruction.GetParameters)
        (RenamedInstructions platform GetMetadata oldName newName
          instruction.GetSubInstructions)) := by
  unfold InstructionAt at h ⊢
  rw [SubInstructionsAt_RenamedInstructions]
  cases hsub : SubInstructionsAt instructions path with
  | none => simp [hsub] at h
  | some list =>
    simp only [hsub] at h
    simp [RenamedInstructions_getElem?, h, RenamedInstruction_eq]

/-- C2, at the scenario of the spec: one action whose single object-reference
parameter is "Player" and which has no sub-instructions. The parameter is
renamed to "Hero", yet `RenameObjectInActions` returns false:
`somethingModified` is never set at the level of the parameters, only or-ed
with the result of the recursive calls. -/
theorem RenameObjectInActions_scenario_returns_false :
    RenameObjectInActions scenarioPlatform [Instruction.mk "Delete" ["Player"] []]
        "Player" "Hero" =
      (false, [Instruction.mk "Delete" ["Hero"] []]) := by
  rfl

/-- C3: after `RenameObjectInActions` (resp. `RenameObjectInConditions`), every
instruction of the list, at every nesting depth, is found at the same place with
the same type and the same number of parameters, and each of its parameters
whose metadata kind is an object reference holds `newName` if its text was
exactly `oldName` and its previous text otherwise. Nothing is asked of the
parents of the instruction: sub-instructions are processed in all cases. -/
theorem RenameObjectInInstructions_object_references (platform : Platform)
    (instructions : List Instruction) (oldName newName : String)
    (path : List Nat) (index : Nat) (instruction : Instruction) :
    (InstructionAt instructions path index = some instruction →
      ∃ renamed : Instruction,
        InstructionAt (RenameObjectInActions platform instructions oldName newName).2
          path index = some renamed ∧
        renamed.GetType = instruction.GetType ∧
        renamed.GetParameters.length = instruction.GetParameters.length ∧
        ∀ (pNb : Nat) (text : String),
          (platform.GetActionMetadata instruction.GetType)[pNb]? =
            some ParameterKind.ObjectReference →
          instruction.GetParameters[pNb]? = some text →
          renamed.GetParameters[pNb]? = some (if text = oldName then newName else text)) ∧
    (InstructionAt instructions path index = some instruction →
      ∃ renamed : Instruction,
        InstructionAt (RenameObjectInConditions platform instructions oldName newName).2
          path index = some renamed ∧
        renamed.GetType = instruction.GetType ∧
        renamed.GetParameters.length = instruction.GetParameters.length ∧
        ∀ (pNb : Nat) (text : String),
          (platform.GetConditionMetadata instruction.GetType)[pNb]? =
            some ParameterKind.ObjectReference →
          instruction.GetParameters[pNb]? = some text →
          renamed.GetParameters[pNb]? = some (if text = oldName then newName else text)) := by
  have key : ∀ GetMetadata : String → List ParameterKind,
      InstructionAt instructions path index = some instruction →
      ∃ renamed : Instruction,
        InstructionAt
          (RenameObjectInInstructions platform GetMetadata oldName newName instructions false).2
          path index = some renamed ∧
        renamed.GetType = instruction.GetType ∧
        renamed.GetParameters.length = instruction.GetParameters.length ∧
        ∀ (pNb : Nat) (text : String),
          (GetMetadata instruction.GetType)[pNb]? = some ParameterKind.ObjectReference →
          instruction.GetParameters[pNb]? = some text →
          renamed.GetParameters[pNb]? = some (if text = oldName then newName else text) := by
    intro GetMetadata h
    rw [RenameObjectInInstructions_eq]
    refine ⟨_, InstructionAt_RenamedInstructions platform GetMetadata oldName newName
      instructions path index instruction h, rfl, ?_, ?_⟩
    · simp [Instruction.GetParameters_mk, RenameObjectInParameters_length]
    · intro pNb text hkind htext
      simp only [Instruction.GetParameters_mk, RenameObjectInParameters_getElem?, htext,
        Option.map_some', Nat.zero_le, if_true, Nat.sub_zero, hkind]
      by_cases heq : text = oldName
      · simp [RenamedParameter, ParameterMetadata.IsObject, heq]
      · simp [RenamedParameter, ParameterMetadata.IsObject, ParameterMetadata.IsExpression, heq]
  exact ⟨key platform.GetActionMetadata, key platform.GetConditionMetadata⟩

/-- C3 at a nested list: the action "SetX" holds the object reference "Player"
and a sub-action "Delete" on "Player"; both are renamed, an object reference to
"Enemy" is kept. -/
theorem RenameObjectInInstructions_object_references_witness :
    ∃ renamed : Instruction,
      InstructionAt (RenameObjectInActions scenarioPlatform
          [Instruction.mk "Delete" ["Enemy"] [],
            Instruction.mk "SetX" ["Player", "1"] [Instruction.mk "Delete" ["Player"] []]]
          "Player" "Hero").2 [1] 0 = some renamed ∧
        renamed.GetType = "Delete" ∧
        renamed.GetParameters.length = 1 ∧
        ∀ (pNb : Nat) (text : String),
          (scenarioPlatform.GetActionMetadata "Delete")[pNb]? =
            some ParameterKind.ObjectReference →
          ["Player"][pNb]? = some text →
          renamed.GetParameters[pNb]? = some (if text = "Player" then "Hero" else text) :=
  (RenameObjectInInstructions_object_references scenarioPlatform
    [Instruction.mk "Delete" ["Enemy"] [],
      Instruction.mk "SetX" ["Player", "1"] [Instruction.mk "Delete" ["Player"] []]]
    "Player" "Hero" [1] 0 (Instruction.mk "Delete" ["Player"] [])).1 rfl

/-- Every parameter of the original list that has a metadata entry holds, after
the instruction loop of the rename, its renamed text. -/
theorem InstructionAt_Rename_parameter (platform : Platform)
    (GetMetadata : String → List ParameterKind) (oldName newName : String)
    (instructions : List Instruction) (path : List Nat) (index : Nat)
    (instruction : Instruction) (pNb : Nat) (text : String) (type : ParameterKind)
    (h : InstructionAt instructions path index = some instruction)
    (htext : instruction.GetParameters[pNb]? = some text)
    (htype : (GetMetadata instruction.GetType)[pNb]? = some type) :
    ∃ renamed : Instruction,
      InstructionAt
        (RenameObjectInInstructions platform GetMetadata oldName newName instructions false).2
        path index = some renamed ∧
      renamed.GetParameters[pNb]? =
        some (RenamedParameter platform oldName newName type text) := by
  rw [RenameObjectInInstructions_eq]
  refine ⟨_, InstructionAt_RenamedInstructions platform GetMetadata oldName newName
    instructions path index instruction h, ?_⟩
  simp only [Instruction.GetParameters_mk, RenameObjectInParameters_getElem?, htext,
    Option.map_some', Nat.zero_le, if_true, Nat.sub_zero, htype]

/-- A parameter that is an expression keeps its text when the renamer reports no
rename on its parsed tree. -/
theorem RenamedParameter_of_not_renamed (platform : Platform) (oldName newName : String)
    (type : ParameterKind) (text : String)
    (htype : type = ParameterKind.NumberExpression ∧
        (ExpressionObjectRenamer.Rename platform "number" (platform.GetRootNode text)
          oldName newName).1 = false ∨
      type = ParameterKind.StringExpression ∧
        (ExpressionObjectRenamer.Rename platform "string" (platform.GetRootNode text)
          oldName newName).1 = false) :
    RenamedParameter platform oldName newName type text = text := by
  rcases htype with ⟨ht, hr⟩ | ⟨ht, hr⟩
  · subst ht
    simp [RenamedParameter, ParameterMetadata.IsObject, ParameterMetadata.IsExpression, hr]
  · subst ht
    simp [RenamedParameter, ParameterMetadata.IsObject, ParameterMetadata.IsExpression, hr]

/-- C7: for a tree that the validator accepts under `rootType`,
`ExpressionObjectRenamer::Rename` returns true if and only if some node of the
tree is a matching node (a function call or object function name whose object
is `oldName`, or an identifier equal to `oldName` whose inferred type is an
object kind), and the tree after the call is the tree in which exactly the
matching nodes have their name replaced by `newName`. -/
theorem Rename_true_iff_matching_node (platform : Platform) (rootType : String)
    (node : ExpressionNode) (oldName newName : String)
    (hvalid : platform.HasNoErrors rootType node = true) :
    ((ExpressionObjectRenamer.Rename platform rootType node oldName newName).1 = true ↔
      ∃ n ∈ Nodes node, IsMatchingNode platform rootType oldName n = true) ∧
    (ExpressionObjectRenamer.Rename platform rootType node oldName newName).2 =
      RenameMatchingNodes platform rootType oldName newName node := by
  unfold ExpressionObjectRenamer.Rename
  rw [if_pos hvalid, RenamerVisit_eq]
  simp only [Bool.false_or]
  exact ⟨ContainsMatchingNode_iff platform rootType oldName node, trivial⟩

/-- C7 on the call `Player.X(Player, Enemy)`: the result is true exactly when a
matching node exists, and the call and its first argument are renamed. -/
theorem Rename_true_iff_matching_node_witness :
    ((ExpressionObjectRenamer.Rename scenarioPlatform "number"
        (.FunctionCall "Player" "X" [.Identifier "Player", .Identifier "Enemy"])
        "Player" "Hero").1 = true ↔
      ∃ n ∈ Nodes (.FunctionCall "Player" "X" [.Identifier "Player", .Identifier "Enemy"]),
        IsMatchingNode scenarioPlatform "number" "Player" n = true) ∧
    (ExpressionObjectRenamer.Rename scenarioPlatform "number"
        (.FunctionCall "Player" "X" [.Identifier "Player", .Identifier "Enemy"])
        "Player" "Hero").2 =
      RenameMatchingNodes scenarioPlatform "number" "Player" "Hero"
        (.FunctionCall "Player" "X" [.Identifier "Player", .Identifier "Enemy"]) :=
  Rename_true_iff_matching_node scenarioPlatform "number"
    (.FunctionCall "Player" "X" [.Identifier "Player", .Identifier "Enemy"])
    "Player" "Hero" rfl

/-- C8: rename is fail-open on invalid expressions. When the validator reports
errors for a tree under `rootType`, `ExpressionObjectRenamer::Rename` returns
false and leaves the tree as it is, whatever nodes it contains; and a number or
string expression parameter whose parsed tree the validator rejects keeps its
text through `RenameObjectInActions` and `RenameObjectInConditions`, at every
nesting depth. -/
theorem Rename_fail_open (platform : Platform) (oldName newName : String) :
    (∀ (rootType : String) (node : ExpressionNode),
      platform.HasNoErrors rootType node = false →
      ExpressionObjectRenamer.Rename platform rootType node oldName newName =
        (false, node)) ∧
    (∀ (instructions : List Instruction) (path : List Nat) (index : Nat)
      (instruction : Instruction) (pNb : Nat) (text : String),
      InstructionAt instructions path index = some instruction →
      instruction.GetParameters[pNb]? = some text →
      ((platform.GetActionMetadata instruction.GetType)[pNb]? =
            some ParameterKind.NumberExpression ∧
          platform.HasNoErrors "number" (platform.GetRootNode text) = false) ∨
        ((platform.GetActionMetadata instruction.GetType)[pNb]? =
            some ParameterKind.StringExpression ∧
          platform.HasNoErrors "string" (platform.GetRootNode text) = false) →
      ∃ renamed : Instruction,
        InstructionAt (RenameObjectInActions platform instructions oldName newName).2
          path index = some renamed ∧
        renamed.GetParameters[pNb]? = some text) ∧
    (∀ (instructions : List Instruction) (path : List Nat) (index : Nat)
      (instruction : Instruction) (pNb : Nat) (text : String),
      InstructionAt instructions path index = some instruction →
      instruction.GetParameters[pNb]? = some text →
      ((platform.GetConditionMetadata instruction.GetType)[pNb]? =
            some ParameterKind.NumberExpression ∧
          platform.HasNoErrors "number" (platform.GetRootNode text) = false) ∨
        ((platform.GetConditionMetadata instruction.GetType)[pNb]? =
            some ParameterKind.StringExpression ∧
          platform.HasNoErrors "string" (platform.GetRootNode text) = false) →
      ∃ renamed : Instruction,
        InstructionAt (RenameObjectInConditions platform instructions oldName newName).2
          path index = some renamed ∧
        renamed.GetParameters[pNb]? = some text) := by
  have hexpr : ∀ (rootType : String) (node : ExpressionNode),
      platform.HasNoErrors rootType node = false →
      ExpressionObjectRenamer.Rename platform rootType node oldName newName =
        (false, node) := by
    intro rootType node hinvalid
    simp [ExpressionObjectRenamer.Rename, hinvalid]
  have key : ∀ (GetMetadata : String → List ParameterKind)
      (instructions : List Instruction) (path : List Nat) (index : Nat)
      (instruction : Instruction) (pNb : Nat) (text : String),
      InstructionAt instructions path index = some instruction →
      instruction.GetParameters[pNb]? = some text →
      ((GetMetadata instruction.GetType)[pNb]? = some ParameterKind.NumberExpression ∧
          platform.HasNoErrors "number" (platform.GetRootNode text) = false) ∨
        ((GetMetadata instruction.GetType)[pNb]? = some ParameterKind.StringExpression ∧
          platform.HasNoErrors "string" (platform.GetRootNode text) = false) →
      ∃ renamed : Instruction,
        InstructionAt
          (RenameObjectInInstructions platform GetMetadata oldName newName
            instructions false).2 path index = some renamed ∧
        renamed.GetParameters[pNb]? = some text := by
    intro GetMetadata instructions path index instruction pNb text h htext hkind
    rcases hkind with ⟨hk, hv⟩ | ⟨hk, hv⟩
    · obtain ⟨renamed, hat, hpar⟩ := InstructionAt_Rename_parameter platform GetMetadata
        oldName newName instructions path index instruction pNb text _ h htext hk
      refine ⟨renamed, hat, ?_⟩
      rw [hpar, RenamedParameter_of_not_renamed]
      exact Or.inl ⟨rfl, by rw [hexpr _ _ hv]⟩
    · obtain ⟨renamed, hat, hpar⟩ := InstructionAt_Rename_parameter platform GetMetadata
        oldName newName instructions path index instruction pNb text _ h htext hk
      refine ⟨renamed, hat, ?_⟩
      rw [hpar, RenamedParameter_of_not_renamed]
      exact Or.inr ⟨rfl, by rw [hexpr _ _ hv]⟩
  exact ⟨hexpr, key platform.GetActionMetadata, key platform.GetConditionMetadata⟩

/-- C8 on the action `SetX(Enemy, Player.Unknown())`, whose expression is a call
on "Player" that the validator of the scenario platform rejects: the renamer
returns false on the parsed tree and the parameter keeps its text. -/
theorem Rename_fail_open_witness :
    ExpressionObjectRenamer.Rename scenarioPlatform "number"
        (scenarioPlatform.GetRootNode "Player.Unknown()") "Player" "Hero" =
      (false, scenarioPlatform.GetRootNode "Player.Unknown()") ∧
    ∃ renamed : Instruction,
      InstructionAt (RenameObjectInActions scenarioPlatform
        [Instruction.mk "SetX" ["Enemy", "Player.Unknown()"] []] "Player" "Hero").2 [] 0 =
          some renamed ∧
      renamed.GetParameters[1]? = some "Player.Unknown()" :=
  ⟨(Rename_fail_open scenarioPlatform "Player" "Hero").1 "number"
      (scenarioPlatform.GetRootNode "Player.Unknown()") rfl,
    (Rename_fail_open scenarioPlatform "Player" "Hero").2.1
      [Instruction.mk "SetX" ["Enemy", "Player.Unknown()"] []] [] 0
      (Instruction.mk "SetX" ["Enemy", "Player.Unknown()"] []) 1 "Player.Unknown()" rfl rfl
      (Or.inl ⟨rfl, rfl⟩)⟩

/-- C9: the finder is the read-only twin of the renamer. On every tree, root
type and name, `ExpressionObjectFinder::CheckIfHasObject` returns the boolean
that `ExpressionObjectRenamer::Rename` returns on the same tree for any new
name, and it returns false whenever the validator reports errors. The finder
only computes its flag: no method of the worker writes to a node. -/
theorem CheckIfHasObject_eq_Rename (platform : Platform) (rootType : String)
    (node : ExpressionNode) (objectName objectNewName : String) :
    ExpressionObjectFinder.CheckIfHasObject platform rootType node objectName =
      (ExpressionObjectRenamer.Rename platform rootType node objectName objectNewName).1 ∧
    (platform.HasNoErrors rootType node = false →
      ExpressionObjectFinder.CheckIfHasObject platform rootType node objectName = false) := by
  unfold ExpressionObjectFinder.CheckIfHasObject ExpressionObjectRenamer.Rename
  constructor
  · by_cases hvalid : platform.HasNoErrors rootType node = true
    · rw [if_pos hvalid, if_pos hvalid, FinderVisit_eq,
        RenamerVisit_eq]
    · rw [if_neg hvalid, if_neg hvalid]
  · intro hinvalid
    simp [hinvalid]

/-- C9 on the call `Player.Unknown()`, which the validator of the scenario
platform rejects: the finder agrees with the renamer and returns false. -/
theorem CheckIfHasObject_eq_Rename_witness :
    ExpressionObjectFinder.CheckIfHasObject scenarioPlatform "number"
        (.FunctionCall "Player" "Unknown" []) "Player" =
      (ExpressionObjectRenamer.Rename scenarioPlatform "number"
        (.FunctionCall "Player" "Unknown" []) "Player" "Hero").1 ∧
    ExpressionObjectFinder.CheckIfHasObject scenarioPlatform "number"
        (.FunctionCall "Player" "Unknown" []) "Player" = false :=
  ⟨(CheckIfHasObject_eq_Rename scenarioPlatform "number"
      (.FunctionCall "Player" "Unknown" []) "Player" "Hero").1,
    (CheckIfHasObject_eq_Rename scenarioPlatform "number"
      (.FunctionCall "Player" "Unknown" []) "Player" "Hero").2 rfl⟩

/-- C10: rename is aware of the tree, not of the text. On every tree the tree
after `ExpressionObjectRenamer::Rename` is in the rename frame of the tree
before: same node variants, same children, same number of call parameters,
every text, number and empty leaf as it was, and the name of a node kept when
the node is an identifier whose inferred type is not an object kind or when the
name differs from `oldName`. A tree none of whose nodes is a matching node, as
when `oldName` only occurs inside text leaves, is returned unchanged with
result false, and `RenameObjectInActions` and `RenameObjectInConditions` then
leave the text of such a number or string expression parameter unchanged. -/
theorem Rename_frame (platform : Platform) (oldName newName : String) :
    (∀ (rootType : String) (node : ExpressionNode),
      RenameFrame platform rootType oldName node
        (ExpressionObjectRenamer.Rename platform rootType node oldName newName).2) ∧
    (∀ (rootType : String) (node : ExpressionNode),
      (∀ n ∈ Nodes node, IsMatchingNode platform rootType oldName n = false) →
      ExpressionObjectRenamer.Rename platform rootType node oldName newName =
        (false, node)) ∧
    (∀ (instructions : List Instruction) (path : List Nat) (index : Nat)
      (instruction : Instruction) (pNb : Nat) (text : String),
      InstructionAt instructions path index = some instruction →
      instruction.GetParameters[pNb]? = some text →
      ((platform.GetActionMetadata instruction.GetType)[pNb]? =
            some ParameterKind.NumberExpression ∧
          ∀ n ∈ Nodes (platform.GetRootNode text),
            IsMatchingNode platform "number" oldName n = false) ∨
        ((platform.GetActionMetadata instruction.GetType)[pNb]? =
            some ParameterKind.StringExpression ∧
          ∀ n ∈ Nodes (platform.GetRootNode text),
            IsMatchingNode platform "string" oldName n = false) →
      ∃ renamed : Instruction,
        InstructionAt (RenameObjectInActions platform instructions oldName newName).2
          path index = some renamed ∧
        renamed.GetParameters[pNb]? = some text) ∧
    (∀ (instructions : List Instruction) (path : List Nat) (index : Nat)
      (instruction : Instruction) (pNb : Nat) (text : String),
      InstructionAt instructions path index = some instruction →
      instruction.GetParameters[pNb]? = some text →
      ((platform.GetConditionMetadata instruction.GetType)[pNb]? =
            some ParameterKind.NumberExpression ∧
          ∀ n ∈ Nodes (platform.GetRootNode text),
            IsMatchingNode platform "number" oldName n = false) ∨
        ((platform.GetConditionMetadata instruction.GetType)[pNb]? =
            some ParameterKind.StringExpression ∧
          ∀ n ∈ Nodes (platform.GetRootNode text),
            IsMatchingNode platform "string" oldName n = false) →
      ∃ renamed : Instruction,
        InstructionAt (RenameObjectInConditions platform instructions oldName newName).2
          path index = some renamed ∧
        renamed.GetParameters[pNb]? = some text) := by
  have hnone : ∀ (rootType : String) (node : ExpressionNode),
      (∀ n ∈ Nodes node, IsMatchingNode platform rootType oldName n = false) →
      ContainsMatchingNode platform rootType oldName node = false := by
    intro rootType node hall
    cases hc : ContainsMatchingNode platform rootType oldName node with
    | false => rfl
    | true =>
      obtain ⟨n, hn, hm⟩ := (ContainsMatchingNode_iff platform rootType oldName node).1 hc
      rw [hall n hn] at hm
      cases hm
  have hexpr : ∀ (rootType : String) (node : ExpressionNode),
      (∀ n ∈ Nodes node, IsMatchingNode platform rootType oldName n = false) →
      ExpressionObjectRenamer.Rename platform rootType node oldName newName =
        (false, node) := by
    intro rootType node hall
    unfold ExpressionObjectRenamer.Rename
    split
    · rw [RenamerVisit_eq, hnone rootType node hall,
        RenameMatchingNodes_of_no_match platform rootType oldName newName node
          (hnone rootType node hall)]
      rfl
    · rfl
  have key : ∀ (GetMetadata : String → List ParameterKind)
      (instructions : List Instruction) (path : List Nat) (index : Nat)
      (instruction : Instruction) (pNb : Nat) (text : String),
      InstructionAt instructions path index = some instruction →
      instruction.GetParameters[pNb]? = some text →
      ((GetMetadata instruction.GetType)[pNb]? = some ParameterKind.NumberExpression ∧
          ∀ n ∈ Nodes (platform.GetRootNode text),
            IsMatchingNode platform "number" oldName n = false) ∨
        ((GetMetadata instruction.GetType)[pNb]? = some ParameterKind.StringExpression ∧
          ∀ n ∈ Nodes (platform.GetRootNode text),
            IsMatchingNode platform "string" oldName n = false) →
      ∃ renamed : Instruction,
        InstructionAt
          (RenameObjectInInstructions platform GetMetadata oldName newName
            instructions false).2 path index = some renamed ∧
        renamed.GetParameters[pNb]? = some text := by
    intro GetMetadata instructions path index instruction pNb text h htext hkind
    rcases hkind with ⟨hk, hv⟩ | ⟨hk, hv⟩
    · obtain ⟨renamed, hat, hpar⟩ := InstructionAt_Rename_parameter platform GetMetadata
        oldName newName instructions path index instruction pNb text _ h htext hk
      refine ⟨renamed, hat, ?_⟩
      rw [hpar, RenamedParameter_of_not_renamed]
      exact Or.inl ⟨rfl, by rw [hexpr _ _ hv]⟩
    · obtain ⟨renamed, hat, hpar⟩ := InstructionAt_Rename_parameter platform GetMetadata
        oldName newName instructions path index instruction pNb text _ h htext hk
      refine ⟨renamed, hat, ?_⟩
      rw [hpar, RenamedParameter_of_not_renamed]
      exact Or.inr ⟨rfl, by rw [hexpr _ _ hv]⟩
  refine ⟨?_, hexpr, key platform.GetActionMetadata, key platform.GetConditionMetadata⟩
  intro rootType node
  unfold ExpressionObjectRenamer.Rename
  split
  · rw [RenamerVisit_eq]
    exact RenameFrame_RenameMatchingNodes platform rootType oldName newName node
  · exact RenameFrame_refl platform rootType oldName node

/-- C10 on the number expression `"Player" + 1`, where "Player" only occurs in a
text leaf: the renamer returns the tree unchanged with result false, and the
action `SetX(Enemy, "Player" + 1)` keeps the text of its expression. -/
theorem Rename_frame_witness :
    ExpressionObjectRenamer.Rename scenarioPlatform "number"
        (.Operator '+' (.Text "Player") (.Number "1")) "Player" "Hero" =
      (false, .Operator '+' (.Text "Player") (.Number "1")) ∧
    ∃ renamed : Instruction,
      InstructionAt (RenameObjectInActions scenarioPlatform
        [Instruction.mk "SetX" ["Enemy", "\"Player\" + 1"] []] "Player" "Hero").2 [] 0 =
          some renamed ∧
      renamed.GetParameters[1]? = some "\"Player\" + 1" :=
  ⟨(Rename_frame scenarioPlatform "Player" "Hero").2.1 "number"
      (.Operator '+' (.Text "Player") (.Number "1"))
      (by simp [Nodes, IsMatchingNode]),
    (Rename_frame scenarioPlatform "Player" "Hero").2.2.1
      [Instruction.mk "SetX" ["Enemy", "\"Player\" + 1"] []] [] 0
      (Instruction.mk "SetX" ["Enemy", "\"Player\" + 1"] []) 1 "\"Player\" + 1" rfl rfl
      (Or.inl ⟨rfl, by
        have hparse : scenarioPlatform.GetRootNode "\"Player\" + 1" =
            .Operator '+' (.Text "Player") (.Number "1") := rfl
        rw [hparse]
        simp [Nodes, IsMatchingNode]⟩)⟩

/-! ## Case-insensitive replacement -/

open GdString in
/-- A text that starts with `search` is at least as long. -/
theorem StartsWith_length (equals : Char → Char → Bool) :
    ∀ search context : List Char,
      StartsWith equals search context = true → search.length ≤ context.length
  | [], _, _ => by simp
  | _ :: _, [], h => by simp [StartsWith] at h
  | s :: search, c :: context, h => by
    simp only [StartsWith, Bool.and_eq_true] at h
    have ih := StartsWith_length equals search context h.2
    simp only [List.length_cons]
    omega

/-- Dropping the code points still to be skipped before the pass is the same
as skipping them in the pass. -/
theorem ReplaceLeftmostOccurrences_skip (equals : Char → Char → Bool)
    (fromText toText : List Char) :
    ∀ (skip : Nat) (context : List Char),
      ReplaceLeftmostOccurrences equals fromText toText skip context =
        ReplaceLeftmostOccurrences equals fromText toText 0 (context.drop skip)
  | 0, context => by simp
  | skip + 1, [] => by simp [ReplaceLeftmostOccurrences]
  | skip + 1, c :: context => by
    rw [ReplaceLeftmostOccurrences, ReplaceLeftmostOccurrences_skip equals fromText toText skip]
    simp

/-- The same for the count of occurrences. -/
theorem CountLeftmostOccurrences_skip (equals : Char → Char → Bool) (fromText : List Char) :
    ∀ (skip : Nat) (context : List Char),
      CountLeftmostOccurrences equals fromText skip context =
        CountLeftmostOccurrences equals fromText 0 (context.drop skip)
  | 0, context => by simp
  | skip + 1, [] => by simp [CountLeftmostOccurrences]
  | skip + 1, c :: context => by
    rw [CountLeftmostOccurrences, CountLeftmostOccurrences_skip equals fromText skip]
    simp

open GdString in
/-- When the search finds nothing, the single pass leaves the text as it is. -/
theorem FindFrom_none (equals : Char → Char → Bool) (fromText toText : List Char) :
    ∀ (context : List Char) (pos : Nat),
      FindFrom equals fromText context pos = none →
        ReplaceLeftmostOccurrences equals fromText toText 0 context = context ∧
        CountLeftmostOccurrences equals fromText 0 context = 0
  | [], _, _ => by simp [ReplaceLeftmostOccurrences, CountLeftmostOccurrences]
  | c :: context, pos, h => by
    rw [FindFrom] at h
    split at h
    · cases h
    · rename_i hs
      have ih := FindFrom_none equals fromText toText context (pos + 1) h
      rw [ReplaceLeftmostOccurrences, CountLeftmostOccurrences, if_neg hs, if_neg hs]
      exact ⟨by rw [ih.1], ih.2⟩

open GdString in
/-- When the search for a non-empty text finds a position, the text splits there
into what precedes the occurrence, kept by the single pass, and the occurrence
followed by the rest, on which the pass goes on after the replacement. -/
theorem FindFrom_some (equals : Char → Char → Bool) (fromText toText : List Char)
    (hne : fromText ≠ []) :
    ∀ (context : List Char) (pos foundHere : Nat),
      FindFrom equals fromText context pos = some foundHere →
        ∃ before after : List Char, context = before ++ after ∧
          foundHere = pos + before.length ∧
          StartsWith equals fromText after = true ∧
          ReplaceLeftmostOccurrences equals fromText toText 0 context =
            before ++ (toText ++
              ReplaceLeftmostOccurrences equals fromText toText 0
                (after.drop fromText.length)) ∧
          CountLeftmostOccurrences equals fromText 0 context =
            1 + CountLeftmostOccurrences equals fromText 0 (after.drop fromText.length)
  | [], pos, foundHere, h => by
    cases fromText with
    | nil => exact absurd rfl hne
    | cons s ss => simp [FindFrom] at h
  | c :: context, pos, foundHere, h => by
    rw [FindFrom] at h
    split at h
    · rename_i hs
      cases h
      have hpos : 0 < fromText.length := List.length_pos.2 hne
      have hdrop : List.drop fromText.length (c :: context) =
          List.drop (fromText.length - 1) context := by
        obtain ⟨k, hk⟩ : ∃ k, fromText.length = k + 1 := ⟨fromText.length - 1, by omega⟩
        rw [hk]
        simp
      refine ⟨[], c :: context, rfl, rfl, hs, ?_, ?_⟩
      · rw [ReplaceLeftmostOccurrences, if_pos hs, ReplaceLeftmostOccurrences_skip, hdrop]
        rfl
      · rw [CountLeftmostOccurrences, if_pos hs, CountLeftmostOccurrences_skip, hdrop]
    · rename_i hs
      obtain ⟨before, after, hctx, hp, hstart, hR, hC⟩ :=
        FindFrom_some equals fromText toText hne context (pos + 1) foundHere h
      refine ⟨c :: before, after, by rw [hctx]; rfl, ?_, hstart, ?_, ?_⟩
      · rw [hp, List.length_cons]
        omega
      · rw [ReplaceLeftmostOccurrences, if_neg hs, hR]
        rfl
      · rw [CountLeftmostOccurrences, if_neg hs, hC]

open GdString in
/-- The loop of the case-insensitive replacement, started with the cursor
`lookHere` at the end of `done` and with more fuel than `remaining` has code
points, exits with `done` followed by the single pass over `remaining`. -/
theorem ReplaceAllOccurrencesCaseInsensitiveLoop_eq (fromText toText : List Char)
    (hne : fromText ≠ []) :
    ∀ (fuel : Nat) (done remaining : List Char), remaining.length < fuel →
      ReplaceAllOccurrencesCaseInsensitiveLoop fromText toText fuel (done ++ remaining)
          done.length =
        some (done ++
          ReplaceLeftmostOccurrences EqualsCaseInsensitive fromText toText 0 remaining)
  | 0, _, _, h => by omega
  | fuel + 1, done, remaining, h => by
    rw [ReplaceAllOccurrencesCaseInsensitiveLoop]
    have hfind : FindCaseInsensitive (done ++ remaining) fromText done.length =
        FindFrom EqualsCaseInsensitive fromText remaining done.length := by
      simp [FindCaseInsensitive]
    rw [hfind]
    cases hf : FindFrom EqualsCaseInsensitive fromText remaining done.length with
    | none =>
      simp only
      rw [(FindFrom_none EqualsCaseInsensitive fromText toText remaining done.length hf).1]
    | some foundHere =>
      obtain ⟨before, after, hctx, hp, hstart, hR, _⟩ :=
        FindFrom_some EqualsCaseInsensitive fromText toText hne remaining done.length
          foundHere hf
      have hlen := StartsWith_length _ _ _ hstart
      have hrep : replace (done ++ remaining) foundHere fromText.length toText =
          (done ++ before ++ toText) ++ after.drop fromText.length := by
        have h1 : done ++ remaining = (done ++ before) ++ after := by
          rw [hctx, List.append_assoc]
        have h2 : foundHere = (done ++ before).length := by
          rw [hp, List.length_append]
        rw [replace, h1, h2, List.take_left, List.drop_append]
      have hlook : foundHere + toText.length = (done ++ before ++ toText).length := by
        rw [hp]
        simp only [List.length_append]
      have hfuel : (after.drop fromText.length).length < fuel := by
        have : remaining.length = before.length + after.length := by
          rw [hctx, List.length_append]
        have hpos : 0 < fromText.length := List.length_pos.2 hne
        rw [List.length_drop]
        omega
      simp only
      rw [hrep, hlook,
        ReplaceAllOccurrencesCaseInsensitiveLoop_eq fromText toText hne fuel _ _ hfuel, hR]
      simp only [List.append_assoc]

open GdString in
/-- The length of the single pass: each of the `k` replaced occurrences trades
the length of `fromText` for the length of `toText`. -/
theorem ReplaceLeftmostOccurrences_length (equals : Char → Char → Bool)
    (fromText toText : List Char) (hne : fromText ≠ []) :
    ∀ (n : Nat) (context : List Char), context.length ≤ n →
      (ReplaceLeftmostOccurrences equals fromText toText 0 context).length +
          CountLeftmostOccurrences equals fromText 0 context * fromText.length =
        context.length + CountLeftmostOccurrences equals fromText 0 context * toText.length
  | 0, context, h => by
    have : context = [] := List.length_eq_zero.1 (Nat.le_zero.1 h)
    subst this
    simp [ReplaceLeftmostOccurrences, CountLeftmostOccurrences]
  | n + 1, context, h => by
    cases hf : FindFrom equals fromText context 0 with
    | none =>
      obtain ⟨hR, hC⟩ := FindFrom_none equals fromText toText context 0 hf
      rw [hR, hC, Nat.zero_mul, Nat.zero_mul]
    | some foundHere =>
      obtain ⟨before, after, hctx, _, hstart, hR, hC⟩ :=
        FindFrom_some equals fromText toText hne context 0 foundHere hf
      have hlen := StartsWith_length _ _ _ hstart
      have hpos : 0 < fromText.length := List.length_pos.2 hne
      have hctxlen : context.length = before.length + after.length := by
        rw [hctx, List.length_append]
      have hrest : (after.drop fromText.length).length ≤ n := by
        rw [List.length_drop]
        omega
      have ih := ReplaceLeftmostOccurrences_length equals fromText toText hne n _ hrest
      rw [List.length_drop] at ih
      rw [hR, hC]
      simp only [List.length_append, Nat.add_mul, Nat.one_mul]
      omega

/-- C6: for every context, every non-empty search text `from` and every
replacement `to`, `ReplaceAllOccurrencesCaseInsensitive` returns the single
left-to-right replacement of the leftmost non-overlapping case-insensitive
occurrences of `from` in the original context (text inserted by a replacement
is never matched again), and the length of the result is
`len(context) + k * (len(to) - len(from))`, `k` being the number of those
occurrences. On ("aaa", "a", "aa") the result is "aaaaaa" and on
("Hello World", "world", "Earth") it is "Hello Earth". -/
theorem ReplaceAllOccurrencesCaseInsensitive_single_pass :
    (∀ context fromText toText : String, fromText ≠ "" →
      ReplaceAllOccurrencesCaseInsensitive context fromText toText =
        some (String.mk (ReplaceLeftmostOccurrences GdString.EqualsCaseInsensitive
          fromText.data toText.data 0 context.data)) ∧
      ∀ result : String,
        ReplaceAllOccurrencesCaseInsensitive context fromText toText = some result →
        result.length +
            CountLeftmostOccurrences GdString.EqualsCaseInsensitive fromText.data 0
              context.data * fromText.length =
          context.length +
            CountLeftmostOccurrences GdString.EqualsCaseInsensitive fromText.data 0
              context.data * toText.length) ∧
    ReplaceAllOccurrencesCaseInsensitive "aaa" "a" "aa" = some "aaaaaa" ∧
    ReplaceAllOccurrencesCaseInsensitive "Hello World" "world" "Earth" =
      some "Hello Earth" := by
  refine ⟨?_, by decide, by decide⟩
  intro context fromText toText hne
  have hne2 : fromText.data ≠ [] := by
    intro h
    apply hne
    cases fromText with
    | mk data => simp only at h; rw [h]
  have hloop := ReplaceAllOccurrencesCaseInsensitiveLoop_eq fromText.data toText.data hne2
    (context.data.length + 1) [] context.data (Nat.lt_succ_self _)
  simp only [List.nil_append, List.length_nil] at hloop
  have heq : ReplaceAllOccurrencesCaseInsensitive context fromText toText =
      some (String.mk (ReplaceLeftmostOccurrences GdString.EqualsCaseInsensitive
        fromText.data toText.data 0 context.data)) := by
    unfold ReplaceAllOccurrencesCaseInsensitive
    rw [hloop]
    rfl
  refine ⟨heq, ?_⟩
  intro result hres
  rw [heq] at hres
  cases hres
  exact ReplaceLeftmostOccurrences_length GdString.EqualsCaseInsensitive fromText.data
    toText.data hne2 context.data.length context.data (Nat.le_refl _)

/-- C6 on the context "banana", the search text "AN" and the replacement "ana":
the result is the single pass over "banana", and its length follows from the
number of occurrences. -/
theorem ReplaceAllOccurrencesCaseInsensitive_single_pass_witness :
    ReplaceAllOccurrencesCaseInsensitive "banana" "AN" "ana" =
        some (String.mk (ReplaceLeftmostOccurrences GdString.EqualsCaseInsensitive
          "AN".data "ana".data 0 "banana".data)) ∧
      ∀ result : String,
        ReplaceAllOccurrencesCaseInsensitive "banana" "AN" "ana" = some result →
        result.length +
            CountLeftmostOccurrences GdString.EqualsCaseInsensitive "AN".data 0
              "banana".data * "AN".length =
          "banana".length +
            CountLeftmostOccurrences GdString.EqualsCaseInsensitive "AN".data 0
              "banana".data * "ana".length :=
  ReplaceAllOccurrencesCaseInsensitive_single_pass.1 "banana" "AN" "ana" (by decide)

/-! ## Removing in instructions -/

/-- A decrement followed by an increment gives back an index that a
`std::size_t` holds, zero included. -/
theorem SizeIncrement_SizeDecrement (index : Nat) (h : index < 2 ^ 64) :
    SizeIncrement (SizeDecrement index) = index := by
  unfold SizeIncrement SizeDecrement
  have h64 : (2 : Nat) ^ 64 = 18446744073709551616 := by norm_num
  rw [h64] at h ⊢
  omega

/-- An increment below the largest `std::size_t` does not wrap around. -/
theorem SizeIncrement_of_lt (index : Nat) (h : index + 1 < 2 ^ 64) :
    SizeIncrement index = index + 1 := by
  unfold SizeIncrement
  exact Nat.mod_eq_of_lt h

/-- The parameter loop of the removal sets `deleteMe` exactly when one of the
parameters it visits references the object. -/
theorem RemoveObjectScanParameters_eq (platform : Platform) (name : String) :
    ∀ (types : List ParameterKind) (pNb : Nat) (parameters : List String),
      RemoveObjectScanParameters platform name types pNb parameters =
        (types.enumFrom pNb).any (fun entry =>
          ParameterReferences platform name entry.2 (GetParameter parameters entry.1))
  | [], pNb, parameters => by simp [RemoveObjectScanParameters]
  | type :: rest, pNb, parameters => by
    have hobject : ∀ text, ParameterReferences platform name .ObjectReference text =
        (text == name) := fun _ => rfl
    have hnumber : ∀ text, ParameterReferences platform name .NumberExpression text =
        ExpressionObjectFinder.CheckIfHasObject platform "number" (platform.GetRootNode text)
          name := fun _ => rfl
    have hstring : ∀ text, ParameterReferences platform name .StringExpression text =
        ExpressionObjectFinder.CheckIfHasObject platform "string" (platform.GetRootNode text)
          name := fun _ => rfl
    have hother : ∀ text, ParameterReferences platform name .Other text = false :=
      fun _ => rfl
    rw [RemoveObjectScanParameters,
      RemoveObjectScanParameters_eq platform name rest (pNb + 1) parameters,
      List.enumFrom_cons, List.any_cons]
    cases type
    · rw [hobject]
      by_cases h : GetParameter parameters pNb = name <;>
        simp [ParameterMetadata.IsObject, ParameterMetadata.IsExpression, h]
    · rw [hnumber]
      simp [ParameterMetadata.IsObject, ParameterMetadata.IsExpression]
    · rw [hstring]
      simp [ParameterMetadata.IsObject, ParameterMetadata.IsExpression]
    · rw [hother]
      simp [ParameterMetadata.IsObject, ParameterMetadata.IsExpression]

/-- The value of `deleteMe` for an instruction is whether it is referencing. -/
theorem RemoveObjectScanParameters_IsReferencing (platform : Platform)
    (GetMetadata : String → List ParameterKind) (name : String) (instruction : Instruction) :
    RemoveObjectScanParameters platform name (GetMetadata instruction.GetType) 0
        instruction.GetParameters =
      IsReferencing platform GetMetadata name instruction := by
  rw [RemoveObjectScanParameters_eq]
  rfl

/-- An instruction is referencing exactly when some parameter index within the
metadata has a kind and a text that reference the object. -/
theorem IsReferencing_iff (platform : Platform) (GetMetadata : String → List ParameterKind)
    (name : String) (instruction : Instruction) :
    IsReferencing platform GetMetadata name instruction = true ↔
      ∃ (pNb : Nat) (type : ParameterKind),
        (GetMetadata instruction.GetType)[pNb]? = some type ∧
        ParameterReferences platform name type
          (GetParameter instruction.GetParameters pNb) = true := by
  unfold IsReferencing
  rw [List.any_eq_true]
  constructor
  · rintro ⟨⟨pNb, type⟩, hmem, href⟩
    exact ⟨pNb, type, List.mem_enum_iff_getElem?.1 hmem, href⟩
  · rintro ⟨pNb, type, hget, href⟩
    exact ⟨(pNb, type), List.mem_enum_iff_getElem?.2 hget, href⟩

/-- The element at the index that follows a prefix. -/
theorem getElem?_append_length {α : Type} (processed : List α) (x : α) (rest : List α) :
    (processed ++ x :: rest)[processed.length]? = some x := by
  induction processed with
  | nil => simp
  | cons p ps ih => simpa using ih

/-- Erasing the element at the index that follows a prefix. -/
theorem eraseIdx_append_length {α : Type} (processed : List α) (x : α) (rest : List α) :
    (processed ++ x :: rest).eraseIdx processed.length = processed ++ rest := by
  induction processed with
  | nil => rfl
  | cons p ps ih => simpa [List.eraseIdx] using ih

/-- Writing the element at the index that follows a prefix. -/
theorem set_append_length {α : Type} (processed : List α) (x y : α) (rest : List α) :
    (processed ++ x :: rest).set processed.length y = (processed ++ [y]) ++ rest := by
  induction processed with
  | nil => rfl
  | cons p ps ih => simp

/-- The loop of the removal, started at the index `aId` that follows the
instructions already processed, with more fuel than instructions remain and
recursive calls that behave as specified on the sub-instructions of the
remaining instructions: it exits with the processed instructions followed by the
remaining ones after removal, and with `somethingModified` set if it was or if
something is removed in the remaining instructions. -/
theorem RemoveObjectInInstructionsLoop_eq (platform : Platform)
    (GetMetadata : String → List ParameterKind) (name : String)
    (recurse : List Instruction → Option (Bool × List Instruction)) :
    ∀ (remaining : List Instruction) (fuel : Nat) (processed : List Instruction)
      (somethingModified : Bool),
      remaining.length < fuel →
      processed.length + remaining.length < 2 ^ 64 →
      (∀ instruction ∈ remaining, instruction.GetSubInstructions ≠ [] →
        recurse instruction.GetSubInstructions =
          some (RemovesIn platform GetMetadata name instruction.GetSubInstructions,
            RemovedInInstructions platform GetMetadata name instruction.GetSubInstructions)) →
      RemoveObjectInInstructionsLoop platform GetMetadata name recurse fuel
          (processed ++ remaining) processed.length somethingModified =
        some (somethingModified || RemovesIn platform GetMetadata name remaining,
          processed ++ RemovedInInstructions platform GetMetadata name remaining)
  | [], fuel, processed, somethingModified, hfuel, _, _ => by
    cases fuel with
    | zero => simp at hfuel
    | succ fuel =>
      rw [RemoveObjectInInstructionsLoop]
      simp [RemovesIn, RemovedInInstructions]
  | instruction :: rest, fuel, processed, somethingModified, hfuel, hsize, hrec => by
    cases fuel with
    | zero => simp at hfuel
    | succ fuel =>
      have hfuel2 : rest.length < fuel := by
        simp only [List.length_cons] at hfuel
        omega
      have hsize2 : processed.length + 1 + rest.length < 2 ^ 64 := by
        simp only [List.length_cons] at hsize
        omega
      have hrec2 : ∀ i ∈ rest, i.GetSubInstructions ≠ [] →
          recurse i.GetSubInstructions =
            some (RemovesIn platform GetMetadata name i.GetSubInstructions,
              RemovedInInstructions platform GetMetadata name i.GetSubInstructions) :=
        fun i hi => hrec i (List.mem_cons_of_mem _ hi)
      rw [RemoveObjectInInstructionsLoop, getElem?_append_length]
      simp only [RemoveObjectScanParameters_IsReferencing]
      by_cases href : IsReferencing platform GetMetadata name instruction = true
      · rw [if_pos href, eraseIdx_append_length,
          SizeIncrement_SizeDecrement _ (by omega),
          RemoveObjectInInstructionsLoop_eq platform GetMetadata name recurse rest fuel
            processed true hfuel2 (by omega) hrec2]
        simp [RemovesIn, RemovedInInstructions, href]
      · rw [if_neg href]
        have hlen : (processed ++ [RemovedInInstruction platform GetMetadata name
            instruction]).length = processed.length + 1 := by simp
        cases hsub : instruction.GetSubInstructions with
        | nil =>
          have hkeep : RemovedInInstruction platform GetMetadata name instruction =
              instruction := by
            cases instruction with
            | mk type parameters subInstructions =>
              simp only [Instruction.GetSubInstructions_mk] at hsub
              subst hsub
              rw [RemovedInInstruction, RemovedInInstructions]
          have hbelow : RemovesBelow platform GetMetadata name instruction = false := by
            cases instruction with
            | mk type parameters subInstructions =>
              simp only [Instruction.GetSubInstructions_mk] at hsub
              subst hsub
              rw [RemovesBelow, RemovesIn]
          have happ : processed ++ instruction :: rest =
              (processed ++ [RemovedInInstruction platform GetMetadata name instruction]) ++
                rest := by
            rw [hkeep]
            simp
          simp only [List.isEmpty_nil, Bool.not_true, Bool.false_eq_true, if_false]
          rw [SizeIncrement_of_lt _ (by omega), happ, ← hlen,
            RemoveObjectInInstructionsLoop_eq platform GetMetadata name recurse rest fuel
              _ somethingModified hfuel2 (by rw [hlen]; omega) hrec2]
          rw [RemovesIn, RemovedInInstructions, if_neg href, hbelow]
          simp only [Bool.not_eq_true] at href
          simp [href]
        | cons s ss =>
          have hcall := hrec instruction (List.mem_cons_self _ _) (by rw [hsub]; simp)
          have hkeep : Instruction.mk instruction.GetType instruction.GetParameters
              (RemovedInInstructions platform GetMetadata name
                instruction.GetSubInstructions) =
              RemovedInInstruction platform GetMetadata name instruction := by
            cases instruction with
            | mk type parameters subInstructions => rw [RemovedInInstruction]; rfl
          have hbelow : RemovesBelow platform GetMetadata name instruction =
              RemovesIn platform GetMetadata name instruction.GetSubInstructions := by
            cases instruction with
            | mk type parameters subInstructions => rw [RemovesBelow]; rfl
          rw [← hsub, hcall]
          simp only [hsub, List.isEmpty_cons, Bool.not_false, if_true]
          rw [← hsub, hkeep, set_append_length, SizeIncrement_of_lt _ (by omega), ← hlen,
            RemoveObjectInInstructionsLoop_eq platform GetMetadata name recurse rest fuel
              _ _ hfuel2 (by rw [hlen]; omega) hrec2]
          rw [RemovesIn, RemovedInInstructions, if_neg href, hbelow]
          simp only [Bool.not_eq_true] at href
          simp [href, Bool.or_comm, Bool.or_assoc, Bool.or_left_comm]

/-- The call depth of an instruction is that of its sub-instructions. -/
theorem InstructionCallDepth_eq (instruction : Instruction) :
    InstructionCallDepth instruction =
      InstructionsCallDepth instruction.GetSubInstructions := by
  cases instruction with
  | mk type parameters subInstructions => rw [InstructionCallDepth]; rfl

/-- A traversal asks for one call at least. -/
theorem InstructionsCallDepth_pos : ∀ instructions : List Instruction,
    1 ≤ InstructionsCallDepth instructions
  | [] => by rw [InstructionsCallDepth]
  | instruction :: rest => by
    rw [InstructionsCallDepth]
    omega

/-- The sub-instructions of a member of a list ask for one call less than the
list. -/
theorem InstructionsCallDepth_of_mem : ∀ (instructions : List Instruction)
    (instruction : Instruction), instruction ∈ instructions →
      InstructionsCallDepth instruction.GetSubInstructions + 1 ≤
        InstructionsCallDepth instructions
  | [], _, h => by simp at h
  | head :: rest, instruction, h => by
    rw [InstructionsCallDepth]
    rcases List.mem_cons.1 h with heq | hmem
    · subst heq
      rw [← InstructionCallDepth_eq]
      omega
    · have ih := InstructionsCallDepth_of_mem rest instruction hmem
      omega

/-- The size condition of an instruction is that of its sub-instructions. -/
theorem Instruction.SizesFit_eq (instruction : Instruction) :
    instruction.SizesFit = InstructionsSizesFit instruction.GetSubInstructions := by
  cases instruction with
  | mk type parameters subInstructions => rw [Instruction.SizesFit]; rfl

/-- A list whose sizes fit is shorter than `2 ^ 64`. -/
theorem InstructionsSizesFit_length : ∀ instructions : List Instruction,
    InstructionsSizesFit instructions = true → instructions.length < 2 ^ 64
  | [], _ => by simp
  | instruction :: rest, h => by
    rw [InstructionsSizesFit] at h
    simp only [Bool.and_eq_true, decide_eq_true_eq] at h
    exact h.1.1

/-- The sizes fit in the sub-instructions of every member of a list whose sizes
fit. -/
theorem InstructionsSizesFit_of_mem : ∀ (instructions : List Instruction)
    (instruction : Instruction), InstructionsSizesFit instructions = true →
      instruction ∈ instructions →
      InstructionsSizesFit instruction.GetSubInstructions = true
  | [], _, _, h => by simp at h
  | head :: rest, instruction, hfit, h => by
    rw [InstructionsSizesFit] at hfit
    simp only [Bool.and_eq_true, decide_eq_true_eq] at hfit
    rcases List.mem_cons.1 h with heq | hmem
    · subst heq
      rw [← Instruction.SizesFit_eq]
      exact hfit.1.2
    · exact InstructionsSizesFit_of_mem rest instruction hfit.2 hmem

/-- The removal, given the depth that the list asks for or more, returns
whether something is removed at this level or below, and the list after
removal. -/
theorem RemoveObjectInInstructionsDepth_eq (platform : Platform)
    (GetMetadata : String → List ParameterKind) (name : String) :
    ∀ (depth : Nat) (instructions : List Instruction),
      InstructionsCallDepth instructions ≤ depth →
      InstructionsSizesFit instructions = true →
      RemoveObjectInInstructionsDepth platform GetMetadata name depth instructions =
        some (RemovesIn platform GetMetadata name instructions,
          RemovedInInstructions platform GetMetadata name instructions)
  | 0, instructions, hdepth, _ => by
    have := InstructionsCallDepth_pos instructions
    omega
  | depth + 1, instructions, hdepth, hfit => by
    rw [RemoveObjectInInstructionsDepth]
    have hloop := RemoveObjectInInstructionsLoop_eq platform GetMetadata name
      (RemoveObjectInInstructionsDepth platform GetMetadata name depth) instructions
      (instructions.length + 1) [] false (Nat.lt_succ_self _)
      (by
        have := InstructionsSizesFit_length instructions hfit
        simpa using this)
      (by
        intro instruction hmem _
        apply RemoveObjectInInstructionsDepth_eq platform GetMetadata name depth
        · have := InstructionsCallDepth_of_mem instructions instruction hmem
          omega
        · exact InstructionsSizesFit_of_mem instructions instruction hfit hmem)
    simpa using hloop

/-- The list after removal is the list of the non-referencing instructions, in
order, each with its sub-instructions processed. -/
theorem RemovedInInstructions_eq_filter_map (platform : Platform)
    (GetMetadata : String → List ParameterKind) (name : String) :
    ∀ instructions : List Instruction,
      RemovedInInstructions platform GetMetadata name instructions =
        (instructions.filter
          (fun instruction => !IsReferencing platform GetMetadata name instruction)).map
          (RemovedInInstruction platform GetMetadata name)
  | [] => by rw [RemovedInInstructions]; rfl
  | instruction :: rest => by
    rw [RemovedInInstructions, RemovedInInstructions_eq_filter_map platform GetMetadata name rest]
    by_cases href : IsReferencing platform GetMetadata name instruction = true
    · simp [href]
    · simp [href]

/-- A surviving instruction, through its accessors. -/
theorem RemovedInInstruction_eq (platform : Platform)
    (GetMetadata : String → List ParameterKind) (name : String) (instruction : Instruction) :
    RemovedInInstruction platform GetMetadata name instruction =
      Instruction.mk instruction.GetType instruction.GetParameters
        (RemovedInInstructions platform GetMetadata name instruction.GetSubInstructions) := by
  cases instruction with
  | mk type parameters subInstructions => rw [RemovedInInstruction]; rfl

/-- Every list reached by a path in the list after removal is itself a list
after removal. -/
theorem SubInstructionsAt_RemovedInInstructions (platform : Platform)
    (GetMetadata : String → List ParameterKind) (name : String) :
    ∀ (path : List Nat) (instructions list : List Instruction),
      SubInstructionsAt (RemovedInInstructions platform GetMetadata name instructions) path =
        some list →
      ∃ original : List Instruction,
        list = RemovedInInstructions platform GetMetadata name original
  | [], instructions, list, h => by
    simp only [SubInstructionsAt, Option.some.injEq] at h
    exact ⟨instructions, h.symm⟩
  | index :: path, instructions, list, h => by
    rw [SubInstructionsAt] at h
    cases hget : (RemovedInInstructions platform GetMetadata name instructions)[index]? with
    | none => simp [hget] at h
    | some kept =>
      simp only [hget] at h
      have hmem := List.getElem?_mem hget
      rw [RemovedInInstructions_eq_filter_map, List.mem_map] at hmem
      obtain ⟨instruction, _, hkept⟩ := hmem
      rw [← hkept, RemovedInInstruction_eq, Instruction.GetSubInstructions_mk] at h
      exact SubInstructionsAt_RemovedInInstructions platform GetMetadata name path _ list h

/-- No instruction, at any depth of the list after removal, is referencing. -/
theorem InstructionAt_RemovedInInstructions (platform : Platform)
    (GetMetadata : String → List ParameterKind) (name : String)
    (instructions : List Instruction) (path : List Nat) (index : Nat)
    (instruction : Instruction)
    (h : InstructionAt (RemovedInInstructions platform GetMetadata name instructions)
      path index = some instruction) :
    IsReferencing platform GetMetadata name instruction = false := by
  unfold InstructionAt at h
  cases hsub : SubInstructionsAt
      (RemovedInInstructions platform GetMetadata name instructions) path with
  | none => simp [hsub] at h
  | some list =>
    simp only [hsub] at h
    obtain ⟨original, hlist⟩ :=
      SubInstructionsAt_RemovedInInstructions platform GetMetadata name path _ list hsub
    have hmem := List.getElem?_mem h
    rw [hlist, RemovedInInstructions_eq_filter_map, List.mem_map] at hmem
    obtain ⟨kept, hkeptmem, hkept⟩ := hmem
    rw [List.mem_filter] at hkeptmem
    have hnot : IsReferencing platform GetMetadata name kept = false := by
      simpa using hkeptmem.2
    rw [← hkept, RemovedInInstruction_eq]
    exact hnot

/-- An instruction counts for one at least. -/
theorem Instruction.Count_pos (instruction : Instruction) : 1 ≤ instruction.Count := by
  cases instruction with
  | mk type parameters subInstructions =>
    rw [Instruction.Count]
    omega

mutual
/-- Below a surviving instruction the removal never adds an instruction, and
takes one away at least when something is removed there. -/
theorem RemovedInInstruction_Count (platform : Platform)
    (GetMetadata : String → List ParameterKind) (name : String) :
    ∀ instruction : Instruction,
      (RemovedInInstruction platform GetMetadata name instruction).Count +
          (RemovesBelow platform GetMetadata name instruction).toNat ≤ instruction.Count
  | .mk type parameters subInstructions => by
    rw [RemovedInInstruction, RemovesBelow, Instruction.Count, Instruction.Count]
    have ih := RemovedInInstructions_Count platform GetMetadata name subInstructions
    omega
/-- The removal never adds an instruction to a list, and takes one away at
least when something is removed at this level or below. -/
theorem RemovedInInstructions_Count (platform : Platform)
    (GetMetadata : String → List ParameterKind) (name : String) :
    ∀ instructions : List Instruction,
      InstructionsCount (RemovedInInstructions platform GetMetadata name instructions) +
          (RemovesIn platform GetMetadata name instructions).toNat ≤
        InstructionsCount instructions
  | [] => by
    rw [RemovedInInstructions, RemovesIn, InstructionsCount]
    simp
  | instruction :: rest => by
    have ih1 := RemovedInInstruction_Count platform GetMetadata name instruction
    have ih2 := RemovedInInstructions_Count platform GetMetadata name rest
    have hpos := Instruction.Count_pos instruction
    rw [RemovedInInstructions, RemovesIn, InstructionsCount]
    by_cases href : IsReferencing platform GetMetadata name instruction = true
    · rw [if_pos href, href]
      simp only [Bool.true_or, Bool.toNat_true]
      omega
    · rw [if_neg href, InstructionsCount]
      simp only [Bool.not_eq_true] at href
      rw [href, Bool.false_or]
      cases hb : RemovesBelow platform GetMetadata name instruction <;>
        cases hr : RemovesIn platform GetMetadata name rest <;>
        simp only [hb, hr, Bool.toNat_true, Bool.toNat_false, Bool.or_self, Bool.or_true,
          Bool.true_or, Bool.or_false] at ih1 ih2 ⊢ <;>
        omega
end

mutual
/-- A surviving instruction below which nothing is removed is kept as it is. -/
theorem RemovedInInstruction_eq_self (platform : Platform)
    (GetMetadata : String → List ParameterKind) (name : String) :
    ∀ instruction : Instruction,
      RemovesBelow platform GetMetadata name instruction = false →
      RemovedInInstruction platform GetMetadata name instruction = instruction
  | .mk type parameters subInstructions => by
    intro h
    rw [RemovesBelow] at h
    rw [RemovedInInstruction,
      RemovedInInstructions_eq_self platform GetMetadata name subInstructions h]
/-- A list in which nothing is removed at any level is kept as it is. -/
theorem RemovedInInstructions_eq_self (platform : Platform)
    (GetMetadata : String → List ParameterKind) (name : String) :
    ∀ instructions : List Instruction,
      RemovesIn platform GetMetadata name instructions = false →
      RemovedInInstructions platform GetMetadata name instructions = instructions
  | [] => by
    intro _
    rw [RemovedInInstructions]
  | instruction :: rest => by
    intro h
    rw [RemovesIn] at h
    simp only [Bool.or_eq_false_iff] at h
    rw [RemovedInInstructions, h.1.1]
    simp only [Bool.false_eq_true, if_false]
    rw [RemovedInInstruction_eq_self platform GetMetadata name instruction h.1.2,
      RemovedInInstructions_eq_self platform GetMetadata name rest h.2]
end

/-- The returned flag of the removal, read on the list after removal: true
exactly when the list lost an instruction at some level, false exactly when the
list is unchanged. -/
theorem RemovesIn_spec (platform : Platform) (GetMetadata : String → List ParameterKind)
    (name : String) (instructions : List Instruction) :
    (RemovesIn platform GetMetadata name instructions = true ↔
      InstructionsCount (RemovedInInstructions platform GetMetadata name instructions) <
        InstructionsCount instructions) ∧
    (RemovesIn platform GetMetadata name instructions = false ↔
      RemovedInInstructions platform GetMetadata name instructions = instructions) := by
  have hcount := RemovedInInstructions_Count platform GetMetadata name instructions
  have hself := RemovedInInstructions_eq_self platform GetMetadata name instructions
  cases hflag : RemovesIn platform GetMetadata name instructions with
  | false =>
    have heq := hself hflag
    constructor
    · constructor
      · intro h
        cases h
      · intro h
        rw [heq] at h
        exact absurd h (Nat.lt_irrefl _)
    · constructor
      · intro _
        exact heq
      · intro _
        rfl
  | true =>
    rw [hflag] at hcount
    simp only [Bool.toNat_true] at hcount
    constructor
    · constructor
      · intro _
        omega
      · intro _
        rfl
    · constructor
      · intro h
        cases h
      · intro h
        rw [h] at hcount
        omega

/-- C4: `RemoveObjectInActions` and `RemoveObjectInConditions` delete exactly
the referencing instructions, whole and cascading. For every instruction list
whose sizes a `std::size_t` holds, the list after the call is the original list
without its referencing instructions (and so without their sub-instructions),
the others being kept in order with their sub-instructions processed in the same
way; an instruction is referencing when some parameter index within the
metadata has an object reference equal to `name` or an expression that the
finder reports as using `name`; and no instruction at any depth of the result is
referencing. The index correction after a removal (`aId--` then `++aId`, with
wrap-around at index 0) skips no instruction. -/
theorem RemoveObjectInInstructions_removes_referencing (platform : Platform)
    (instructions : List Instruction) (name : String)
    (hfit : InstructionsSizesFit instructions = true) :
    (∃ flag : Bool, RemoveObjectInActions platform instructions name =
      some (flag, RemovedInInstructions platform platform.GetActionMetadata name
        instructions)) ∧
    (∃ flag : Bool, RemoveObjectInConditions platform instructions name =
      some (flag, RemovedInInstructions platform platform.GetConditionMetadata name
        instructions)) ∧
    (∀ GetMetadata : String → List ParameterKind,
      RemovedInInstructions platform GetMetadata name instructions =
        (instructions.filter
          (fun instruction => !IsReferencing platform GetMetadata name instruction)).map
          (fun instruction =>
            Instruction.mk instruction.GetType instruction.GetParameters
              (RemovedInInstructions platform GetMetadata name
                instruction.GetSubInstructions))) ∧
    (∀ (GetMetadata : String → List ParameterKind) (instruction : Instruction),
      IsReferencing platform GetMetadata name instruction = true ↔
        ∃ (pNb : Nat) (type : ParameterKind),
          (GetMetadata instruction.GetType)[pNb]? = some type ∧
          ParameterReferences platform name type
            (GetParameter instruction.GetParameters pNb) = true) ∧
    (∀ (GetMetadata : String → List ParameterKind) (path : List Nat) (index : Nat)
      (instruction : Instruction),
      InstructionAt (RemovedInInstructions platform GetMetadata name instructions)
        path index = some instruction →
      IsReferencing platform GetMetadata name instruction = false) := by
  refine ⟨⟨_, RemoveObjectInInstructionsDepth_eq platform platform.GetActionMetadata name
      _ instructions (Nat.le_refl _) hfit⟩,
    ⟨_, RemoveObjectInInstructionsDepth_eq platform platform.GetConditionMetadata name
      _ instructions (Nat.le_refl _) hfit⟩, ?_, ?_, ?_⟩
  · intro GetMetadata
    rw [RemovedInInstructions_eq_filter_map]
    apply List.map_congr_left
    intro instruction _
    exact RemovedInInstruction_eq platform GetMetadata name instruction
  · intro GetMetadata instruction
    exact IsReferencing_iff platform GetMetadata name instruction
  · intro GetMetadata path index instruction h
    exact InstructionAt_RemovedInInstructions platform GetMetadata name instructions path
      index instruction h

/-- C4 on a list that starts with two consecutive referencing actions, followed
by an action that survives and owns a referencing sub-action: the two first
actions and the sub-action are removed. -/
theorem RemoveObjectInInstructions_removes_referencing_witness :
    ∃ flag : Bool, RemoveObjectInActions scenarioPlatform
        [Instruction.mk "Delete" ["Player"] [], Instruction.mk "Delete" ["Player"] [],
          Instruction.mk "Delete" ["Enemy"]
            [Instruction.mk "SetX" ["Enemy", "Player.X()"] [],
              Instruction.mk "Delete" ["Enemy"] []]] "Player" =
      some (flag, [Instruction.mk "Delete" ["Enemy"] [Instruction.mk "Delete" ["Enemy"] []]]) :=
  (RemoveObjectInInstructions_removes_referencing scenarioPlatform
    [Instruction.mk "Delete" ["Player"] [], Instruction.mk "Delete" ["Player"] [],
      Instruction.mk "Delete" ["Enemy"]
        [Instruction.mk "SetX" ["Enemy", "Player.X()"] [],
          Instruction.mk "Delete" ["Enemy"] []]] "Player" (by decide)).1

/-- C5: `RemoveObjectInActions` and `RemoveObjectInConditions` return whether
anything was removed at this level or below. For every instruction list whose
sizes a `std::size_t` holds, the call returns, and its result is true if and
only if the list after the call has fewer instructions, all depths counted,
than the list before, and false if and only if the list is left unchanged. For
a condition whose string expression is the call `Player.Name()` and that owns
two sub-conditions, `RemoveObjectInConditions` on "Player" returns true and
leaves an empty list. -/
theorem RemoveObjectInInstructions_returns_removed :
    (∀ (platform : Platform) (instructions : List Instruction) (name : String),
      InstructionsSizesFit instructions = true →
      (∃ (flag : Bool) (result : List Instruction),
        RemoveObjectInActions platform instructions name = some (flag, result) ∧
        (flag = true ↔ InstructionsCount result < InstructionsCount instructions) ∧
        (flag = false ↔ result = instructions)) ∧
      (∃ (flag : Bool) (result : List Instruction),
        RemoveObjectInConditions platform instructions name = some (flag, result) ∧
        (flag = true ↔ InstructionsCount result < InstructionsCount instructions) ∧
        (flag = false ↔ result = instructions))) ∧
    RemoveObjectInConditions scenarioPlatform
        [Instruction.mk "CompareText" ["Player.Name()"]
          [Instruction.mk "Collision" ["Enemy", "Wall"] [],
            Instruction.mk "Collision" ["Enemy", "Floor"] []]] "Player" =
      some (true, []) := by
  refine ⟨?_, by rfl⟩
  intro platform instructions name hfit
  exact ⟨⟨_, _, RemoveObjectInInstructionsDepth_eq platform platform.GetActionMetadata name
      _ instructions (Nat.le_refl _) hfit,
      RemovesIn_spec platform platform.GetActionMetadata name instructions⟩,
    ⟨_, _, RemoveObjectInInstructionsDepth_eq platform platform.GetConditionMetadata name
      _ instructions (Nat.le_refl _) hfit,
      RemovesIn_spec platform platform.GetConditionMetadata name instructions⟩⟩

/-- C5 on a list of conditions none of which references "Player": the call
returns, and its result tells whether the list has changed. -/
theorem RemoveObjectInInstructions_returns_removed_witness :
    ∃ (flag : Bool) (result : List Instruction),
      RemoveObjectInConditions scenarioPlatform
        [Instruction.mk "Collision" ["Enemy", "Wall"]
          [Instruction.mk "CompareText" ["Hero.X()"] []]] "Player" = some (flag, result) ∧
      (flag = true ↔ InstructionsCount result <
        InstructionsCount [Instruction.mk "Collision" ["Enemy", "Wall"]
          [Instruction.mk "CompareText" ["Hero.X()"] []]]) ∧
      (flag = false ↔ result = [Instruction.mk "Collision" ["Enemy", "Wall"]
        [Instruction.mk "CompareText" ["Hero.X()"] []]]) :=
  (RemoveObjectInInstructions_returns_removed.1 scenarioPlatform
    [Instruction.mk "Collision" ["Enemy", "Wall"]
      [Instruction.mk "CompareText" ["Hero.X()"] []]] "Player" (by decide)).2

/-! ## Searching in events -/

/-- C1, on one event that holds "Player" both in a condition parameter and in
an action parameter, searched with `inConditions` and `inActions` true:
`SearchInEvents` returns two entries for the event, one pushed by the condition
check and one by the action check, since `eventAddedInResults` is tested by
every check and set by none. -/
theorem SearchInEvents_duplicates_event :
    SearchInEvents scenarioPlatform [scenarioEvent] "Player" true true true false false [] =
      [⟨scenarioEvent, [], 0⟩, ⟨scenarioEvent, [], 0⟩] := by
  rfl

/-! ## The renamer reaches every node -/

mutual
/-- After the matching nodes have been renamed to another name, the tree holds
no matching node. -/
theorem ContainsMatchingNode_RenameMatchingNodes (platform : Platform)
    (rootType objectName objectNewName : String) (hne : objectName ≠ objectNewName) :
    ∀ node : ExpressionNode,
      ContainsMatchingNode platform rootType objectName
        (RenameMatchingNodes platform rootType objectName objectNewName node) = false
  | .Operator _ l r => by
    simp [RenameMatchingNodes, ContainsMatchingNode,
      ContainsMatchingNode_RenameMatchingNodes platform rootType objectName objectNewName hne l,
      ContainsMatchingNode_RenameMatchingNodes platform rootType objectName objectNewName hne r]
  | .UnaryOperator _ f => by
    simp [RenameMatchingNodes, ContainsMatchingNode,
      ContainsMatchingNode_RenameMatchingNodes platform rootType objectName objectNewName hne f]
  | .SubExpression e => by
    simp [RenameMatchingNodes, ContainsMatchingNode,
      ContainsMatchingNode_RenameMatchingNodes platform rootType objectName objectNewName hne e]
  | .Variable _ c => by
    simp [RenameMatchingNodes, ContainsMatchingNode,
      ChildContainsMatchingNode_RenameMatchingChild platform rootType objectName objectNewName
        hne c]
  | .VariableAccessor _ c => by
    simp [RenameMatchingNodes, ContainsMatchingNode,
      ChildContainsMatchingNode_RenameMatchingChild platform rootType objectName objectNewName
        hne c]
  | .VariableBracketAccessor e c => by
    simp [RenameMatchingNodes, ContainsMatchingNode,
      ContainsMatchingNode_RenameMatchingNodes platform rootType objectName objectNewName hne e,
      ChildContainsMatchingNode_RenameMatchingChild platform rootType objectName objectNewName
        hne c]
  | .Identifier n => by
    simp only [RenameMatchingNodes, ContainsMatchingNode, RenamedName]
    by_cases h : IsMatchingNode platform rootType objectName (.Identifier n) = true
    · rw [if_pos h]
      simp [IsMatchingNode, Ne.symm hne]
    · rw [if_neg h]
      simpa using h
  | .ObjectFunctionName o f => by
    simp only [RenameMatchingNodes, ContainsMatchingNode, RenamedName]
    by_cases h : IsMatchingNode platform rootType objectName (.ObjectFunctionName o f) = true
    · rw [if_pos h]
      simp [IsMatchingNode, Ne.symm hne]
    · rw [if_neg h]
      simp only [IsMatchingNode] at h ⊢
      simpa using h
  | .FunctionCall o f ps => by
    simp only [RenameMatchingNodes, ContainsMatchingNode, RenamedName,
      ParametersContainMatchingNode_RenameMatchingParameters platform rootType objectName
        objectNewName hne ps, Bool.or_false]
    by_cases h : IsMatchingNode platform rootType objectName (.FunctionCall o f ps) = true
    · rw [if_pos h]
      simp [IsMatchingNode, Ne.symm hne]
    · rw [if_neg h]
      simp only [IsMatchingNode] at h ⊢
      simpa using h
  | .Text _ => by simp [RenameMatchingNodes, ContainsMatchingNode]
  | .Number _ => by simp [RenameMatchingNodes, ContainsMatchingNode]
  | .Empty => by simp [RenameMatchingNodes, ContainsMatchingNode]
/-- The same for an optional child. -/
theorem ChildContainsMatchingNode_RenameMatchingChild (platform : Platform)
    (rootType objectName objectNewName : String) (hne : objectName ≠ objectNewName) :
    ∀ child : Option ExpressionNode,
      ChildContainsMatchingNode platform rootType objectName
        (RenameMatchingChild platform rootType objectName objectNewName child) = false
  | none => by simp [RenameMatchingChild, ChildContainsMatchingNode]
  | some c => by
    simp [RenameMatchingChild, ChildContainsMatchingNode,
      ContainsMatchingNode_RenameMatchingNodes platform rootType objectName objectNewName hne c]
/-- The same for the parameters of a call. -/
theorem ParametersContainMatchingNode_RenameMatchingParameters (platform : Platform)
    (rootType objectName objectNewName : String) (hne : objectName ≠ objectNewName) :
    ∀ parameters : List ExpressionNode,
      ParametersContainMatchingNode platform rootType objectName
        (RenameMatchingParameters platform rootType objectName objectNewName parameters) =
          false
  | [] => by simp [RenameMatchingParameters, ParametersContainMatchingNode]
  | p :: ps => by
    simp [RenameMatchingParameters, ParametersContainMatchingNode,
      ContainsMatchingNode_RenameMatchingNodes platform rootType objectName objectNewName hne p,
      ParametersContainMatchingNode_RenameMatchingParameters platform rootType objectName
        objectNewName hne ps]
end

/-- C11: the renamer reaches every node, the arguments of a call that itself
matched included. For every tree that the validator accepts and names
`oldName ≠ newName`, after `ExpressionObjectRenamer::Rename` no node of the
tree, at any depth and under any kind of parent, is a function call or an
object function name whose object is still `oldName`. -/
theorem Rename_reaches_every_node (platform : Platform) (rootType : String)
    (node : ExpressionNode) (oldName newName : String)
    (hvalid : platform.HasNoErrors rootType node = true) (hne : oldName ≠ newName) :
    ∀ n ∈ Nodes (ExpressionObjectRenamer.Rename platform rootType node oldName newName).2,
      ObjectNameOf n ≠ some oldName := by
  intro n hn hname
  unfold ExpressionObjectRenamer.Rename at hn
  rw [if_pos hvalid, RenamerVisit_eq] at hn
  have hnone := ContainsMatchingNode_RenameMatchingNodes platform rootType oldName newName
    hne node
  have hmatch : IsMatchingNode platform rootType oldName n = true := by
    cases n <;> simp_all [ObjectNameOf, IsMatchingNode]
  have hsome := (ContainsMatchingNode_iff platform rootType oldName _).2 ⟨n, hn, hmatch⟩
  rw [hnone] at hsome
  cases hsome

/-- C11 on the call `Player.X(Player.X(), Enemy)`, whose first argument is
itself a call on "Player": after the rename to "Hero" no call on "Player" is
left, in the arguments either. -/
theorem Rename_reaches_every_node_witness :
    scenarioPlatform.HasNoErrors "number"
        (.FunctionCall "Player" "X" [.FunctionCall "Player" "X" [], .Identifier "Enemy"]) =
      true ∧
    ∀ n ∈ Nodes (ExpressionObjectRenamer.Rename scenarioPlatform "number"
        (.FunctionCall "Player" "X" [.FunctionCall "Player" "X" [], .Identifier "Enemy"])
        "Player" "Hero").2,
      ObjectNameOf n ≠ some "Player" :=
  ⟨rfl, Rename_reaches_every_node scenarioPlatform "number"
    (.FunctionCall "Player" "X" [.FunctionCall "Player" "X" [], .Identifier "Enemy"])
    "Player" "Hero" rfl (by decide)⟩

/-! ## Unknown instruction types -/

mutual
/-- The parameter loop of the rename does nothing to an instruction whose type,
and the types below it, have no metadata. -/
theorem RenamedInstruction_of_unknown (platform : Platform)
    (GetMetadata : String → List ParameterKind) (oldName newName : String) :
    ∀ instruction : Instruction, InstructionTypesUnknown GetMetadata instruction = true →
      RenamedInstruction platform GetMetadata oldName newName instruction = instruction
  | .mk type parameters subInstructions => by
    intro h
    rw [InstructionTypesUnknown] at h
    simp only [Bool.and_eq_true, List.isEmpty_iff] at h
    rw [RenamedInstruction, h.1, RenameObjectInParameters,
      RenamedInstructions_of_unknown platform GetMetadata oldName newName subInstructions h.2]
/-- The same for a list of instructions. -/
theorem RenamedInstructions_of_unknown (platform : Platform)
    (GetMetadata : String → List ParameterKind) (oldName newName : String) :
    ∀ instructions : List Instruction,
      InstructionsTypesUnknown GetMetadata instructions = true →
      RenamedInstructions platform GetMetadata oldName newName instructions = instructions
  | [] => by
    intro _
    rw [RenamedInstructions]
  | instruction :: rest => by
    intro h
    rw [InstructionsTypesUnknown] at h
    simp only [Bool.and_eq_true] at h
    rw [RenamedInstructions,
      RenamedInstruction_of_unknown platform GetMetadata oldName newName instruction h.1,
      RenamedInstructions_of_unknown platform GetMetadata oldName newName rest h.2]
end

mutual
/-- Nothing is removed below an instruction whose type, and the types below it,
have no metadata. -/
theorem RemovesBelow_of_unknown (platform : Platform)
    (GetMetadata : String → List ParameterKind) (name : String) :
    ∀ instruction : Instruction, InstructionTypesUnknown GetMetadata instruction = true →
      IsReferencing platform GetMetadata name instruction = false ∧
      RemovesBelow platform GetMetadata name instruction = false
  | .mk type parameters subInstructions => by
    intro h
    rw [InstructionTypesUnknown] at h
    simp only [Bool.and_eq_true, List.isEmpty_iff] at h
    constructor
    · simp [IsReferencing, Instruction.GetType, h.1]
    · rw [RemovesBelow]
      exact RemovesIn_of_unknown platform GetMetadata name subInstructions h.2
/-- The same for a list of instructions. -/
theorem RemovesIn_of_unknown (platform : Platform)
    (GetMetadata : String → List ParameterKind) (name : String) :
    ∀ instructions : List Instruction,
      InstructionsTypesUnknown GetMetadata instructions = true →
      RemovesIn platform GetMetadata name instructions = false
  | [] => by
    intro _
    rw [RemovesIn]
  | instruction :: rest => by
    intro h
    rw [InstructionsTypesUnknown] at h
    simp only [Bool.and_eq_true] at h
    have h1 := RemovesBelow_of_unknown platform GetMetadata name instruction h.1
    rw [RemovesIn, h1.1, h1.2, RemovesIn_of_unknown platform GetMetadata name rest h.2]
    rfl
end

/-- C19: unknown instruction types make rename and remove no-ops. For every
instruction list in which every instruction, at every depth, has a type for
which the metadata lookup yields no parameter descriptor,
`RenameObjectInActions` and `RenameObjectInConditions` return false and leave
the list as it is, and so do `RemoveObjectInActions` and
`RemoveObjectInConditions` (on lists whose sizes a `std::size_t` holds), for
all names and whatever the texts of the parameters. -/
theorem Rename_Remove_unknown_types (platform : Platform) (instructions : List Instruction)
    (oldName newName name : String) :
    (InstructionsTypesUnknown platform.GetActionMetadata instructions = true →
      RenameObjectInActions platform instructions oldName newName = (false, instructions) ∧
      (InstructionsSizesFit instructions = true →
        RemoveObjectInActions platform instructions name = some (false, instructions))) ∧
    (InstructionsTypesUnknown platform.GetConditionMetadata instructions = true →
      RenameObjectInConditions platform instructions oldName newName =
        (false, instructions) ∧
      (InstructionsSizesFit instructions = true →
        RemoveObjectInConditions platform instructions name =
          some (false, instructions))) := by
  have key : ∀ GetMetadata : String → List ParameterKind,
      InstructionsTypesUnknown GetMetadata instructions = true →
      RenameObjectInInstructions platform GetMetadata oldName newName instructions false =
        (false, instructions) ∧
      (InstructionsSizesFit instructions = true →
        RemoveObjectInInstructionsDepth platform GetMetadata name
          (InstructionsCallDepth instructions) instructions = some (false, instructions)) := by
    intro GetMetadata h
    constructor
    · rw [RenameObjectInInstructions_eq,
        RenamedInstructions_of_unknown platform GetMetadata oldName newName instructions h]
    · intro hfit
      have hflag := RemovesIn_of_unknown platform GetMetadata name instructions h
      rw [RemoveObjectInInstructionsDepth_eq platform GetMetadata name _ instructions
        (Nat.le_refl _) hfit, hflag,
        RemovedInInstructions_eq_self platform GetMetadata name instructions hflag]
  exact ⟨key platform.GetActionMetadata, key platform.GetConditionMetadata⟩

/-- C19 on two actions of the type "Mystery", unknown to the scenario platform,
one nested in the other, whose parameters are "Player": rename and remove from
"Player" return false and keep both. -/
theorem Rename_Remove_unknown_types_witness :
    RenameObjectInActions scenarioPlatform
        [Instruction.mk "Mystery" ["Player"] [Instruction.mk "Mystery" ["Player"] []]]
        "Player" "Hero" =
      (false, [Instruction.mk "Mystery" ["Player"] [Instruction.mk "Mystery" ["Player"] []]]) ∧
    RemoveObjectInActions scenarioPlatform
        [Instruction.mk "Mystery" ["Player"] [Instruction.mk "Mystery" ["Player"] []]]
        "Player" =
      some (false,
        [Instruction.mk "Mystery" ["Player"] [Instruction.mk "Mystery" ["Player"] []]]) :=
  ⟨((Rename_Remove_unknown_types scenarioPlatform
      [Instruction.mk "Mystery" ["Player"] [Instruction.mk "Mystery" ["Player"] []]]
      "Player" "Hero" "Player").1 rfl).1,
    ((Rename_Remove_unknown_types scenarioPlatform
      [Instruction.mk "Mystery" ["Player"] [Instruction.mk "Mystery" ["Player"] []]]
      "Player" "Hero" "Player").1 rfl).2 rfl⟩

/-! ## Termination of the case-insensitive replacement -/

/-- The single pass replaces at most as many occurrences as the text has code
points. -/
theorem CountLeftmostOccurrences_le (equals : Char → Char → Bool) (fromText : List Char) :
    ∀ (context : List Char) (skip : Nat),
      CountLeftmostOccurrences equals fromText skip context ≤ context.length
  | [], skip => by cases skip <;> simp [CountLeftmostOccurrences]
  | c :: context, 0 => by
    rw [CountLeftmostOccurrences]
    have h1 := CountLeftmostOccurrences_le equals fromText context (fromText.length - 1)
    have h2 := CountLeftmostOccurrences_le equals fromText context 0
    simp only [List.length_cons]
    split <;> omega
  | c :: context, skip + 1 => by
    rw [CountLeftmostOccurrences]
    have h1 := CountLeftmostOccurrences_le equals fromText context skip
    simp only [List.length_cons]
    omega

open GdString in
/-- One iteration of the loop of the case-insensitive replacement, for a
non-empty search text: the new cursor is within the new text, and the text left
after the cursor is strictly shorter than before. -/
theorem ReplaceAllOccurrencesCaseInsensitive_step (context fromText toText : List Char)
    (lookHere foundHere : Nat) (hne : fromText ≠ [])
    (hfound : FindCaseInsensitive context fromText lookHere = some foundHere) :
    foundHere + toText.length ≤ (replace context foundHere fromText.length toText).length ∧
    (replace context foundHere fromText.length toText).length - (foundHere + toText.length) <
      context.length - lookHere := by
  unfold FindCaseInsensitive at hfound
  split at hfound
  · rename_i hle
    obtain ⟨before, after, hctx, hp, hstart, _, _⟩ :=
      FindFrom_some EqualsCaseInsensitive fromText toText hne _ lookHere foundHere hfound
    have hlen := StartsWith_length _ _ _ hstart
    have hpos : 0 < fromText.length := List.length_pos.2 hne
    have hdrop : (context.drop lookHere).length = before.length + after.length := by
      rw [hctx, List.length_append]
    rw [List.length_drop] at hdrop
    simp only [replace, List.length_append, List.length_take, List.length_drop]
    omega
  · cases hfound

/-- C20: the case-insensitive replacement is total. For every context, every
non-empty search text `from` and every replacement `to`, also one that contains
`from`, `ReplaceAllOccurrencesCaseInsensitive` returns: its loop exits as soon
as it may evaluate its condition once more than the context has code points, it
makes at most `len(context)` replacements, and at every iteration the text left
after the scan cursor gets strictly shorter. -/
theorem ReplaceAllOccurrencesCaseInsensitive_total (context fromText toText : String)
    (hne : fromText ≠ "") :
    (∃ result : String,
      ReplaceAllOccurrencesCaseInsensitive context fromText toText = some result) ∧
    (∀ fuel : Nat, context.length < fuel →
      ∃ result : List Char,
        ReplaceAllOccurrencesCaseInsensitiveLoop fromText.data toText.data fuel
          context.data 0 = some result) ∧
    CountLeftmostOccurrences GdString.EqualsCaseInsensitive fromText.data 0 context.data ≤
      context.length ∧
    (∀ (current : List Char) (lookHere foundHere : Nat),
      GdString.FindCaseInsensitive current fromText.data lookHere = some foundHere →
      foundHere + toText.length ≤
        (GdString.replace current foundHere fromText.length toText.data).length ∧
      (GdString.replace current foundHere fromText.length toText.data).length -
          (foundHere + toText.length) < current.length - lookHere) := by
  have hne2 : fromText.data ≠ [] := by
    intro h
    apply hne
    cases fromText with
    | mk data => simp only at h; rw [h]
  have hloop : ∀ fuel : Nat, context.length < fuel →
      ReplaceAllOccurrencesCaseInsensitiveLoop fromText.data toText.data fuel
        context.data 0 =
      some (ReplaceLeftmostOccurrences GdString.EqualsCaseInsensitive fromText.data
        toText.data 0 context.data) := by
    intro fuel hfuel
    have h := ReplaceAllOccurrencesCaseInsensitiveLoop_eq fromText.data toText.data hne2
      fuel [] context.data hfuel
    simpa using h
  refine ⟨?_, fun fuel hfuel => ⟨_, hloop fuel hfuel⟩,
    CountLeftmostOccurrences_le _ _ _ _, ?_⟩
  · unfold ReplaceAllOccurrencesCaseInsensitive
    have h := hloop (context.data.length + 1) (Nat.lt_succ_self _)
    rw [h]
    exact ⟨_, rfl⟩
  · intro current lookHere foundHere hfound
    exact ReplaceAllOccurrencesCaseInsensitive_step current fromText.data toText.data
      lookHere foundHere hne2 hfound

/-- C20 on the context "aaa", the search text "a" and the replacement "aa",
which contains the search text: the replacement returns. -/
theorem ReplaceAllOccurrencesCaseInsensitive_total_witness :
    ∃ result : String, ReplaceAllOccurrencesCaseInsensitive "aaa" "a" "aa" = some result :=
  (ReplaceAllOccurrencesCaseInsensitive_total "aaa" "a" "aa" (by decide)).1

/-! ## Searching in instructions -/

/-- An instruction followed by all the instructions below it, through its
accessor. -/
theorem InstructionWithSubInstructions_eq (instruction : Instruction) :
    InstructionWithSubInstructions instruction =
      instruction :: AllInstructions instruction.GetSubInstructions := by
  cases instruction with
  | mk type parameters subInstructions => rw [InstructionWithSubInstructions]; rfl

/-- The instructions of a list are among all its instructions. -/
theorem mem_AllInstructions_of_mem : ∀ (instructions : List Instruction)
    (instruction : Instruction), instruction ∈ instructions →
      instruction ∈ AllInstructions instructions
  | [], _, h => by simp at h
  | head :: rest, instruction, h => by
    rw [AllInstructions, InstructionWithSubInstructions_eq]
    rcases List.mem_cons.1 h with heq | hmem
    · simp [heq]
    · simp [mem_AllInstructions_of_mem rest instruction hmem]

/-- The instructions below a member of a list are among all the instructions of
the list. -/
theorem mem_AllInstructions_of_mem_sub : ∀ (instructions : List Instruction)
    (parent instruction : Instruction), parent ∈ instructions →
      instruction ∈ AllInstructions parent.GetSubInstructions →
      instruction ∈ AllInstructions instructions
  | [], _, _, h, _ => by simp at h
  | head :: rest, parent, instruction, h, hsub => by
    rw [AllInstructions, InstructionWithSubInstructions_eq]
    rcases List.mem_cons.1 h with heq | hmem
    · subst heq
      simp [hsub]
    · simp [mem_AllInstructions_of_mem_sub rest parent instruction hmem hsub]

/-- An instruction reached by a path is among all the instructions. -/
theorem mem_AllInstructions_of_InstructionAt : ∀ (path : List Nat)
    (instructions : List Instruction) (index : Nat) (instruction : Instruction),
      InstructionAt instructions path index = some instruction →
      instruction ∈ AllInstructions instructions
  | [], instructions, index, instruction, h => by
    simp only [InstructionAt, SubInstructionsAt] at h
    exact mem_AllInstructions_of_mem instructions instruction (List.getElem?_mem h)
  | k :: path, instructions, index, instruction, h => by
    simp only [InstructionAt, SubInstructionsAt] at h
    cases hget : instructions[k]? with
    | none => simp [hget] at h
    | some parent =>
      simp only [hget] at h
      exact mem_AllInstructions_of_mem_sub instructions parent instruction
        (List.getElem?_mem hget)
        (mem_AllInstructions_of_InstructionAt path parent.GetSubInstructions index
          instruction h)

/-- The instruction at an index of the tail of a list, or below it, is found
in the whole list one position further at the top level. -/
theorem InstructionAt_cons_of_rest (head : Instruction) (rest : List Instruction) :
    ∀ (path : List Nat) (index : Nat) (instruction : Instruction),
      InstructionAt rest path index = some instruction →
      ∃ (path1 : List Nat) (index1 : Nat),
        InstructionAt (head :: rest) path1 index1 = some instruction
  | [], index, instruction, h => by
    refine ⟨[], index + 1, ?_⟩
    simpa [InstructionAt, SubInstructionsAt] using h
  | k :: path, index, instruction, h => by
    refine ⟨(k + 1) :: path, index, ?_⟩
    simpa [InstructionAt, SubInstructionsAt] using h

mutual
/-- The instruction itself and those below it are reached by a path from any
list that holds the instruction first. -/
theorem InstructionAt_of_mem_InstructionWithSubInstructions :
    ∀ (head : Instruction) (rest : List Instruction) (instruction : Instruction),
      instruction ∈ InstructionWithSubInstructions head →
      ∃ (path : List Nat) (index : Nat),
        InstructionAt (head :: rest) path index = some instruction
  | .mk type parameters subInstructions, rest, instruction, h => by
    rw [InstructionWithSubInstructions] at h
    rcases List.mem_cons.1 h with heq | hmem
    · exact ⟨[], 0, by simp [InstructionAt, SubInstructionsAt, heq]⟩
    · obtain ⟨path, index, hat⟩ :=
        InstructionAt_of_mem_AllInstructions subInstructions instruction hmem
      refine ⟨0 :: path, index, ?_⟩
      simpa [InstructionAt, SubInstructionsAt, Instruction.GetSubInstructions] using hat
/-- Each of all the instructions of a list is reached by a path. -/
theorem InstructionAt_of_mem_AllInstructions :
    ∀ (instructions : List Instruction) (instruction : Instruction),
      instruction ∈ AllInstructions instructions →
      ∃ (path : List Nat) (index : Nat),
        InstructionAt instructions path index = some instruction
  | [], _, h => by
    rw [AllInstructions] at h
    simp at h
  | head :: rest, instruction, h => by
    rw [AllInstructions] at h
    rcases List.mem_append.1 h with hhead | hrest
    · exact InstructionAt_of_mem_InstructionWithSubInstructions head rest instruction hhead
    · obtain ⟨path, index, hat⟩ := InstructionAt_of_mem_AllInstructions rest instruction hrest
      exact InstructionAt_cons_of_rest head rest path index instruction hat
end

/-- All the instructions of a list are those reached by a path of indices. -/
theorem mem_AllInstructions_iff (instructions : List Instruction)
    (instruction : Instruction) :
    instruction ∈ AllInstructions instructions ↔
      ∃ (path : List Nat) (index : Nat),
        InstructionAt instructions path index = some instruction :=
  ⟨InstructionAt_of_mem_AllInstructions instructions instruction,
    fun ⟨path, index, h⟩ =>
      mem_AllInstructions_of_InstructionAt path instructions index instruction h⟩
open GdString in
/-- A text starts with `search` exactly when it splits into an occurrence that
matches `search` code point by code point and a rest. -/
theorem StartsWith_iff (equals : Char → Char → Bool) :
    ∀ search context : List Char,
      StartsWith equals search context = true ↔
        ∃ occurrence after : List Char, context = occurrence ++ after ∧
          List.Forall₂ (fun s c => equals s c = true) search occurrence
  | [], context => by
    simp only [StartsWith, true_iff]
    exact ⟨[], context, rfl, List.Forall₂.nil⟩
  | s :: search, [] => by
    simp only [StartsWith, Bool.false_eq_true, false_iff]
    rintro ⟨occurrence, after, hctx, hall⟩
    cases hall with
    | cons _ _ => simp at hctx
  | s :: search, c :: context => by
    simp only [StartsWith, Bool.and_eq_true, StartsWith_iff equals search context]
    constructor
    · rintro ⟨hsc, occurrence, after, hctx, hall⟩
      exact ⟨c :: occurrence, after, by rw [hctx]; rfl, List.Forall₂.cons hsc hall⟩
    · rintro ⟨occurrence, after, hctx, hall⟩
      cases hall with
      | cons hsc hrest =>
        simp only [List.cons_append, List.cons.injEq] at hctx
        rw [hctx.1]
        exact ⟨hsc, _, after, hctx.2, hrest⟩

open GdString in
/-- The search from the start of a text finds a position exactly when the text
contains the searched text. -/
theorem FindFrom_isSome_iff (equals : Char → Char → Bool) (search : List Char) :
    ∀ (context : List Char) (pos : Nat),
      (FindFrom equals search context pos).isSome = true ↔ Contains equals context search
  | [], pos => by
    unfold Contains
    rw [FindFrom]
    constructor
    · intro h
      cases search with
      | nil => exact ⟨[], [], [], rfl, List.Forall₂.nil⟩
      | cons s ss => simp at h
    · rintro ⟨before, occurrence, after, hctx, hall⟩
      have hocc : occurrence = [] := by
        cases occurrence with
        | nil => rfl
        | cons o os => simp at hctx
      subst hocc
      cases hall
      simp
  | c :: context, pos => by
    rw [FindFrom]
    by_cases hs : StartsWith equals search (c :: context) = true
    · rw [if_pos hs]
      simp only [Option.isSome_some, true_iff]
      obtain ⟨occurrence, after, hctx, hall⟩ := (StartsWith_iff equals search _).1 hs
      exact ⟨[], occurrence, after, by rw [hctx]; rfl, hall⟩
    · rw [if_neg hs, FindFrom_isSome_iff equals search context (pos + 1)]
      unfold Contains
      constructor
      · rintro ⟨before, occurrence, after, hctx, hall⟩
        exact ⟨c :: before, occurrence, after, by rw [hctx]; rfl, hall⟩
      · rintro ⟨before, occurrence, after, hctx, hall⟩
        cases before with
        | nil =>
          exfalso
          apply hs
          exact (StartsWith_iff equals search _).2
            ⟨occurrence, after, by simpa using hctx, hall⟩
        | cons b bs =>
          simp only [List.cons_append, List.cons.injEq] at hctx
          exact ⟨bs, occurrence, after, hctx.2, hall⟩

/-- The test `foundPosition != npos` holds exactly when the text contains the
query, in the chosen case mode. -/
theorem FoundIn_iff (text search : String) (matchCase : Bool) :
    FoundIn text search matchCase = true ↔ TextContains text search matchCase := by
  unfold FoundIn TextContains GdString.find GdString.FindCaseInsensitive
  cases matchCase
  · simp only [Bool.false_eq_true, if_false, Nat.zero_le, if_true, List.drop_zero]
    exact FindFrom_isSome_iff _ _ _ _
  · simp only [if_true, Nat.zero_le, List.drop_zero]
    exact FindFrom_isSome_iff _ _ _ _

/-- The ignored code points are those whose low byte is the code of one of the
characters of ";:,#()". -/
theorem IsIgnoredCharacter_eq (c : Char) :
    IsIgnoredCharacter c =
      decide (Char.ofNat (c.toNat % 2 ^ 8) ∈ [';', ':', ',', '#', '(', ')']) := by
  have hdata : searchIgnoredCharacters.data = [';', ':', ',', '#', '(', ')'] := rfl
  unfold IsIgnoredCharacter GdString.find
  rw [hdata]
  generalize Char.ofNat (c.toNat % 2 ^ 8) = b
  simp only [List.length_cons, List.length_nil, Nat.zero_le, if_true, List.drop_zero,
    GdString.FindFrom, GdString.StartsWith, Bool.and_true]
  by_cases h1 : b = ';'
  · simp [h1]
  by_cases h2 : b = ':'
  · simp [h2]
  by_cases h3 : b = ','
  · simp [h3]
  by_cases h4 : b = '#'
  · simp [h4]
  by_cases h5 : b = '('
  · simp [h5]
  by_cases h6 : b = ')'
  · simp [h6]
  simp [h1, h2, h3, h4, h5, h6]

/-- The parameter loop of the search returns true exactly when one of the
parameters contains the query. -/
theorem SearchStringInParameters_iff (search : String) (matchCase : Bool) :
    ∀ parameters : List String,
      SearchStringInParameters search matchCase parameters = true ↔
        ∃ text ∈ parameters, TextContains text search matchCase
  | [] => by simp [SearchStringInParameters]
  | parameter :: rest => by
    rw [SearchStringInParameters]
    by_cases h : FoundIn parameter search matchCase = true
    · simp only [h, if_true, true_iff]
      exact ⟨parameter, List.mem_cons_self _ _, (FoundIn_iff _ _ _).1 h⟩
    · rw [if_neg h, SearchStringInParameters_iff search matchCase rest]
      have h2 : ¬ TextContains parameter search matchCase := fun hc =>
        h ((FoundIn_iff _ _ _).2 hc)
      simp [h2]
mutual
/-- The body of the instruction loop of the search returns true exactly when
the instruction or one below it matches. -/
theorem SearchStringInInstruction_eq (platform : Platform) (isCondition : Bool)
    (search : String) (matchCase inSentences : Bool) :
    ∀ instruction : Instruction,
      SearchStringInInstruction platform isCondition search matchCase inSentences
          instruction =
        (InstructionWithSubInstructions instruction).any
          (InstructionMatches platform isCondition search matchCase inSentences)
  | .mk type parameters subInstructions => by
    rw [SearchStringInInstruction, InstructionWithSubInstructions, List.any_cons,
      SearchStringInInstructions_eq platform isCondition search matchCase inSentences
        subInstructions]
    have hguard : (!subInstructions.isEmpty &&
        (AllInstructions subInstructions).any
          (InstructionMatches platform isCondition search matchCase inSentences)) =
        (AllInstructions subInstructions).any
          (InstructionMatches platform isCondition search matchCase inSentences) := by
      cases subInstructions with
      | nil => rw [AllInstructions]; rfl
      | cons s ss => rfl
    rw [hguard]
    simp only [InstructionMatches, Instruction.GetParameters_mk]
    generalize (AllInstructions subInstructions).any
      (InstructionMatches platform isCondition search matchCase inSentences) = below
    cases SearchStringInParameters search matchCase parameters <;>
      cases inSentences <;>
      cases SearchStringInFormattedText platform (.mk type parameters subInstructions)
        search matchCase isCondition <;>
      cases below <;> rfl
/-- The instruction loop of the search returns true exactly when some
instruction of the list, at any depth, matches. -/
theorem SearchStringInInstructions_eq (platform : Platform) (isCondition : Bool)
    (search : String) (matchCase inSentences : Bool) :
    ∀ instructions : List Instruction,
      SearchStringInInstructions platform isCondition search matchCase inSentences
          instructions =
        (AllInstructions instructions).any
          (InstructionMatches platform isCondition search matchCase inSentences)
  | [] => by
    rw [SearchStringInInstructions, AllInstructions]
    rfl
  | instruction :: rest => by
    rw [SearchStringInInstructions, AllInstructions, List.any_append,
      SearchStringInInstruction_eq platform isCondition search matchCase inSentences
        instruction,
      SearchStringInInstructions_eq platform isCondition search matchCase inSentences rest]
    cases (InstructionWithSubInstructions instruction).any
      (InstructionMatches platform isCondition search matchCase inSentences) <;> rfl
end

/-- The search in an instruction list returns true if and only if some
instruction, reached by any path through the sub-instruction lists, has a
parameter whose text contains the query, or `inSentences` is true and the
sentence test of the search succeeds on that instruction. The early returns and
the order of the tests do not change the result. -/
theorem SearchStringInInstructions_iff_InstructionAt (platform : Platform)
    (isCondition : Bool) (instructions : List Instruction) (search : String)
    (matchCase inSentences : Bool) :
    SearchStringInInstructions platform isCondition search matchCase inSentences
        instructions = true ↔
      ∃ (path : List Nat) (index : Nat) (instruction : Instruction),
        InstructionAt instructions path index = some instruction ∧
        ((∃ text ∈ instruction.GetParameters, TextContains text search matchCase) ∨
          (inSentences = true ∧
            SearchStringInFormattedText platform instruction search matchCase
              isCondition = true)) := by
  rw [SearchStringInInstructions_eq, List.any_eq_true]
  have hmatch : ∀ instruction : Instruction,
      InstructionMatches platform isCondition search matchCase inSentences instruction
          = true ↔
        ((∃ text ∈ instruction.GetParameters, TextContains text search matchCase) ∨
          (inSentences = true ∧
            SearchStringInFormattedText platform instruction search matchCase
              isCondition = true)) := by
    intro instruction
    unfold InstructionMatches
    rw [Bool.or_eq_true, Bool.and_eq_true, SearchStringInParameters_iff]
  constructor
  · rintro ⟨instruction, hmem, hm⟩
    obtain ⟨path, index, hat⟩ := (mem_AllInstructions_iff instructions instruction).1 hmem
    exact ⟨path, index, instruction, hat, (hmatch instruction).1 hm⟩
  · rintro ⟨path, index, instruction, hat, hm⟩
    exact ⟨instruction, (mem_AllInstructions_iff instructions instruction).2
      ⟨path, index, hat⟩, (hmatch instruction).2 hm⟩

/-- C12, on the action `Delete(Player)` rendered as the sentence "aкb" and
searched for "ab" with `matchCase` and `inSentences`: `SearchStringInActions`
returns true, and so does `SearchStringInConditions` on the condition
`Collision(Player, Wall)`, although no match exists in the list: no instruction
of the list, at any depth, has a parameter that contains "ab", and the
normalised sentence, which is "aкb" since к is none of the characters of
";:,#()", does not contain "ab". The sentence test drops the к because the test
of the ignored characters reads the low byte of each code point only. -/
theorem SearchStringInActions_sentence_low_byte :
    SearchStringInActions cyrillicSentencePlatform [Instruction.mk "Delete" ["Player"] []]
      "ab" true true = true ∧
    SearchStringInConditions cyrillicSentencePlatform
      [Instruction.mk "Collision" ["Player", "Wall"] []] "ab" true true = true ∧
    NormalizedSentence cyrillicSentencePlatform (Instruction.mk "Delete" ["Player"] [])
      false = "aкb" ∧
    ¬ ∃ (path : List Nat) (index : Nat) (instruction : Instruction),
      InstructionAt [Instruction.mk "Delete" ["Player"] []] path index = some instruction ∧
      ((∃ text ∈ instruction.GetParameters, TextContains text "ab" true) ∨
        (true = true ∧
          TextContains (NormalizedSentence cyrillicSentencePlatform instruction false) "ab"
            true)) := by
  refine ⟨by rfl, by rfl, by decide, ?_⟩
  rintro ⟨path, index, instruction, hat, hm⟩
  have hmem := (mem_AllInstructions_iff [Instruction.mk "Delete" ["Player"] []]
    instruction).2 ⟨path, index, hat⟩
  have hall : AllInstructions [Instruction.mk "Delete" ["Player"] []] =
      [Instruction.mk "Delete" ["Player"] []] := rfl
  rw [hall, List.mem_singleton] at hmem
  subst hmem
  rcases hm with ⟨text, htext, hcontains⟩ | ⟨_, hcontains⟩
  · rw [Instruction.GetParameters_mk, List.mem_singleton] at htext
    subst htext
    have hfound := (FoundIn_iff "Player" "ab" true).2 hcontains
    exact absurd hfound (by decide)
  · have hfound := (FoundIn_iff _ "ab" true).2 hcontains
    exact absurd hfound (by decide)

/-! ## Normalisation of the query and of the sentences -/

open GdString in
/-- Collapsing the runs of a character keeps only code points of the text. -/
theorem RemoveConsecutiveOccurrences_mem (c : Char) :
    ∀ (text : List Char) (x : Char), x ∈ RemoveConsecutiveOccurrences c text → x ∈ text
  | [], x, h => by simp [RemoveConsecutiveOccurrences] at h
  | [a], x, h => by simpa [RemoveConsecutiveOccurrences] using h
  | a :: b :: rest, x, h => by
    rw [RemoveConsecutiveOccurrences] at h
    split at h
    · exact List.mem_cons_of_mem _ (RemoveConsecutiveOccurrences_mem c (b :: rest) x h)
    · rcases List.mem_cons.1 h with heq | hmem
      · rw [heq]
        exact List.mem_cons_self _ _
      · exact List.mem_cons_of_mem _ (RemoveConsecutiveOccurrences_mem c (b :: rest) x hmem)

open GdString in
/-- Collapsing the runs of a character keeps the first code point. -/
theorem RemoveConsecutiveOccurrences_head? (c : Char) :
    ∀ text : List Char, (RemoveConsecutiveOccurrences c text).head? = text.head?
  | [] => by simp [RemoveConsecutiveOccurrences]
  | [a] => by simp [RemoveConsecutiveOccurrences]
  | a :: b :: rest => by
    rw [RemoveConsecutiveOccurrences]
    split
    · rename_i h
      simp only [Bool.and_eq_true, beq_iff_eq] at h
      rw [RemoveConsecutiveOccurrences_head? c (b :: rest)]
      simp [h.1, h.2]
    · rfl

open GdString in
/-- Collapsing the runs of a character keeps the last code point. -/
theorem RemoveConsecutiveOccurrences_getLast? (c : Char) :
    ∀ text : List Char, (RemoveConsecutiveOccurrences c text).getLast? = text.getLast?
  | [] => by simp [RemoveConsecutiveOccurrences]
  | [a] => by simp [RemoveConsecutiveOccurrences]
  | a :: b :: rest => by
    have ih := RemoveConsecutiveOccurrences_getLast? c (b :: rest)
    rw [RemoveConsecutiveOccurrences]
    split
    · rw [ih, List.getLast?_cons_cons]
    · have hne : RemoveConsecutiveOccurrences c (b :: rest) ≠ [] := by
        intro hnil
        have hh := RemoveConsecutiveOccurrences_head? c (b :: rest)
        rw [hnil] at hh
        simp at hh
      obtain ⟨y, ys, hys⟩ := List.exists_cons_of_ne_nil hne
      rw [hys, List.getLast?_cons_cons, ← hys, ih, List.getLast?_cons_cons]

open GdString in
/-- After the runs of a character are collapsed, no two consecutive code points
are both that character. -/
theorem RemoveConsecutiveOccurrences_chain (c : Char) :
    ∀ text : List Char,
      List.Chain' (fun a b => ¬ (a = c ∧ b = c)) (RemoveConsecutiveOccurrences c text)
  | [] => by simp [RemoveConsecutiveOccurrences]
  | [a] => by simp [RemoveConsecutiveOccurrences]
  | a :: b :: rest => by
    have ih := RemoveConsecutiveOccurrences_chain c (b :: rest)
    rw [RemoveConsecutiveOccurrences]
    split
    · exact ih
    · rename_i h
      have hhead := RemoveConsecutiveOccurrences_head? c (b :: rest)
      cases hrc : RemoveConsecutiveOccurrences c (b :: rest) with
      | nil => simp
      | cons y ys =>
        rw [hrc] at hhead ih
        simp only [List.head?_cons, Option.some.injEq] at hhead
        rw [List.chain'_cons]
        refine ⟨?_, ih⟩
        rw [hhead]
        simpa using h

open GdString in
/-- A text without two consecutive occurrences of a character is left as it is
when the runs of the character are collapsed. -/
theorem RemoveConsecutiveOccurrences_of_chain (c : Char) :
    ∀ text : List Char, List.Chain' (fun a b => ¬ (a = c ∧ b = c)) text →
      RemoveConsecutiveOccurrences c text = text
  | [], _ => by simp [RemoveConsecutiveOccurrences]
  | [a], _ => by simp [RemoveConsecutiveOccurrences]
  | a :: b :: rest, h => by
    rw [List.chain'_cons] at h
    rw [RemoveConsecutiveOccurrences, RemoveConsecutiveOccurrences_of_chain c (b :: rest) h.2]
    have hab : (a == c && b == c) = false := by
      cases hc : (a == c && b == c) with
      | false => rfl
      | true =>
        simp only [Bool.and_eq_true, beq_iff_eq] at hc
        exact absurd hc h.1
    rw [hab]
    rfl

/-- A text whose first code point does not satisfy the test is left as it is by
`dropWhile`. -/
theorem dropWhile_of_head? {α : Type} (p : α → Bool) :
    ∀ l : List α, (∀ a, l.head? = some a → p a = false) → l.dropWhile p = l
  | [], _ => rfl
  | a :: l, h => by
    have ha := h a rfl
    simp [List.dropWhile, ha]

/-- The last element of a non-empty `dropWhile` is the last element of the
list. -/
theorem getLast?_dropWhile {α : Type} (p : α → Bool) :
    ∀ l : List α, l.dropWhile p ≠ [] → (l.dropWhile p).getLast? = l.getLast?
  | [], h => by simp at h
  | a :: l, h => by
    by_cases ha : p a = true
    · simp only [List.dropWhile, ha] at h ⊢
      rw [getLast?_dropWhile p l h]
      cases l with
      | nil => simp at h
      | cons b bs => rw [List.getLast?_cons_cons]
    · simp only [Bool.not_eq_true] at ha
      simp [List.dropWhile, ha]

/-- The first element of a `dropWhile` does not satisfy the test. -/
theorem head?_dropWhile_false {α : Type} (p : α → Bool) :
    ∀ (l : List α) (a : α), (l.dropWhile p).head? = some a → p a = false
  | [], a, h => by simp at h
  | b :: l, a, h => by
    by_cases hb : p b = true
    · simp only [List.dropWhile, hb] at h
      exact head?_dropWhile_false p l a h
    · simp only [Bool.not_eq_true] at hb
      simp only [List.dropWhile, hb, List.head?_cons, Option.some.injEq] at h
      rw [← h]
      exact hb

/-- The elements of a `dropWhile` are elements of the list. -/
theorem mem_of_mem_dropWhile_self {α : Type} (p : α → Bool) (l : List α) (a : α)
    (h : a ∈ l.dropWhile p) : a ∈ l :=
  (List.dropWhile_sublist p).subset h

/-- The normalisation of the query by `SearchInEvents`, when sentences are
searched, is the normal form for the test of the ignored characters of the
search. -/
theorem NormalizeSearch_true (search : String) :
    NormalizeSearch search true =
      String.mk (GdString.Normalized IsIgnoredCharacter search.data) := rfl

open GdString in
/-- The normal form of a text holds no ignored character, starts and ends with
no whitespace, and holds no two consecutive spaces. -/
theorem Normalized_spec (ignored : Char → Bool) (text : List Char) :
    (∀ c ∈ Normalized ignored text, ignored c = false) ∧
    (∀ c, (Normalized ignored text).head? = some c → c.isWhitespace = false) ∧
    (∀ c, (Normalized ignored text).getLast? = some c → c.isWhitespace = false) ∧
    List.Chain' (fun a b => ¬ (a = ' ' ∧ b = ' ')) (Normalized ignored text) := by
  unfold Normalized
  refine ⟨?_, ?_, ?_, RemoveConsecutiveOccurrences_chain _ _⟩
  · intro c hc
    have h1 := RemoveConsecutiveOccurrences_mem _ _ _ hc
    unfold RightTrim at h1
    rw [List.mem_reverse] at h1
    have h2 := mem_of_mem_dropWhile_self _ _ _ h1
    rw [List.mem_reverse] at h2
    have h3 := mem_of_mem_dropWhile_self _ _ _ h2
    unfold RemoveIf at h3
    rw [List.mem_filter] at h3
    simpa using h3.2
  · intro c hc
    rw [RemoveConsecutiveOccurrences_head?] at hc
    unfold RightTrim at hc
    rw [List.head?_reverse] at hc
    have hne : List.dropWhile Char.isWhitespace
        (LeftTrim (RemoveIf ignored text)).reverse ≠ [] := by
      intro hnil
      rw [hnil] at hc
      simp at hc
    rw [getLast?_dropWhile _ _ hne, List.getLast?_reverse] at hc
    exact head?_dropWhile_false _ _ _ hc
  · intro c hc
    rw [RemoveConsecutiveOccurrences_getLast?] at hc
    unfold RightTrim at hc
    rw [List.getLast?_reverse] at hc
    exact head?_dropWhile_false _ _ _ hc

open GdString in
/-- The normal form of a normal form is that normal form. -/
theorem Normalized_idempotent (ignored : Char → Bool) (text : List Char) :
    Normalized ignored (Normalized ignored text) = Normalized ignored text := by
  obtain ⟨h1, h2, h3, h4⟩ := Normalized_spec ignored text
  have hfilter : RemoveIf ignored (Normalized ignored text) = Normalized ignored text := by
    unfold RemoveIf
    rw [List.filter_eq_self]
    intro c hc
    simp [h1 c hc]
  have hleft : LeftTrim (Normalized ignored text) = Normalized ignored text :=
    dropWhile_of_head? _ _ h2
  have hright : RightTrim (Normalized ignored text) = Normalized ignored text := by
    unfold RightTrim
    rw [dropWhile_of_head? _ _ (by
      intro a ha
      rw [List.head?_reverse] at ha
      exact h3 a ha), List.reverse_reverse]
  have hcollapse := RemoveConsecutiveOccurrences_of_chain ' ' _ h4
  have hunfold : ∀ other : List Char, Normalized ignored other =
      RemoveConsecutiveOccurrences ' ' (RightTrim (LeftTrim (RemoveIf ignored other))) :=
    fun _ => rfl
  rw [hunfold (Normalized ignored text), hfilter, hleft, hright, hcollapse]

/-- C13, on the query "ab" and an instruction whose rendered sentence is "aкb":
the sentence test succeeds, although `N(s)` = "aкb" does not contain `Q(q)` =
"ab". The test of the ignored characters narrows each code point to its low
byte, so it also holds of the Cyrillic к (U+043A, low byte 0x3A as the colon),
which is none of the characters of ";:,#()", and the sentence is compared as
"ab". -/
theorem SentenceSearch_strips_by_low_byte :
    (∀ c : Char, IsIgnoredCharacter c =
      decide (Char.ofNat (c.toNat % 2 ^ 8) ∈ [';', ':', ',', '#', '(', ')'])) ∧
    IsIgnoredCharacter 'к' = true ∧ 'к' ∉ [';', ':', ',', '#', '(', ')'] ∧
    NormalizeSearch "ab" true = "ab" ∧ NormalizedQuery "ab" = "ab" ∧
    NormalizedSentence cyrillicSentencePlatform (Instruction.mk "Delete" ["Player"] [])
      false = "aкb" ∧
    SearchStringInFormattedText cyrillicSentencePlatform
      (Instruction.mk "Delete" ["Player"] []) (NormalizeSearch "ab" true) true false = true ∧
    ¬ TextContains
      (NormalizedSentence cyrillicSentencePlatform (Instruction.mk "Delete" ["Player"] [])
        false) (NormalizedQuery "ab") true := by
  refine ⟨IsIgnoredCharacter_eq, by decide, by decide, by decide, by decide, by decide,
    by rfl, ?_⟩
  intro hcontains
  have hfound := (FoundIn_iff _ _ true).2 hcontains
  exact absurd hfound (by decide)

/-! ## Replacing in instructions -/

/-- A string that is not the empty string has code points. -/
theorem String.data_ne_nil_of_ne_empty (text : String) (hne : text ≠ "") : text.data ≠ [] := by
  intro h
  apply hne
  cases text with
  | mk data => simp only at h; rw [h]

/-- The case-insensitive replacement of a non-empty search text returns the
single pass over the text. -/
theorem ReplaceAllOccurrencesCaseInsensitive_eq (context fromText toText : String)
    (hne : fromText ≠ "") :
    ReplaceAllOccurrencesCaseInsensitive context fromText toText =
      some (String.mk (ReplaceLeftmostOccurrences GdString.EqualsCaseInsensitive
        fromText.data toText.data 0 context.data)) := by
  have hloop := ReplaceAllOccurrencesCaseInsensitiveLoop_eq fromText.data toText.data
    (String.data_ne_nil_of_ne_empty fromText hne) (context.data.length + 1) [] context.data
    (Nat.lt_succ_self _)
  simp only [List.nil_append, List.length_nil] at hloop
  unfold ReplaceAllOccurrencesCaseInsensitive
  rw [hloop]
  rfl

/-- The new text computed for a parameter, for a non-empty search text, is the
substitution of the chosen case mode. -/
theorem ReplaceStringInText_eq (text toReplace newString : String) (matchCase : Bool)
    (hne : toReplace ≠ "") :
    ReplaceStringInText text toReplace newString matchCase =
      some (ReplacedText toReplace newString matchCase text) := by
  unfold ReplaceStringInText ReplacedText
  cases matchCase
  · simp only [Bool.false_eq_true, if_false]
    exact ReplaceAllOccurrencesCaseInsensitive_eq text toReplace newString hne
  · rfl

/-- The value read at the index that follows a prefix of the parameters. -/
theorem GetParameter_append_length (done : List String) (text : String)
    (rest : List String) : GetParameter (done ++ text :: rest) done.length = text := by
  unfold GetParameter
  rw [List.getD_eq_getElem?_getD, getElem?_append_length]
  rfl

/-- The parameter loop of the replacement, started after the parameters already
visited: every remaining parameter gets its substitution, and
`somethingModified` is set if it was or if a remaining parameter changes. -/
theorem ReplaceStringInParameters_eq (toReplace newString : String) (matchCase : Bool)
    (hne : toReplace ≠ "") :
    ∀ (remaining done : List String) (somethingModified : Bool),
      ReplaceStringInParameters toReplace newString matchCase remaining.length done.length
          (done ++ remaining) somethingModified =
        some (somethingModified ||
            remaining.any (fun text =>
              ReplacedText toReplace newString matchCase text != text),
          done ++ remaining.map (ReplacedText toReplace newString matchCase))
  | [], done, somethingModified => by
    simp [ReplaceStringInParameters]
  | text :: rest, done, somethingModified => by
    have hlen : ∀ value : String, (done ++ [value]).length = done.length + 1 := by
      intro value
      simp
    rw [List.length_cons, ReplaceStringInParameters, GetParameter_append_length,
      ReplaceStringInText_eq _ _ _ _ hne]
    simp only
    by_cases hchanged : (ReplacedText toReplace newString matchCase text != text) = true
    · rw [if_pos hchanged]
      unfold SetParameter
      rw [set_append_length, ← hlen (ReplacedText toReplace newString matchCase text),
        ReplaceStringInParameters_eq toReplace newString matchCase hne rest _ true]
      simp [hchanged]
    · rw [if_neg hchanged]
      have hsame : ReplacedText toReplace newString matchCase text = text := by
        simpa using hchanged
      have happ : done ++ text :: rest = (done ++ [text]) ++ rest := by simp
      rw [happ, ← hlen text,
        ReplaceStringInParameters_eq toReplace newString matchCase hne rest _
          somethingModified]
      simp [hsame]

mutual
/-- The body of the instruction loop of the replacement, for a non-empty search
text: every parameter of the instruction and of the instructions below it gets
its substitution, and `somethingModified` is set if it was or if a parameter of
the instruction itself changes. -/
theorem ReplaceStringInInstruction_eq (toReplace newString : String) (matchCase : Bool)
    (hne : toReplace ≠ "") :
    ∀ (instruction : Instruction) (somethingModified : Bool),
      ReplaceStringInInstruction toReplace newString matchCase instruction
          somethingModified =
        some (somethingModified ||
            instruction.GetParameters.any (fun text =>
              ReplacedText toReplace newString matchCase text != text),
          MapParametersInInstruction (ReplacedText toReplace newString matchCase)
            instruction)
  | .mk type parameters subInstructions, somethingModified => by
    have hparams := ReplaceStringInParameters_eq toReplace newString matchCase hne
      parameters [] somethingModified
    simp only [List.nil_append, List.length_nil] at hparams
    rw [ReplaceStringInInstruction, hparams,
      ReplaceStringInInstructions_eq toReplace newString matchCase hne subInstructions false,
      MapParametersInInstruction]
    cases subInstructions with
    | nil => simp [MapParametersInInstructions, Instruction.GetParameters]
    | cons s ss => simp [Instruction.GetParameters]
/-- The instruction loop of the replacement, for a non-empty search text: every
parameter at every depth gets its substitution, and `somethingModified` is set
if it was or if a parameter of an instruction of the list itself changes. -/
theorem ReplaceStringInInstructions_eq (toReplace newString : String) (matchCase : Bool)
    (hne : toReplace ≠ "") :
    ∀ (instructions : List Instruction) (somethingModified : Bool),
      ReplaceStringInInstructions toReplace newString matchCase instructions
          somethingModified =
        some (somethingModified ||
            ChangesTopLevelParameter (ReplacedText toReplace newString matchCase)
              instructions,
          MapParametersInInstructions (ReplacedText toReplace newString matchCase)
            instructions)
  | [], somethingModified => by
    simp [ReplaceStringInInstructions, MapParametersInInstructions,
      ChangesTopLevelParameter]
  | instruction :: rest, somethingModified => by
    rw [ReplaceStringInInstructions,
      ReplaceStringInInstruction_eq toReplace newString matchCase hne instruction]
    simp only
    rw [ReplaceStringInInstructions_eq toReplace newString matchCase hne rest,
      MapParametersInInstructions]
    simp [ChangesTopLevelParameter, Bool.or_assoc]
end
/-- The instruction with mapped parameters, through its accessors. -/
theorem MapParametersInInstruction_eq (f : String → String) (instruction : Instruction) :
    MapParametersInInstruction f instruction =
      Instruction.mk instruction.GetType (instruction.GetParameters.map f)
        (MapParametersInInstructions f instruction.GetSubInstructions) := by
  cases instruction with
  | mk type parameters subInstructions => rw [MapParametersInInstruction]; rfl

/-- Reading an index of the list with mapped parameters. -/
theorem MapParametersInInstructions_getElem? (f : String → String) :
    ∀ (instructions : List Instruction) (index : Nat),
      (MapParametersInInstructions f instructions)[index]? =
        (instructions[index]?).map (MapParametersInInstruction f)
  | [], index => by simp [MapParametersInInstructions]
  | instruction :: rest, 0 => by simp [MapParametersInInstructions]
  | instruction :: rest, index + 1 => by
    simp [MapParametersInInstructions, MapParametersInInstructions_getElem? f rest index]

/-- Following a path in the list with mapped parameters. -/
theorem SubInstructionsAt_MapParametersInInstructions (f : String → String) :
    ∀ (path : List Nat) (instructions : List Instruction),
      SubInstructionsAt (MapParametersInInstructions f instructions) path =
        (SubInstructionsAt instructions path).map (MapParametersInInstructions f)
  | [], instructions => rfl
  | index :: path, instructions => by
    simp only [SubInstructionsAt, MapParametersInInstructions_getElem?]
    cases instructions[index]? with
    | none => rfl
    | some instruction =>
      simp only [Option.map_some', MapParametersInInstruction_eq,
        Instruction.GetSubInstructions_mk]
      exact SubInstructionsAt_MapParametersInInstructions f path _

mutual
/-- Mapping the parameters keeps the number of instructions under an
instruction. -/
theorem MapParametersInInstruction_Count (f : String → String) :
    ∀ instruction : Instruction,
      (MapParametersInInstruction f instruction).Count = instruction.Count
  | .mk type parameters subInstructions => by
    rw [MapParametersInInstruction, Instruction.Count, Instruction.Count,
      MapParametersInInstructions_Count f subInstructions]
/-- Mapping the parameters keeps the number of instructions of a list, all
depths counted. -/
theorem MapParametersInInstructions_Count (f : String → String) :
    ∀ instructions : List Instruction,
      InstructionsCount (MapParametersInInstructions f instructions) =
        InstructionsCount instructions
  | [] => by rw [MapParametersInInstructions]
  | instruction :: rest => by
    rw [MapParametersInInstructions, InstructionsCount, InstructionsCount,
      MapParametersInInstruction_Count f instruction,
      MapParametersInInstructions_Count f rest]
end

/-- C15: `ReplaceStringInActions` and `ReplaceStringInConditions` rewrite every
parameter as opaque text at every depth. For every instruction list and
non-empty search text the call returns, and the list after the call has the
same instructions in the same order with the same sub-instruction structure,
each parameter of each instruction, at every nesting depth and whatever its
kind (no metadata is looked up), holding `R(p)`, where `p` is its previous text
and `R` the substring substitution of the chosen case mode. -/
theorem ReplaceStringInInstructions_rewrites_every_parameter
    (instructions : List Instruction) (toReplace newString : String) (matchCase : Bool)
    (hne : toReplace ≠ "") :
    (∃ flag : Bool, ReplaceStringInActions instructions toReplace newString matchCase =
      some (flag, MapParametersInInstructions (ReplacedText toReplace newString matchCase)
        instructions)) ∧
    (∃ flag : Bool, ReplaceStringInConditions instructions toReplace newString matchCase =
      some (flag, MapParametersInInstructions (ReplacedText toReplace newString matchCase)
        instructions)) ∧
    (∀ (path : List Nat) (index : Nat) (instruction : Instruction),
      InstructionAt instructions path index = some instruction →
      InstructionAt
          (MapParametersInInstructions (ReplacedText toReplace newString matchCase)
            instructions) path index =
        some (Instruction.mk instruction.GetType
          (instruction.GetParameters.map (ReplacedText toReplace newString matchCase))
          (MapParametersInInstructions (ReplacedText toReplace newString matchCase)
            instruction.GetSubInstructions))) ∧
    (MapParametersInInstructions (ReplacedText toReplace newString matchCase)
        instructions).length = instructions.length ∧
    InstructionsCount
        (MapParametersInInstructions (ReplacedText toReplace newString matchCase)
          instructions) = InstructionsCount instructions := by
  refine ⟨⟨_, ReplaceStringInInstructions_eq toReplace newString matchCase hne instructions
      false⟩,
    ⟨_, ReplaceStringInInstructions_eq toReplace newString matchCase hne instructions
      false⟩, ?_, ?_, MapParametersInInstructions_Count _ instructions⟩
  · intro path index instruction h
    unfold InstructionAt at h ⊢
    rw [SubInstructionsAt_MapParametersInInstructions]
    cases hsub : SubInstructionsAt instructions path with
    | none => simp [hsub] at h
    | some list =>
      simp only [hsub] at h
      simp [MapParametersInInstructions_getElem?, h, MapParametersInInstruction_eq]
  · induction instructions with
    | nil => rw [MapParametersInInstructions]
    | cons instruction rest ih =>
      rw [MapParametersInInstructions, List.length_cons, List.length_cons, ih]

/-- C15 on the action `SetText(Player, "Hello World")` that owns the sub-action
`Delete(World)`, with the search text "world" replaced by "Earth" without
regard to case: both the string expression and the object reference of the
sub-action are rewritten. -/
theorem ReplaceStringInInstructions_rewrites_every_parameter_witness :
    "world" ≠ "" ∧
    ∃ flag : Bool,
      ReplaceStringInActions
        [Instruction.mk "SetText" ["Player", "Hello World"]
          [Instruction.mk "Delete" ["World"] []]] "world" "Earth" false =
      some (flag, [Instruction.mk "SetText" ["Player", "Hello Earth"]
        [Instruction.mk "Delete" ["Earth"] []]]) :=
  ⟨by decide, (ReplaceStringInInstructions_rewrites_every_parameter
    [Instruction.mk "SetText" ["Player", "Hello World"]
      [Instruction.mk "Delete" ["World"] []]] "world" "Earth" false (by decide)).1⟩

/-- C16, on the action `Delete(Enemy)` that owns the sub-action
`Delete(Player)`, with the search text "Player" replaced by "Hero": the
parameter of the sub-action is changed, yet `ReplaceStringInActions` returns
false, the result of the recursive call on the sub-instructions being
dropped. -/
theorem ReplaceStringInActions_drops_nested_modification :
    ReplaceStringInActions
        [Instruction.mk "Delete" ["Enemy"] [Instruction.mk "Delete" ["Player"] []]]
        "Player" "Hero" true =
      some (false,
        [Instruction.mk "Delete" ["Enemy"] [Instruction.mk "Delete" ["Hero"] []]]) := by
  rfl

/-! ## Renaming in events -/

/-- On a tree that a rename has just changed, a second rename to the same new
name reports no rename. -/
theorem Rename_of_renamed (platform : Platform) (rootType : String) (node : ExpressionNode)
    (oldName newName : String) (hne : oldName ≠ newName)
    (h : (ExpressionObjectRenamer.Rename platform rootType node oldName newName).1 = true) :
    (ExpressionObjectRenamer.Rename platform rootType
      (ExpressionObjectRenamer.Rename platform rootType node oldName newName).2
      oldName newName).1 = false := by
  unfold ExpressionObjectRenamer.Rename at h ⊢
  by_cases hvalid : platform.HasNoErrors rootType node = true
  · rw [if_pos hvalid, RenamerVisit_eq] at h ⊢
    simp only
    split
    · rw [RenamerVisit_eq,
        ContainsMatchingNode_RenameMatchingNodes platform rootType oldName newName hne node]
      rfl
    · rfl
  · rw [if_neg hvalid] at h
    cases h

/-- The text of a parameter after a rename, kind by kind. -/
theorem RenamedParameter_cases (platform : Platform) (oldName newName : String)
    (text : String) :
    RenamedParameter platform oldName newName .ObjectReference text =
      (if text = oldName then newName else text) ∧
    RenamedParameter platform oldName newName .NumberExpression text =
      (if (ExpressionObjectRenamer.Rename platform "number" (platform.GetRootNode text)
          oldName newName).1 = true then
        platform.PrintNode (ExpressionObjectRenamer.Rename platform "number"
          (platform.GetRootNode text) oldName newName).2
       else text) ∧
    RenamedParameter platform oldName newName .StringExpression text =
      (if (ExpressionObjectRenamer.Rename platform "string" (platform.GetRootNode text)
          oldName newName).1 = true then
        platform.PrintNode (ExpressionObjectRenamer.Rename platform "string"
          (platform.GetRootNode text) oldName newName).2
       else text) ∧
    RenamedParameter platform oldName newName .Other text = text := by
  refine ⟨?_, ?_, ?_, ?_⟩ <;>
    simp [RenamedParameter, ParameterMetadata.IsObject, ParameterMetadata.IsExpression]

/-- Renaming twice the text of a parameter is renaming it once, when the new
name differs from the old one and printing then parsing a renamed tree gives
the tree back. -/
theorem RenamedParameter_idempotent (platform : Platform) (oldName newName : String)
    (hne : oldName ≠ newName)
    (hround : ∀ (rootType text : String),
      (ExpressionObjectRenamer.Rename platform rootType (platform.GetRootNode text)
        oldName newName).1 = true →
      platform.GetRootNode (platform.PrintNode
        (ExpressionObjectRenamer.Rename platform rootType (platform.GetRootNode text)
          oldName newName).2) =
        (ExpressionObjectRenamer.Rename platform rootType (platform.GetRootNode text)
          oldName newName).2)
    (type : ParameterKind) (text : String) :
    RenamedParameter platform oldName newName type
        (RenamedParameter platform oldName newName type text) =
      RenamedParameter platform oldName newName type text := by
  have hexpr : ∀ rootType : String,
      (if (ExpressionObjectRenamer.Rename platform rootType (platform.GetRootNode
            (if (ExpressionObjectRenamer.Rename platform rootType
                (platform.GetRootNode text) oldName newName).1 = true then
              platform.PrintNode (ExpressionObjectRenamer.Rename platform rootType
                (platform.GetRootNode text) oldName newName).2
             else text)) oldName newName).1 = true then
        platform.PrintNode (ExpressionObjectRenamer.Rename platform rootType
          (platform.GetRootNode
            (if (ExpressionObjectRenamer.Rename platform rootType
                (platform.GetRootNode text) oldName newName).1 = true then
              platform.PrintNode (ExpressionObjectRenamer.Rename platform rootType
                (platform.GetRootNode text) oldName newName).2
             else text)) oldName newName).2
       else
        (if (ExpressionObjectRenamer.Rename platform rootType
            (platform.GetRootNode text) oldName newName).1 = true then
          platform.PrintNode (ExpressionObjectRenamer.Rename platform rootType
            (platform.GetRootNode text) oldName newName).2
         else text)) =
      (if (ExpressionObjectRenamer.Rename platform rootType
          (platform.GetRootNode text) oldName newName).1 = true then
        platform.PrintNode (ExpressionObjectRenamer.Rename platform rootType
          (platform.GetRootNode text) oldName newName).2
       else text) := by
    intro rootType
    by_cases h : (ExpressionObjectRenamer.Rename platform rootType
        (platform.GetRootNode text) oldName newName).1 = true
    · simp only [h, if_true]
      rw [hround rootType text h,
        Rename_of_renamed platform rootType _ oldName newName hne h]
      simp
    · rw [if_neg h, if_neg h]
  cases type
  · rw [(RenamedParameter_cases platform oldName newName text).1,
      (RenamedParameter_cases platform oldName newName _).1]
    by_cases h : text = oldName
    · simp [h, Ne.symm hne]
    · simp [h]
  · rw [(RenamedParameter_cases platform oldName newName text).2.1,
      (RenamedParameter_cases platform oldName newName _).2.1]
    exact hexpr "number"
  · rw [(RenamedParameter_cases platform oldName newName text).2.2.1,
      (RenamedParameter_cases platform oldName newName _).2.2.1]
    exact hexpr "string"
  · rw [(RenamedParameter_cases platform oldName newName text).2.2.2,
      (RenamedParameter_cases platform oldName newName _).2.2.2]
/-- Running the parameter loop of the rename twice is running it once, under
the conditions of `RenamedParameter_idempotent`. -/
theorem RenameObjectInParameters_idempotent (platform : Platform) (oldName newName : String)
    (hparameter : ∀ (type : ParameterKind) (text : String),
      RenamedParameter platform oldName newName type
          (RenamedParameter platform oldName newName type text) =
        RenamedParameter platform oldName newName type text)
    (types : List ParameterKind) (parameters : List String) :
    RenameObjectInParameters platform oldName newName types 0
        (RenameObjectInParameters platform oldName newName types 0 parameters) =
      RenameObjectInParameters platform oldName newName types 0 parameters := by
  apply List.ext_getElem?
  intro i
  rw [RenameObjectInParameters_getElem?, RenameObjectInParameters_getElem?]
  cases parameters[i]? with
  | none => rfl
  | some text =>
    simp only [Option.map_some', Nat.zero_le, if_true, Nat.sub_zero]
    cases types[i]? with
    | none => rfl
    | some type => simp only [hparameter]

mutual
/-- Renaming twice in an instruction is renaming once, under the conditions of
`RenamedParameter_idempotent`. -/
theorem RenamedInstruction_idempotent (platform : Platform)
    (GetMetadata : String → List ParameterKind) (oldName newName : String)
    (hparameter : ∀ (type : ParameterKind) (text : String),
      RenamedParameter platform oldName newName type
          (RenamedParameter platform oldName newName type text) =
        RenamedParameter platform oldName newName type text) :
    ∀ instruction : Instruction,
      RenamedInstruction platform GetMetadata oldName newName
          (RenamedInstruction platform GetMetadata oldName newName instruction) =
        RenamedInstruction platform GetMetadata oldName newName instruction
  | .mk type parameters subInstructions => by
    rw [RenamedInstruction, RenamedInstruction,
      RenameObjectInParameters_idempotent platform oldName newName hparameter,
      RenamedInstructions_idempotent platform GetMetadata oldName newName hparameter
        subInstructions]
/-- Renaming twice in a list of instructions is renaming once, under the
conditions of `RenamedParameter_idempotent`. -/
theorem RenamedInstructions_idempotent (platform : Platform)
    (GetMetadata : String → List ParameterKind) (oldName newName : String)
    (hparameter : ∀ (type : ParameterKind) (text : String),
      RenamedParameter platform oldName newName type
          (RenamedParameter platform oldName newName type text) =
        RenamedParameter platform oldName newName type text) :
    ∀ instructions : List Instruction,
      RenamedInstructions platform GetMetadata oldName newName
          (RenamedInstructions platform GetMetadata oldName newName instructions) =
        RenamedInstructions platform GetMetadata oldName newName instructions
  | [] => by
    rw [RenamedInstructions, RenamedInstructions]
  | instruction :: rest => by
    rw [RenamedInstructions, RenamedInstructions,
      RenamedInstruction_idempotent platform GetMetadata oldName newName hparameter
        instruction,
      RenamedInstructions_idempotent platform GetMetadata oldName newName hparameter rest]
end

/-- The rename of an expression held by an event returns false and leaves the
renamed text of the expression. -/
theorem RenameObjectInEventParameters_eq (platform : Platform) (expression : String)
    (parameterMetadata : ParameterKind) (oldName newName : String) :
    RenameObjectInEventParameters platform expression parameterMetadata oldName newName =
      (false, RenamedParameter platform oldName newName parameterMetadata expression) := by
  unfold RenameObjectInEventParameters RenamedParameter
  simp only
  split
  · rfl
  · split
    · split <;> rfl
    · split
      · split <;> rfl
      · rfl

/-- The event after the rename, through its accessors. -/
theorem RenameObjectInEvent_eq (platform : Platform) (oldName newName : String)
    (event : BaseEvent) :
    RenameObjectInEvent platform oldName newName event =
      BaseEvent.mk
        (event.GetAllConditionsVectors.map
          (RenamedInstructions platform platform.GetConditionMetadata oldName newName))
        (event.GetAllActionsVectors.map
          (RenamedInstructions platform platform.GetActionMetadata oldName newName))
        event.GetAllSearchableStrings
        (event.GetAllExpressionsWithMetadata.map (fun expressionWithMetadata =>
          (RenamedParameter platform oldName newName expressionWithMetadata.2
            expressionWithMetadata.1, expressionWithMetadata.2)))
        event.CanHaveSubEvents
        (if event.CanHaveSubEvents then
          RenameObjectInEvents platform event.GetSubEvents oldName newName
         else event.GetSubEvents) := by
  cases event with
  | mk conditionsVectors actionsVectors searchableStrings expressionsWithMetadata
      canHaveSubEvents subEvents =>
    rw [RenameObjectInEvent]
    simp only [RenameObjectInConditions, RenameObjectInActions, RenameObjectInInstructions_eq,
      RenameObjectInEventParameters_eq, BaseEvent.GetAllConditionsVectors,
      BaseEvent.GetAllActionsVectors, BaseEvent.GetAllSearchableStrings,
      BaseEvent.GetAllExpressionsWithMetadata, BaseEvent.CanHaveSubEvents,
      BaseEvent.GetSubEvents, RenameObjectInEvents]

mutual
/-- Renaming twice in an event is renaming once, under the conditions of
`RenamedParameter_idempotent`. -/
theorem RenameObjectInEvent_idempotent (platform : Platform) (oldName newName : String)
    (hparameter : ∀ (type : ParameterKind) (text : String),
      RenamedParameter platform oldName newName type
          (RenamedParameter platform oldName newName type text) =
        RenamedParameter platform oldName newName type text) :
    ∀ event : BaseEvent,
      RenameObjectInEvent platform oldName newName
          (RenameObjectInEvent platform oldName newName event) =
        RenameObjectInEvent platform oldName newName event
  | .mk conditionsVectors actionsVectors searchableStrings expressionsWithMetadata
      canHaveSubEvents subEvents => by
    have hsub := RenameObjectInEventsLoop_idempotent platform oldName newName hparameter
      subEvents
    rw [RenameObjectInEvent, RenameObjectInEvent]
    simp only [RenameObjectInConditions, RenameObjectInActions, RenameObjectInInstructions_eq,
      RenameObjectInEventParameters_eq, List.map_map, BaseEvent.mk.injEq, true_and]
    refine ⟨?_, ?_, ?_, ?_⟩
    · apply List.map_congr_left
      intro conditions _
      exact RenamedInstructions_idempotent platform _ oldName newName hparameter conditions
    · apply List.map_congr_left
      intro actions _
      exact RenamedInstructions_idempotent platform _ oldName newName hparameter actions
    · apply List.map_congr_left
      intro expressionWithMetadata _
      simp only [Function.comp, hparameter]
    · cases canHaveSubEvents
      · rfl
      · simpa using hsub
/-- Renaming twice in a list of events is renaming once, under the conditions
of `RenamedParameter_idempotent`. -/
theorem RenameObjectInEventsLoop_idempotent (platform : Platform)
    (oldName newName : String)
    (hparameter : ∀ (type : ParameterKind) (text : String),
      RenamedParameter platform oldName newName type
          (RenamedParameter platform oldName newName type text) =
        RenamedParameter platform oldName newName type text) :
    ∀ events : List BaseEvent,
      RenameObjectInEventsLoop platform oldName newName
          (RenameObjectInEventsLoop platform oldName newName events) =
        RenameObjectInEventsLoop platform oldName newName events
  | [] => by
    rw [RenameObjectInEventsLoop, RenameObjectInEventsLoop]
  | event :: rest => by
    rw [RenameObjectInEventsLoop, RenameObjectInEventsLoop,
      RenameObjectInEvent_idempotent platform oldName newName hparameter event,
      RenameObjectInEventsLoop_idempotent platform oldName newName hparameter rest]
end

/-- C17: rename is idempotent. For every event tree and names
`oldName ≠ newName` (so that `newName` satisfies no rename predicate), when
printing then parsing again a tree that the renamer has changed gives the tree
back (the validator and the type finder being functions of the tree they are
given), applying `RenameObjectInEvents` a second time leaves the tree produced
by the first application as it is: no parameter text and no expression is
modified by the second call. -/
theorem RenameObjectInEvents_idempotent (platform : Platform) (events : List BaseEvent)
    (oldName newName : String) (hne : oldName ≠ newName)
    (hround : ∀ (rootType text : String),
      (ExpressionObjectRenamer.Rename platform rootType (platform.GetRootNode text)
        oldName newName).1 = true →
      platform.GetRootNode (platform.PrintNode
        (ExpressionObjectRenamer.Rename platform rootType (platform.GetRootNode text)
          oldName newName).2) =
        (ExpressionObjectRenamer.Rename platform rootType (platform.GetRootNode text)
          oldName newName).2) :
    RenameObjectInEvents platform (RenameObjectInEvents platform events oldName newName)
        oldName newName =
      RenameObjectInEvents platform events oldName newName := by
  unfold RenameObjectInEvents
  exact RenameObjectInEventsLoop_idempotent platform oldName newName
    (RenamedParameter_idempotent platform oldName newName hne hround) events
/-- C17 on an event of the identifier platform whose action `SetX(Player,
Player)`, expression "Player" and sub-event all name "Player": the second
rename to "Hero" changes nothing. -/
theorem RenameObjectInEvents_idempotent_witness :
    "Player" ≠ "Hero" ∧
    RenameObjectInEvents identifierPlatform
        (RenameObjectInEvents identifierPlatform
          [BaseEvent.mk [] [[Instruction.mk "SetX" ["Player", "Player"] []]] []
            [("Player", ParameterKind.NumberExpression)] true
            [BaseEvent.mk [[Instruction.mk "Collision" ["Player", "Wall"] []]] [] [] [] false
              []]]
          "Player" "Hero") "Player" "Hero" =
      RenameObjectInEvents identifierPlatform
        [BaseEvent.mk [] [[Instruction.mk "SetX" ["Player", "Player"] []]] []
          [("Player", ParameterKind.NumberExpression)] true
          [BaseEvent.mk [[Instruction.mk "Collision" ["Player", "Wall"] []]] [] [] [] false
            []]]
        "Player" "Hero" :=
  ⟨by decide, RenameObjectInEvents_idempotent identifierPlatform _ "Player" "Hero"
    (by decide) (by
      intro rootType text _
      have h : ∃ name : String,
          (ExpressionObjectRenamer.Rename identifierPlatform rootType
            (identifierPlatform.GetRootNode text) "Player" "Hero").2 =
            .Identifier name := by
        simp only [identifierPlatform, ExpressionObjectRenamer.Rename,
          ExpressionObjectRenamer.Visit, if_true]
        split <;> exact ⟨_, rfl⟩
      obtain ⟨name, hname⟩ := h
      rw [hname]
      rfl)⟩

/-- Reading an index of the list of events after the rename. -/
theorem RenameObjectInEventsLoop_getElem? (platform : Platform) (oldName newName : String) :
    ∀ (events : List BaseEvent) (index : Nat),
      (RenameObjectInEventsLoop platform oldName newName events)[index]? =
        (events[index]?).map (RenameObjectInEvent platform oldName newName)
  | [], index => by simp [RenameObjectInEventsLoop]
  | event :: rest, 0 => by simp [RenameObjectInEventsLoop]
  | event :: rest, index + 1 => by
    simp [RenameObjectInEventsLoop,
      RenameObjectInEventsLoop_getElem? platform oldName newName rest index]

/-- Following a path in the events after the rename reaches the renamed list of
sub-events. -/
theorem SubEventsAt_RenameObjectInEventsLoop (platform : Platform)
    (oldName newName : String) :
    ∀ (path : List Nat) (events : List BaseEvent),
      SubEventsAt (RenameObjectInEventsLoop platform oldName newName events) path =
        (SubEventsAt events path).map (RenameObjectInEventsLoop platform oldName newName)
  | [], events => rfl
  | index :: path, events => by
    simp only [SubEventsAt, RenameObjectInEventsLoop_getElem?]
    cases events[index]? with
    | none => rfl
    | some event =>
      cases event with
      | mk conditionsVectors actionsVectors searchableStrings expressionsWithMetadata
          canHaveSubEvents subEvents =>
        simp only [Option.map_some', RenameObjectInEvent, BaseEvent.CanHaveSubEvents,
          BaseEvent.GetSubEvents]
        cases canHaveSubEvents
        · rfl
        · simp only [if_true]
          exact SubEventsAt_RenameObjectInEventsLoop platform oldName newName path _

/-- C18: `RenameObjectInEvents` covers the whole event tree. Every event
reachable from the list through sub-event lists of events that declare
sub-event support is found at the same place after the call, with every
condition vector processed by `RenameObjectInConditions`, every action vector
by `RenameObjectInActions`, every expression it holds processed by
`RenameObjectInEventParameters`, and its sub-events processed in turn if it
declares sub-event support and left untouched if it does not. The processing of
an expression makes an object reference equal to `oldName` become `newName` and
prints a number or string expression, valid and holding a matching node, with
its matching nodes renamed. -/
theorem RenameObjectInEvents_covers_tree (platform : Platform) (events : List BaseEvent)
    (oldName newName : String) :
    (∀ (path : List Nat) (index : Nat) (event : BaseEvent),
      EventAt events path index = some event →
      EventAt (RenameObjectInEvents platform events oldName newName) path index =
        some (BaseEvent.mk
          (event.GetAllConditionsVectors.map (fun conditions =>
            (RenameObjectInConditions platform conditions oldName newName).2))
          (event.GetAllActionsVectors.map (fun actions =>
            (RenameObjectInActions platform actions oldName newName).2))
          event.GetAllSearchableStrings
          (event.GetAllExpressionsWithMetadata.map (fun expressionWithMetadata =>
            ((RenameObjectInEventParameters platform expressionWithMetadata.1
              expressionWithMetadata.2 oldName newName).2, expressionWithMetadata.2)))
          event.CanHaveSubEvents
          (if event.CanHaveSubEvents then
            RenameObjectInEvents platform event.GetSubEvents oldName newName
           else event.GetSubEvents))) ∧
    (∀ expression : String,
      (RenameObjectInEventParameters platform expression .ObjectReference oldName
        newName).2 = if expression = oldName then newName else expression) ∧
    (∀ expression : String,
      platform.HasNoErrors "number" (platform.GetRootNode expression) = true →
      ContainsMatchingNode platform "number" oldName (platform.GetRootNode expression) =
        true →
      (RenameObjectInEventParameters platform expression .NumberExpression oldName
        newName).2 =
        platform.PrintNode
          (RenameMatchingNodes platform "number" oldName newName
            (platform.GetRootNode expression))) ∧
    (∀ expression : String,
      platform.HasNoErrors "string" (platform.GetRootNode expression) = true →
      ContainsMatchingNode platform "string" oldName (platform.GetRootNode expression) =
        true →
      (RenameObjectInEventParameters platform expression .StringExpression oldName
        newName).2 =
        platform.PrintNode
          (RenameMatchingNodes platform "string" oldName newName
            (platform.GetRootNode expression))) := by
  have hexpr : ∀ (rootType : String) (node : ExpressionNode),
      platform.HasNoErrors rootType node = true →
      ContainsMatchingNode platform rootType oldName node = true →
      ExpressionObjectRenamer.Rename platform rootType node oldName newName =
        (true, RenameMatchingNodes platform rootType oldName newName node) := by
    intro rootType node hvalid hmatch
    unfold ExpressionObjectRenamer.Rename
    rw [if_pos hvalid, RenamerVisit_eq, hmatch]
    rfl
  refine ⟨?_, ?_, ?_, ?_⟩
  · intro path index event h
    unfold EventAt at h ⊢
    unfold RenameObjectInEvents
    rw [SubEventsAt_RenameObjectInEventsLoop]
    cases hsub : SubEventsAt events path with
    | none => simp [hsub] at h
    | some list =>
      simp only [hsub] at h
      simp only [Option.map_some', RenameObjectInEventsLoop_getElem?, h,
        RenameObjectInEvent_eq, RenameObjectInConditions, RenameObjectInActions,
        RenameObjectInInstructions_eq, RenameObjectInEventParameters_eq,
        RenameObjectInEvents]
  · intro expression
    rw [RenameObjectInEventParameters_eq]
    exact (RenamedParameter_cases platform oldName newName expression).1
  · intro expression hvalid hmatch
    rw [RenameObjectInEventParameters_eq]
    simp only
    rw [(RenamedParameter_cases platform oldName newName expression).2.1,
      hexpr "number" _ hvalid hmatch]
    simp
  · intro expression hvalid hmatch
    rw [RenameObjectInEventParameters_eq]
    simp only
    rw [(RenamedParameter_cases platform oldName newName expression).2.2.1,
      hexpr "string" _ hvalid hmatch]
    simp

/-- C18 on an event that holds the expression `Player.X()` and declares no
sub-event support: its action and its expression are renamed, the sub-event
that it holds all the same is left untouched. -/
theorem RenameObjectInEvents_covers_tree_witness :
    EventAt (RenameObjectInEvents scenarioPlatform
        [BaseEvent.mk [] [[Instruction.mk "Delete" ["Player"] []]] []
          [("Player.X()", ParameterKind.NumberExpression)] false [scenarioEvent]]
        "Player" "Hero") [] 0 =
      some (BaseEvent.mk [] [[Instruction.mk "Delete" ["Hero"] []]] []
        [("Hero.X()", ParameterKind.NumberExpression)] false [scenarioEvent]) :=
  (RenameObjectInEvents_covers_tree scenarioPlatform
    [BaseEvent.mk [] [[Instruction.mk "Delete" ["Player"] []]] []
      [("Player.X()", ParameterKind.NumberExpression)] false [scenarioEvent]]
    "Player" "Hero").1 [] 0 _ rfl

/-! ## Order of the search results -/

/-- An address precedes or is itself. -/
theorem PrecedesOrEqual_refl : ∀ address : List Nat, PrecedesOrEqual address address = true
  | [] => rfl
  | x :: xs => by
    rw [PrecedesOrEqual, PrecedesOrEqual_refl xs]
    simp

/-- A common initial part does not change the order of two addresses. -/
theorem PrecedesOrEqual_append_left : ∀ origin a b : List Nat,
    PrecedesOrEqual (origin ++ a) (origin ++ b) = PrecedesOrEqual a b
  | [], a, b => rfl
  | x :: origin, a, b => by
    rw [List.cons_append, List.cons_append, PrecedesOrEqual,
      PrecedesOrEqual_append_left origin a b]
    simp

/-- An address never follows its extensions in the pre-order: an event
precedes its descendants. -/
theorem PrecedesOrEqual_extension (address extension : List Nat) :
    PrecedesOrEqual address (address ++ extension) = true := by
  have h := PrecedesOrEqual_append_left address [] extension
  rw [List.append_nil] at h
  rw [h]
  rfl

/-- A proper extension of an address never precedes it: a descendant does not
precede its ancestor. -/
theorem PrecedesOrEqual_of_extension (address extension : List Nat) (h : extension ≠ []) :
    PrecedesOrEqual (address ++ extension) address = false := by
  have h1 := PrecedesOrEqual_append_left address extension []
  rw [List.append_nil] at h1
  rw [h1]
  cases extension with
  | nil => exact absurd rfl h
  | cons x xs => rfl

/-- An event and its descendants precede a later sibling and its descendants,
and are not preceded by them. -/
theorem PrecedesOrEqual_sibling (origin : List Nat) (i j : Nat) (below after : List Nat)
    (h : i < j) :
    PrecedesOrEqual (origin ++ i :: below) (origin ++ j :: after) = true ∧
    PrecedesOrEqual (origin ++ j :: after) (origin ++ i :: below) = false := by
  rw [PrecedesOrEqual_append_left, PrecedesOrEqual_append_left, PrecedesOrEqual,
    PrecedesOrEqual]
  have h1 : ¬ j < i := by omega
  have h2 : j ≠ i := by omega
  simp [h, h1, h2]

/-- A relation that holds between all the members of a list holds pairwise. -/
theorem pairwise_of_forall_mem {α : Type} (R : α → α → Prop) :
    ∀ l : List α, (∀ a ∈ l, ∀ b ∈ l, R a b) → l.Pairwise R
  | [], _ => List.Pairwise.nil
  | x :: l, h =>
    List.Pairwise.cons (fun b hb => h x (List.mem_cons_self _ _) b (List.mem_cons_of_mem _ hb))
      (pairwise_of_forall_mem R l (fun a ha b hb =>
        h a (List.mem_cons_of_mem _ ha) b (List.mem_cons_of_mem _ hb)))

/-- The loop over the condition vectors pushes nothing but the entry of the
event. -/
theorem mem_SearchInConditionsVectors (platform : Platform) (search : String)
    (matchCase inEventSentences eventAddedInResults : Bool) (result : EventsSearchResult) :
    ∀ (vectors : List (List Instruction)) (r : EventsSearchResult),
      r ∈ SearchInConditionsVectors platform search matchCase inEventSentences
        eventAddedInResults result vectors → r = result
  | [], r, h => by simp [SearchInConditionsVectors] at h
  | conditions :: rest, r, h => by
    rw [SearchInConditionsVectors, List.mem_append] at h
    rcases h with h | h
    · split at h
      · simpa using h
      · simp at h
    · exact mem_SearchInConditionsVectors platform search matchCase inEventSentences
        eventAddedInResults result rest r h

/-- The loop over the action vectors pushes nothing but the entry of the
event. -/
theorem mem_SearchInActionsVectors (platform : Platform) (search : String)
    (matchCase inEventSentences eventAddedInResults : Bool) (result : EventsSearchResult) :
    ∀ (vectors : List (List Instruction)) (r : EventsSearchResult),
      r ∈ SearchInActionsVectors platform search matchCase inEventSentences
        eventAddedInResults result vectors → r = result
  | [], r, h => by simp [SearchInActionsVectors] at h
  | actions :: rest, r, h => by
    rw [SearchInActionsVectors, List.mem_append] at h
    rcases h with h | h
    · split at h
      · simpa using h
      · simp at h
    · exact mem_SearchInActionsVectors platform search matchCase inEventSentences
        eventAddedInResults result rest r h

/-- The results of the body of the event loop of the search: the entries pushed
for the event itself, all equal to the entry of the event, followed by the
results of the recursive call when the event can have sub-events. -/
theorem SearchInEvent_eq (platform : Platform) (search : String)
    (matchCase inConditions inActions inEventStrings inEventSentences : Bool)
    (eventsList : List Nat) (i : Nat) (event : BaseEvent) :
    ∃ own : List EventsSearchResult,
      (∀ r ∈ own, r = ⟨event, eventsList, i⟩) ∧
      SearchInEvent platform search matchCase inConditions inActions inEventStrings
          inEventSentences eventsList i event =
        own ++
          (if event.CanHaveSubEvents then
            SearchInEventsFrom platform (NormalizeSearch search inEventSentences) matchCase
              inConditions inActions inEventStrings inEventSentences (eventsList ++ [i]) 0
              event.GetSubEvents
           else []) := by
  cases event with
  | mk conditionsVectors actionsVectors searchableStrings expressionsWithMetadata
      canHaveSubEvents subEvents =>
    rw [SearchInEvent]
    refine ⟨_, ?_, rfl⟩
    intro r hr
    simp only [List.mem_append] at hr
    rcases hr with (hr | hr) | hr
    · split at hr
      · exact mem_SearchInConditionsVectors _ _ _ _ _ _ _ r hr
      · simp at hr
    · split at hr
      · exact mem_SearchInActionsVectors _ _ _ _ _ _ _ r hr
      · simp at hr
    · split at hr
      · split at hr
        · simpa using hr
        · simp at hr
      · simp at hr
/-- A result located from the single event `event` is located from any list
that starts with `event`. -/
theorem LocatedFrom_head (event : BaseEvent) (rest : List BaseEvent) (eventsList : List Nat)
    (i : Nat) (r : EventsSearchResult) (h : LocatedFrom [event] eventsList i r) :
    LocatedFrom (event :: rest) eventsList i r := by
  rcases h with ⟨hlist, k, hpos, hget⟩ | ⟨j, path, hlist, hat⟩
  · cases k with
    | zero => exact Or.inl ⟨hlist, 0, hpos, by simpa using hget⟩
    | succ k => simp at hget
  · cases j with
    | zero =>
      refine Or.inr ⟨0, path, hlist, ?_⟩
      simpa [EventAt, SubEventsAt] using hat
    | succ j => simp [EventAt, SubEventsAt] at hat

/-- A result located from the tail of a list, one position further, is located
from the list. -/
theorem LocatedFrom_tail (event : BaseEvent) (rest : List BaseEvent) (eventsList : List Nat)
    (i : Nat) (r : EventsSearchResult) (h : LocatedFrom rest eventsList (i + 1) r) :
    LocatedFrom (event :: rest) eventsList i r := by
  rcases h with ⟨hlist, k, hpos, hget⟩ | ⟨j, path, hlist, hat⟩
  · exact Or.inl ⟨hlist, k + 1, by omega, by simpa using hget⟩
  · refine Or.inr ⟨j + 1, path, ?_, ?_⟩
    · rw [hlist]
      congr 2
      omega
    · simpa [EventAt, SubEventsAt] using hat

/-- A result located from the sub-events of an event that can have sub-events
is located from the event. -/
theorem LocatedFrom_subEvents (event : BaseEvent) (eventsList : List Nat) (i : Nat)
    (r : EventsSearchResult) (hcan : event.CanHaveSubEvents = true)
    (h : LocatedFrom event.GetSubEvents (eventsList ++ [i]) 0 r) :
    LocatedFrom [event] eventsList i r := by
  rcases h with ⟨hlist, k, hpos, hget⟩ | ⟨j, path, hlist, hat⟩
  · refine Or.inr ⟨0, [], ?_, ?_⟩
    · rw [hlist]
      rfl
    · have hk : r.positionInList = k := by omega
      simp only [EventAt, SubEventsAt, List.getElem?_cons_zero, hcan, if_true]
      rw [hk]
      exact hget
  · refine Or.inr ⟨0, (0 + j) :: path, ?_, ?_⟩
    · rw [hlist, List.append_assoc]
      rfl
    · simp only [EventAt, SubEventsAt, List.getElem?_cons_zero, hcan, if_true]
      have hj : 0 + j = j := by omega
      rw [hj]
      simpa [EventAt, SubEventsAt] using hat

mutual
/-- Every result of the body of the event loop of the search locates the event
it reports, from the event of the body. -/
theorem SearchInEvent_located (platform : Platform)
    (matchCase inConditions inActions inEventStrings inEventSentences : Bool) :
    ∀ (event : BaseEvent) (search : String) (eventsList : List Nat) (i : Nat)
      (r : EventsSearchResult),
      r ∈ SearchInEvent platform search matchCase inConditions inActions inEventStrings
        inEventSentences eventsList i event →
      LocatedFrom [event] eventsList i r
  | .mk conditionsVectors actionsVectors searchableStrings expressionsWithMetadata
      canHaveSubEvents subEvents, search, eventsList, i, r => by
    intro hr
    obtain ⟨own, hown, heq⟩ := SearchInEvent_eq platform search matchCase inConditions
      inActions inEventStrings inEventSentences eventsList i
      (.mk conditionsVectors actionsVectors searchableStrings expressionsWithMetadata
        canHaveSubEvents subEvents)
    rw [heq, List.mem_append] at hr
    rcases hr with hr | hr
    · rw [hown r hr]
      exact Or.inl ⟨rfl, 0, rfl, rfl⟩
    · cases canHaveSubEvents with
      | false => simp [BaseEvent.CanHaveSubEvents] at hr
      | true =>
        simp only [BaseEvent.CanHaveSubEvents, if_true, BaseEvent.GetSubEvents] at hr
        exact LocatedFrom_subEvents _ eventsList i r rfl
          (SearchInEventsFrom_located platform matchCase inConditions inActions
            inEventStrings inEventSentences subEvents _ _ 0 r hr)
/-- Every result of the event loop of the search locates the event it reports,
from the events of the loop. -/
theorem SearchInEventsFrom_located (platform : Platform)
    (matchCase inConditions inActions inEventStrings inEventSentences : Bool) :
    ∀ (events : List BaseEvent) (search : String) (eventsList : List Nat) (i : Nat)
      (r : EventsSearchResult),
      r ∈ SearchInEventsFrom platform search matchCase inConditions inActions
        inEventStrings inEventSentences eventsList i events →
      LocatedFrom events eventsList i r
  | [], search, eventsList, i, r => by
    intro hr
    simp [SearchInEventsFrom] at hr
  | event :: rest, search, eventsList, i, r => by
    intro hr
    rw [SearchInEventsFrom, List.mem_append] at hr
    rcases hr with hr | hr
    · exact LocatedFrom_head event rest eventsList i r
        (SearchInEvent_located platform matchCase inConditions inActions inEventStrings
          inEventSentences event search eventsList i r hr)
    · exact LocatedFrom_tail event rest eventsList i r
        (SearchInEventsFrom_located platform matchCase inConditions inActions
          inEventStrings inEventSentences rest search eventsList (i + 1) r hr)
end

/-- The address of a located result starts with the address of the list,
followed by a position that is not before the first position of the search. -/
theorem Address_of_LocatedFrom (events : List BaseEvent) (eventsList : List Nat) (i : Nat)
    (r : EventsSearchResult) (h : LocatedFrom events eventsList i r) :
    ∃ (m : Nat) (below : List Nat), i ≤ m ∧ m < i + events.length ∧
      r.Address = eventsList ++ m :: below := by
  unfold EventsSearchResult.Address
  rcases h with ⟨hlist, k, hpos, hget⟩ | ⟨j, path, hlist, hat⟩
  · have hk : k < events.length := by
      by_contra hge
      rw [List.getElem?_eq_none (Nat.le_of_not_lt hge)] at hget
      cases hget
    exact ⟨i + k, [], by omega, by omega, by rw [hlist, hpos]⟩
  · have hj : j < events.length := by
      by_contra hge
      simp only [EventAt, SubEventsAt, List.getElem?_eq_none (Nat.le_of_not_lt hge)] at hat
      cases hat
    exact ⟨i + j, path ++ [r.positionInList], by omega, by omega, by
      rw [hlist, List.append_assoc]
      rfl⟩
mutual
/-- The results of the body of the event loop of the search are in
pre-order. -/
theorem SearchInEvent_pairwise (platform : Platform)
    (matchCase inConditions inActions inEventStrings inEventSentences : Bool) :
    ∀ (event : BaseEvent) (search : String) (eventsList : List Nat) (i : Nat),
      List.Pairwise (fun a b => PrecedesOrEqual a.Address b.Address = true)
        (SearchInEvent platform search matchCase inConditions inActions inEventStrings
          inEventSentences eventsList i event)
  | .mk conditionsVectors actionsVectors searchableStrings expressionsWithMetadata
      canHaveSubEvents subEvents, search, eventsList, i => by
    obtain ⟨own, hown, heq⟩ := SearchInEvent_eq platform search matchCase inConditions
      inActions inEventStrings inEventSentences eventsList i
      (.mk conditionsVectors actionsVectors searchableStrings expressionsWithMetadata
        canHaveSubEvents subEvents)
    rw [heq, List.pairwise_append]
    refine ⟨?_, ?_, ?_⟩
    · apply pairwise_of_forall_mem
      intro a ha b hb
      rw [hown a ha, hown b hb]
      exact PrecedesOrEqual_refl _
    · cases canHaveSubEvents with
      | false => simp [BaseEvent.CanHaveSubEvents]
      | true =>
        simp only [BaseEvent.CanHaveSubEvents, if_true, BaseEvent.GetSubEvents]
        exact SearchInEventsFrom_pairwise platform matchCase inConditions inActions
          inEventStrings inEventSentences subEvents _ _ 0
    · intro a ha b hb
      cases canHaveSubEvents with
      | false => simp [BaseEvent.CanHaveSubEvents] at hb
      | true =>
        simp only [BaseEvent.CanHaveSubEvents, if_true, BaseEvent.GetSubEvents] at hb
        obtain ⟨m, below, _, _, hb2⟩ := Address_of_LocatedFrom _ _ _ b
          (SearchInEventsFrom_located platform matchCase inConditions inActions
            inEventStrings inEventSentences subEvents _ _ 0 b hb)
        rw [hown a ha, hb2]
        exact PrecedesOrEqual_extension _ _
/-- The results of the event loop of the search are in pre-order. -/
theorem SearchInEventsFrom_pairwise (platform : Platform)
    (matchCase inConditions inActions inEventStrings inEventSentences : Bool) :
    ∀ (events : List BaseEvent) (search : String) (eventsList : List Nat) (i : Nat),
      List.Pairwise (fun a b => PrecedesOrEqual a.Address b.Address = true)
        (SearchInEventsFrom platform search matchCase inConditions inActions
          inEventStrings inEventSentences eventsList i events)
  | [], search, eventsList, i => by
    rw [SearchInEventsFrom]
    exact List.Pairwise.nil
  | event :: rest, search, eventsList, i => by
    rw [SearchInEventsFrom, List.pairwise_append]
    refine ⟨SearchInEvent_pairwise platform matchCase inConditions inActions inEventStrings
        inEventSentences event search eventsList i,
      SearchInEventsFrom_pairwise platform matchCase inConditions inActions inEventStrings
        inEventSentences rest search eventsList (i + 1), ?_⟩
    intro a ha b hb
    obtain ⟨m, below, hm1, hm2, ha2⟩ := Address_of_LocatedFrom _ _ _ a
      (SearchInEvent_located platform matchCase inConditions inActions inEventStrings
        inEventSentences event search eventsList i a ha)
    obtain ⟨n, after, hn1, _, hb2⟩ := Address_of_LocatedFrom _ _ _ b
      (SearchInEventsFrom_located platform matchCase inConditions inActions inEventStrings
        inEventSentences rest search eventsList (i + 1) b hb)
    rw [ha2, hb2]
    simp only [List.length_cons, List.length_nil] at hm2
    exact (PrecedesOrEqual_sibling eventsList m n below after (by omega)).1
end

/-- C14: `SearchInEvents` returns its results in pre-order. For every event
tree, the addresses of the events reported by the successive entries never go
backwards in the pre-order of the tree, in which an event precedes its
descendants and an event with its descendants precedes its later siblings and
theirs; so the entries for an event come before those for its descendants, and
all of these before the entries for the next sibling. Every entry reports an
event of a list reached through sub-event lists of events that declare
sub-event support only: an event that does not support sub-events contributes
no descendant entry. -/
theorem SearchInEvents_pre_order (platform : Platform) (events : List BaseEvent)
    (search : String)
    (matchCase inConditions inActions inEventStrings inEventSentences : Bool) :
    List.Pairwise (fun a b => PrecedesOrEqual a.Address b.Address = true)
      (SearchInEvents platform events search matchCase inConditions inActions
        inEventStrings inEventSentences []) ∧
    (∀ r ∈ SearchInEvents platform events search matchCase inConditions inActions
        inEventStrings inEventSentences [],
      (SubEventsAt events r.eventsList).isSome = true) ∧
    (∀ address extension : List Nat, extension ≠ [] →
      PrecedesOrEqual address (address ++ extension) = true ∧
      PrecedesOrEqual (address ++ extension) address = false) ∧
    (∀ (origin : List Nat) (i j : Nat) (below after : List Nat), i < j →
      PrecedesOrEqual (origin ++ i :: below) (origin ++ j :: after) = true ∧
      PrecedesOrEqual (origin ++ j :: after) (origin ++ i :: below) = false) := by
  refine ⟨?_, ?_, ?_, ?_⟩
  · unfold SearchInEvents
    exact SearchInEventsFrom_pairwise platform matchCase inConditions inActions
      inEventStrings inEventSentences events _ [] 0
  · intro r hr
    unfold SearchInEvents at hr
    have hloc := SearchInEventsFrom_located platform matchCase inConditions inActions
      inEventStrings inEventSentences events _ [] 0 r hr
    rcases hloc with ⟨hlist, _⟩ | ⟨j, path, hlist, hat⟩
    · rw [hlist]
      rfl
    · rw [hlist]
      simp only [List.nil_append, Nat.zero_add]
      unfold EventAt at hat
      cases hsub : SubEventsAt events (j :: path) with
      | none => simp [hsub] at hat
      | some list => rfl
  · intro address extension hne
    exact ⟨PrecedesOrEqual_extension address extension,
      PrecedesOrEqual_of_extension address extension hne⟩
  · intro origin i j below after hlt
    exact PrecedesOrEqual_sibling origin i j below after hlt

/-- C14 on two events, the first of which has a sub-event and the second of
which holds a sub-event without declaring sub-event support, all three matching
"Player": the entries come in the order first event (twice, once per check),
its sub-event, second event, and the sub-event held by the second event is not
searched. -/
theorem SearchInEvents_pre_order_witness :
    (SearchInEvents scenarioPlatform
        [BaseEvent.mk [[Instruction.mk "Collision" ["Player", "Wall"] []]]
          [[Instruction.mk "Delete" ["Player"] []]] [] [] true [scenarioEvent],
         BaseEvent.mk [] [[Instruction.mk "Delete" ["Player"] []]] [] [] false
          [scenarioEvent]]
        "Player" true true true false false []).map EventsSearchResult.Address =
      [[0], [0], [0, 0], [0, 0], [1]] ∧
    List.Pairwise (fun a b => PrecedesOrEqual a.Address b.Address = true)
      (SearchInEvents scenarioPlatform
        [BaseEvent.mk [[Instruction.mk "Collision" ["Player", "Wall"] []]]
          [[Instruction.mk "Delete" ["Player"] []]] [] [] true [scenarioEvent],
         BaseEvent.mk [] [[Instruction.mk "Delete" ["Player"] []]] [] [] false
          [scenarioEvent]]
        "Player" true true true false false []) :=
  ⟨rfl, (SearchInEvents_pre_order scenarioPlatform _ "Player" true true true false
    false).1⟩

/-! ## Toggles and normalisation of the search in events -/

mutual
/-- With the three checks off, the body of the event loop of the search pushes
nothing. -/
theorem SearchInEvent_no_check (platform : Platform) (matchCase inEventSentences : Bool) :
    ∀ (event : BaseEvent) (search : String) (eventsList : List Nat) (i : Nat),
      SearchInEvent platform search matchCase false false false inEventSentences
        eventsList i event = []
  | .mk conditionsVectors actionsVectors searchableStrings expressionsWithMetadata
      canHaveSubEvents subEvents, search, eventsList, i => by
    rw [SearchInEvent]
    simp only [Bool.false_eq_true, if_false, List.append_nil, List.nil_append]
    cases canHaveSubEvents
    · rfl
    · simp only [if_true]
      exact SearchInEventsFrom_no_check platform matchCase inEventSentences subEvents _ _ 0
/-- With the three checks off, the event loop of the search pushes nothing. -/
theorem SearchInEventsFrom_no_check (platform : Platform)
    (matchCase inEventSentences : Bool) :
    ∀ (events : List BaseEvent) (search : String) (eventsList : List Nat) (i : Nat),
      SearchInEventsFrom platform search matchCase false false false inEventSentences
        eventsList i events = []
  | [], search, eventsList, i => by rw [SearchInEventsFrom]
  | event :: rest, search, eventsList, i => by
    rw [SearchInEventsFrom,
      SearchInEvent_no_check platform matchCase inEventSentences event search eventsList i,
      SearchInEventsFrom_no_check platform matchCase inEventSentences rest search eventsList
        (i + 1)]
    rfl
end

/-- C26: the sentence toggle alone selects nothing. For every event tree and
query, `SearchInEvents` with `inConditions`, `inActions` and `inEventStrings`
all false returns an empty list, whatever `inEventSentences` (and `matchCase`)
is: the rendered sentences are only examined inside the condition and action
checks. -/
theorem SearchInEvents_sentence_toggle_alone (platform : Platform) (events : List BaseEvent)
    (search : String) (matchCase inEventSentences : Bool) (eventsList : List Nat) :
    SearchInEvents platform events search matchCase false false false inEventSentences
      eventsList = [] := by
  unfold SearchInEvents
  exact SearchInEventsFrom_no_check platform matchCase inEventSentences events _ eventsList 0

/-- C27, on the scenario event searched in its actions for the query "Playerĺ"
with `inEventSentences` true: the query, whose last letter is U+013A (low byte
0x3A as the colon), is handed to the checks as "Player", while `Q` leaves it as
it is since ĺ is none of the characters of ";:,#()". So `SearchInEvents`
reports the event, whose action `Delete(Player)` has the parameter "Player":
the test is not made against `Q(q)`, which this parameter does not contain, and
the event loop run with `Q(q)` reports nothing. -/
theorem SearchInEvents_query_low_byte :
    NormalizeSearch "Playerĺ" true = "Player" ∧
    NormalizedQuery "Playerĺ" = "Playerĺ" ∧
    SearchInEvents scenarioPlatform [scenarioEvent] "Playerĺ" true false true false true [] =
      [⟨scenarioEvent, [], 0⟩] ∧
    SearchInEventsFrom scenarioPlatform (NormalizedQuery "Playerĺ") true false true false true
      [] 0 [scenarioEvent] = [] ∧
    ¬ TextContains "Player" (NormalizedQuery "Playerĺ") true := by
  refine ⟨by decide, by decide, by rfl, by rfl, ?_⟩
  intro hcontains
  have hfound := (FoundIn_iff _ _ true).2 hcontains
  exact absurd hfound (by decide)

/-- C28: `RenameObjectInEventParameters` always returns false. For every
expression, parameter metadata, old and new name the result is false, also when
the expression is an object reference equal to `oldName` that the call replaces
by `newName`, as "Player" by "Hero", and when a node of the expression is
renamed and the expression printed again, as `Player.X()` into `Hero.X()`. -/
theorem RenameObjectInEventParameters_returns_false :
    (∀ (platform : Platform) (expression : String) (parameterMetadata : ParameterKind)
      (oldName newName : String),
      (RenameObjectInEventParameters platform expression parameterMetadata oldName
        newName).1 = false) ∧
    RenameObjectInEventParameters scenarioPlatform "Player" .ObjectReference "Player" "Hero" =
      (false, "Hero") ∧
    RenameObjectInEventParameters scenarioPlatform "Player.X()" .NumberExpression "Player"
      "Hero" = (false, "Hero.X()") := by
  refine ⟨?_, by rfl, by rfl⟩
  intro platform expression parameterMetadata oldName newName
  rw [RenameObjectInEventParameters_eq]

/-! ## The search results locate matching events -/

/-- The loop over the condition vectors pushes an entry only when one of the
vectors matches. -/
theorem SearchInConditionsVectors_matched (platform : Platform) (search : String)
    (matchCase inEventSentences eventAddedInResults : Bool) (result : EventsSearchResult) :
    ∀ (vectors : List (List Instruction)) (r : EventsSearchResult),
      r ∈ SearchInConditionsVectors platform search matchCase inEventSentences
        eventAddedInResults result vectors →
      vectors.any (fun conditions =>
        SearchStringInConditions platform conditions search matchCase inEventSentences) = true
  | [], r, h => by simp [SearchInConditionsVectors] at h
  | conditions :: rest, r, h => by
    rw [SearchInConditionsVectors, List.mem_append] at h
    rw [List.any_cons, Bool.or_eq_true]
    rcases h with h | h
    · split at h
      · rename_i hc
        simp only [Bool.and_eq_true] at hc
        exact Or.inl hc.2
      · simp at h
    · exact Or.inr (SearchInConditionsVectors_matched platform search matchCase
        inEventSentences eventAddedInResults result rest r h)

/-- The loop over the action vectors pushes an entry only when one of the
vectors matches. -/
theorem SearchInActionsVectors_matched (platform : Platform) (search : String)
    (matchCase inEventSentences eventAddedInResults : Bool) (result : EventsSearchResult) :
    ∀ (vectors : List (List Instruction)) (r : EventsSearchResult),
      r ∈ SearchInActionsVectors platform search matchCase inEventSentences
        eventAddedInResults result vectors →
      vectors.any (fun actions =>
        SearchStringInActions platform actions search matchCase inEventSentences) = true
  | [], r, h => by simp [SearchInActionsVectors] at h
  | actions :: rest, r, h => by
    rw [SearchInActionsVectors, List.mem_append] at h
    rw [List.any_cons, Bool.or_eq_true]
    rcases h with h | h
    · split at h
      · rename_i hc
        simp only [Bool.and_eq_true] at hc
        exact Or.inl hc.2
      · simp at h
    · exact Or.inr (SearchInActionsVectors_matched platform search matchCase
        inEventSentences eventAddedInResults result rest r h)

/-- The results of the body of the event loop of the search: the entries pushed
for the event itself, which are pushed only if the event matches in a
participating check, followed by the results of the recursive call when the
event can have sub-events. -/
theorem SearchInEvent_own_matched (platform : Platform) (search : String)
    (matchCase inConditions inActions inEventStrings inEventSentences : Bool)
    (eventsList : List Nat) (i : Nat) (event : BaseEvent) :
    ∃ own : List EventsSearchResult,
      (∀ r ∈ own, r = ⟨event, eventsList, i⟩ ∧
        EventMatches platform search matchCase inConditions inActions inEventStrings
          inEventSentences event = true) ∧
      SearchInEvent platform search matchCase inConditions inActions inEventStrings
          inEventSentences eventsList i event =
        own ++
          (if event.CanHaveSubEvents then
            SearchInEventsFrom platform (NormalizeSearch search inEventSentences) matchCase
              inConditions inActions inEventStrings inEventSentences (eventsList ++ [i]) 0
              event.GetSubEvents
           else []) := by
  cases event with
  | mk conditionsVectors actionsVectors searchableStrings expressionsWithMetadata
      canHaveSubEvents subEvents =>
    rw [SearchInEvent]
    refine ⟨_, ?_, rfl⟩
    intro r hr
    simp only [List.mem_append] at hr
    simp only [EventMatches, BaseEvent.GetAllConditionsVectors,
      BaseEvent.GetAllActionsVectors, Bool.or_eq_true, Bool.and_eq_true]
    rcases hr with (hr | hr) | hr
    · split at hr
      · rename_i hflag
        exact ⟨mem_SearchInConditionsVectors _ _ _ _ _ _ _ r hr,
          Or.inl (Or.inl ⟨hflag, SearchInConditionsVectors_matched _ _ _ _ _ _ _ r hr⟩)⟩
      · simp at hr
    · split at hr
      · rename_i hflag
        exact ⟨mem_SearchInActionsVectors _ _ _ _ _ _ _ r hr,
          Or.inl (Or.inr ⟨hflag, SearchInActionsVectors_matched _ _ _ _ _ _ _ r hr⟩)⟩
      · simp at hr
    · split at hr
      · rename_i hflag
        split at hr
        · rename_i hc
          simp only [Bool.and_eq_true] at hc
          exact ⟨by simpa using hr, Or.inr ⟨hflag, hc.2⟩⟩
        · simp at hr
      · simp at hr

/-- Normalising the query of the search twice is normalising it once. -/
theorem NormalizeSearch_idempotent (search : String) (inEventSentences : Bool) :
    NormalizeSearch (NormalizeSearch search inEventSentences) inEventSentences =
      NormalizeSearch search inEventSentences := by
  cases inEventSentences
  · rfl
  · rw [NormalizeSearch_true, NormalizeSearch_true]
    exact congrArg String.mk (Normalized_idempotent IsIgnoredCharacter search.data)

mutual
/-- Every result of the body of the event loop of the search, run with a query
that the normalisation leaves as it is, reports an event that matches the
query in a participating check. -/
theorem SearchInEvent_matched (platform : Platform) (search : String)
    (matchCase inConditions inActions inEventStrings inEventSentences : Bool)
    (hnorm : NormalizeSearch search inEventSentences = search) :
    ∀ (event : BaseEvent) (eventsList : List Nat) (i : Nat) (r : EventsSearchResult),
      r ∈ SearchInEvent platform search matchCase inConditions inActions inEventStrings
        inEventSentences eventsList i event →
      EventMatches platform search matchCase inConditions inActions inEventStrings
        inEventSentences r.event = true
  | .mk conditionsVectors actionsVectors searchableStrings expressionsWithMetadata
      canHaveSubEvents subEvents, eventsList, i, r => by
    intro hr
    obtain ⟨own, hown, heq⟩ := SearchInEvent_own_matched platform search matchCase
      inConditions inActions inEventStrings inEventSentences eventsList i
      (.mk conditionsVectors actionsVectors searchableStrings expressionsWithMetadata
        canHaveSubEvents subEvents)
    rw [heq, List.mem_append] at hr
    rcases hr with hr | hr
    · obtain ⟨hentry, hmatch⟩ := hown r hr
      rw [hentry]
      exact hmatch
    · cases canHaveSubEvents with
      | false => simp [BaseEvent.CanHaveSubEvents] at hr
      | true =>
        simp only [BaseEvent.CanHaveSubEvents, if_true, BaseEvent.GetSubEvents, hnorm] at hr
        exact SearchInEventsFrom_matched platform search matchCase inConditions inActions
          inEventStrings inEventSentences hnorm subEvents _ 0 r hr
/-- Every result of the event loop of the search, run with a query that the
normalisation leaves as it is, reports an event that matches the query in a
participating check. -/
theorem SearchInEventsFrom_matched (platform : Platform) (search : String)
    (matchCase inConditions inActions inEventStrings inEventSentences : Bool)
    (hnorm : NormalizeSearch search inEventSentences = search) :
    ∀ (events : List BaseEvent) (eventsList : List Nat) (i : Nat) (r : EventsSearchResult),
      r ∈ SearchInEventsFrom platform search matchCase inConditions inActions
        inEventStrings inEventSentences eventsList i events →
      EventMatches platform search matchCase inConditions inActions inEventStrings
        inEventSentences r.event = true
  | [], eventsList, i, r => by
    intro hr
    simp [SearchInEventsFrom] at hr
  | event :: rest, eventsList, i, r => by
    intro hr
    rw [SearchInEventsFrom, List.mem_append] at hr
    rcases hr with hr | hr
    · exact SearchInEvent_matched platform search matchCase inConditions inActions
        inEventStrings inEventSentences hnorm event eventsList i r hr
    · exact SearchInEventsFrom_matched platform search matchCase inConditions inActions
        inEventStrings inEventSentences hnorm rest eventsList (i + 1) r hr
end

/-- C23: every entry of the list returned by `SearchInEvents` locates the event
it reports. Its `eventsList` is a list of the tree, the top-level list or the
sub-event list of an event reached through events that declare sub-event
support; its `positionInList` is less than the size of that list; its event
reference designates the element of the list at that position; and that event
matches the query, as normalised by the search, in a participating check. -/
theorem SearchInEvents_entries_locate_events (platform : Platform)
    (events : List BaseEvent) (search : String)
    (matchCase inConditions inActions inEventStrings inEventSentences : Bool) :
    ∀ r ∈ SearchInEvents platform events search matchCase inConditions inActions
        inEventStrings inEventSentences [],
      (∃ list : List BaseEvent, SubEventsAt events r.eventsList = some list ∧
        r.positionInList < list.length ∧ list[r.positionInList]? = some r.event) ∧
      EventMatches platform (NormalizeSearch search inEventSentences) matchCase inConditions
        inActions inEventStrings inEventSentences r.event = true := by
  intro r hr
  unfold SearchInEvents at hr
  have hloc := SearchInEventsFrom_located platform matchCase inConditions inActions
    inEventStrings inEventSentences events _ [] 0 r hr
  have hmatch := SearchInEventsFrom_matched platform _ matchCase inConditions inActions
    inEventStrings inEventSentences (NormalizeSearch_idempotent search inEventSentences)
    events [] 0 r hr
  refine ⟨?_, hmatch⟩
  have hlt : ∀ (list : List BaseEvent) (position : Nat) (event : BaseEvent),
      list[position]? = some event → position < list.length := by
    intro list position event hget
    by_contra hge
    rw [List.getElem?_eq_none (Nat.le_of_not_lt hge)] at hget
    cases hget
  rcases hloc with ⟨hlist, k, hpos, hget⟩ | ⟨j, path, hlist, hat⟩
  · have hk : r.positionInList = k := by omega
    rw [hlist, hk]
    exact ⟨events, rfl, hlt _ _ _ hget, hget⟩
  · rw [hlist]
    simp only [List.nil_append, Nat.zero_add]
    unfold EventAt at hat
    cases hsub : SubEventsAt events (j :: path) with
    | none => simp [hsub] at hat
    | some list =>
      simp only [hsub] at hat
      exact ⟨list, rfl, hlt _ _ _ hat, hat⟩

/-- C23 on an event without instruction that owns the scenario event as its
only sub-event, searched for "Player" in the actions: the entry returned
reports the scenario event, in the list at address `[0]`, at position 0, and
the scenario event matches the query in its actions. -/
theorem SearchInEvents_entries_locate_events_witness :
    (⟨scenarioEvent, [0], 0⟩ : EventsSearchResult) ∈
        SearchInEvents scenarioPlatform [BaseEvent.mk [] [] [] [] true [scenarioEvent]]
          "Player" true false true false false [] ∧
      (∃ list : List BaseEvent,
        SubEventsAt [BaseEvent.mk [] [] [] [] true [scenarioEvent]] [0] = some list ∧
        0 < list.length ∧ list[0]? = some scenarioEvent) ∧
      EventMatches scenarioPlatform (NormalizeSearch "Player" false) true false true false
        false scenarioEvent = true :=
  have hmem : (⟨scenarioEvent, [0], 0⟩ : EventsSearchResult) ∈
      SearchInEvents scenarioPlatform [BaseEvent.mk [] [] [] [] true [scenarioEvent]]
        "Player" true false true false false [] := by
    have heq : SearchInEvents scenarioPlatform
        [BaseEvent.mk [] [] [] [] true [scenarioEvent]]
        "Player" true false true false false [] = [⟨scenarioEvent, [0], 0⟩] := rfl
    rw [heq]
    exact List.mem_singleton.2 rfl
  ⟨hmem, SearchInEvents_entries_locate_events scenarioPlatform
    [BaseEvent.mk [] [] [] [] true [scenarioEvent]] "Player" true false true false false
    _ hmem⟩

/-! ## Parameter indices stay in range -/

/-- A checked read at an index in range is the read. -/
theorem GetParameterChecked_of_lt (parameters : List String) (pNb : Nat)
    (h : pNb < parameters.length) :
    GetParameterChecked parameters pNb = some (GetParameter parameters pNb) := by
  unfold GetParameterChecked GetParameter
  rw [List.getD_eq_getElem?_getD, List.getElem?_eq_getElem h]
  rfl

/-- A checked write at an index in range is the write. -/
theorem SetParameterChecked_of_lt (parameters : List String) (pNb : Nat) (value : String)
    (h : pNb < parameters.length) :
    SetParameterChecked parameters pNb value = some (SetParameter parameters pNb value) := by
  unfold SetParameterChecked SetParameter
  rw [if_pos h]

/-- A write keeps the number of parameters. -/
theorem SetParameter_length (parameters : List String) (pNb : Nat) (value : String) :
    (SetParameter parameters pNb value).length = parameters.length := by
  unfold SetParameter
  simp

/-- The body of the parameter loop of the rename keeps the number of
parameters. -/
theorem RenameObjectInParameter_length (platform : Platform) (oldName newName : String)
    (type : ParameterKind) (pNb : Nat) (parameters : List String) :
    (RenameObjectInParameter platform oldName newName type pNb parameters).length =
      parameters.length := by
  unfold RenameObjectInParameter
  simp only []
  split
  · exact SetParameter_length _ _ _
  · split
    · split
      · exact SetParameter_length _ _ _
      · rfl
    · split
      · split
        · exact SetParameter_length _ _ _
        · rfl
      · rfl

/-- With its index in range, the checked body of the parameter loop of the
rename is the body. -/
theorem RenameObjectInParameterChecked_eq (platform : Platform) (oldName newName : String)
    (type : ParameterKind) (pNb : Nat) (parameters : List String)
    (h : pNb < parameters.length) :
    RenameObjectInParameterChecked platform oldName newName type pNb parameters =
      some (RenameObjectInParameter platform oldName newName type pNb parameters) := by
  unfold RenameObjectInParameterChecked RenameObjectInParameter
  simp only [GetParameterChecked_of_lt parameters pNb h, SetParameterChecked_of_lt parameters
    pNb _ h, Option.map_some']
  cases type
  · by_cases heq : (GetParameter parameters pNb == oldName) = true
    · simp [ParameterMetadata.IsObject, heq]
    · simp only [Bool.not_eq_true] at heq
      simp [ParameterMetadata.IsObject, ParameterMetadata.IsExpression, heq]
  · simp only [ParameterMetadata.IsObject, ParameterMetadata.IsExpression]
    split <;> simp_all
    split <;> rfl
  · simp only [ParameterMetadata.IsObject, ParameterMetadata.IsExpression]
    split <;> simp_all
    split <;> rfl
  · simp [ParameterMetadata.IsObject, ParameterMetadata.IsExpression]

/-- With every index of the metadata in range, the checked parameter loop of
the rename is the parameter loop. -/
theorem RenameObjectInParametersChecked_eq (platform : Platform) (oldName newName : String) :
    ∀ (types : List ParameterKind) (pNb : Nat) (parameters : List String),
      pNb + types.length ≤ parameters.length →
      RenameObjectInParametersChecked platform oldName newName types pNb parameters =
        some (RenameObjectInParameters platform oldName newName types pNb parameters)
  | [], pNb, parameters, _ => by
    rw [RenameObjectInParametersChecked, RenameObjectInParameters]
  | type :: rest, pNb, parameters, h => by
    simp only [List.length_cons] at h
    rw [RenameObjectInParametersChecked, RenameObjectInParameters,
      RenameObjectInParameterChecked_eq platform oldName newName type pNb parameters
        (by omega)]
    exact RenameObjectInParametersChecked_eq platform oldName newName rest (pNb + 1) _
      (by rw [RenameObjectInParameter_length]; omega)

mutual
/-- On an instruction that has, as every instruction below it, at least as many
parameters as its metadata declares, the checked body of the instruction loop
of the rename is the body. -/
theorem RenameObjectInInstructionChecked_eq (platform : Platform)
    (GetMetadata : String → List ParameterKind) (oldName newName : String) :
    ∀ (instruction : Instruction) (somethingModified : Bool),
      InstructionParametersFit GetMetadata instruction = true →
      RenameObjectInInstructionChecked platform GetMetadata oldName newName instruction
          somethingModified =
        some (RenameObjectInInstruction platform GetMetadata oldName newName instruction
          somethingModified)
  | .mk type parameters subInstructions, somethingModified, hfit => by
    rw [InstructionParametersFit] at hfit
    simp only [Bool.and_eq_true, decide_eq_true_eq] at hfit
    rw [RenameObjectInInstructionChecked, RenameObjectInInstruction,
      RenameObjectInParametersChecked_eq platform oldName newName (GetMetadata type) 0
        parameters (by omega)]
    cases subInstructions with
    | nil => rfl
    | cons s ss =>
      simp only [List.isEmpty_cons, Bool.not_false, if_true]
      rw [RenameObjectInInstructionsChecked_eq platform GetMetadata oldName newName (s :: ss)
        false hfit.2]
/-- On a list whose instructions have, at every depth, at least as many
parameters as their metadata declares, the checked instruction loop of the
rename is the instruction loop. -/
theorem RenameObjectInInstructionsChecked_eq (platform : Platform)
    (GetMetadata : String → List ParameterKind) (oldName newName : String) :
    ∀ (instructions : List Instruction) (somethingModified : Bool),
      InstructionsParametersFit GetMetadata instructions = true →
      RenameObjectInInstructionsChecked platform GetMetadata oldName newName instructions
          somethingModified =
        some (RenameObjectInInstructions platform GetMetadata oldName newName instructions
          somethingModified)
  | [], somethingModified, _ => by
    rw [RenameObjectInInstructionsChecked, RenameObjectInInstructions]
  | instruction :: rest, somethingModified, hfit => by
    rw [InstructionsParametersFit] at hfit
    simp only [Bool.and_eq_true] at hfit
    rw [RenameObjectInInstructionsChecked, RenameObjectInInstructions,
      RenameObjectInInstructionChecked_eq platform GetMetadata oldName newName instruction
        somethingModified hfit.1]
    simp only []
    rw [RenameObjectInInstructionsChecked_eq platform GetMetadata oldName newName rest _
      hfit.2]
end
/-- With every index of the metadata in range, the checked parameter loop of
the removal is the parameter loop. -/
theorem RemoveObjectScanParametersChecked_eq (platform : Platform) (name : String) :
    ∀ (types : List ParameterKind) (pNb : Nat) (parameters : List String),
      pNb + types.length ≤ parameters.length →
      RemoveObjectScanParametersChecked platform name types pNb parameters =
        some (RemoveObjectScanParameters platform name types pNb parameters)
  | [], pNb, parameters, _ => by
    rw [RemoveObjectScanParametersChecked, RemoveObjectScanParameters]
  | type :: rest, pNb, parameters, h => by
    simp only [List.length_cons] at h
    have ih := RemoveObjectScanParametersChecked_eq platform name rest (pNb + 1) parameters
      (by omega)
    rw [RemoveObjectScanParametersChecked, RemoveObjectScanParameters]
    simp only [GetParameterChecked_of_lt parameters pNb (by omega), Option.map_some', ih]
    cases type
    · by_cases heq : (GetParameter parameters pNb == name) = true
      · simp [ParameterMetadata.IsObject, heq]
      · simp only [Bool.not_eq_true] at heq
        simp [ParameterMetadata.IsObject, ParameterMetadata.IsExpression, heq]
    · simp only [ParameterMetadata.IsObject, ParameterMetadata.IsExpression]
      split <;> simp_all
      split <;> simp_all
    · simp only [ParameterMetadata.IsObject, ParameterMetadata.IsExpression]
      split <;> simp_all
      split <;> simp_all
    · simp [ParameterMetadata.IsObject, ParameterMetadata.IsExpression]

/-- The parameter condition of an instruction, through its accessors. -/
theorem InstructionParametersFit_eq (GetMetadata : String → List ParameterKind)
    (instruction : Instruction) :
    InstructionParametersFit GetMetadata instruction =
      (decide ((GetMetadata instruction.GetType).length ≤ instruction.GetParameters.length) &&
        InstructionsParametersFit GetMetadata instruction.GetSubInstructions) := by
  cases instruction with
  | mk type parameters subInstructions => rw [InstructionParametersFit]; rfl

/-- Every member of a list that satisfies the parameter condition has at least
as many parameters as its metadata declares, and its sub-instructions satisfy
the condition. -/
theorem InstructionsParametersFit_of_mem (GetMetadata : String → List ParameterKind) :
    ∀ (instructions : List Instruction) (instruction : Instruction),
      InstructionsParametersFit GetMetadata instructions = true →
      instruction ∈ instructions →
      (GetMetadata instruction.GetType).length ≤ instruction.GetParameters.length ∧
        InstructionsParametersFit GetMetadata instruction.GetSubInstructions = true
  | [], _, _, h => by simp at h
  | head :: rest, instruction, hfit, h => by
    rw [InstructionsParametersFit] at hfit
    simp only [Bool.and_eq_true] at hfit
    rcases List.mem_cons.1 h with heq | hmem
    · subst heq
      have hhead := hfit.1
      rw [InstructionParametersFit_eq] at hhead
      simp only [Bool.and_eq_true, decide_eq_true_eq] at hhead
      exact hhead
    · exact InstructionsParametersFit_of_mem GetMetadata rest instruction hfit.2 hmem

/-- The checked instruction loop of the removal, started at the index that
follows the instructions already processed, is the instruction loop, when the
remaining instructions have at least as many parameters as their metadata
declares and the checked recursive calls on their sub-instructions are the
recursive calls. -/
theorem RemoveObjectInInstructionsLoopChecked_eq (platform : Platform)
    (GetMetadata : String → List ParameterKind) (name : String)
    (recurse recurseChecked : List Instruction → Option (Bool × List Instruction)) :
    ∀ (remaining : List Instruction) (fuel : Nat) (processed : List Instruction)
      (somethingModified : Bool),
      processed.length + remaining.length < 2 ^ 64 →
      (∀ instruction ∈ remaining,
        (GetMetadata instruction.GetType).length ≤ instruction.GetParameters.length) →
      (∀ instruction ∈ remaining,
        recurseChecked instruction.GetSubInstructions =
          recurse instruction.GetSubInstructions) →
      RemoveObjectInInstructionsLoopChecked platform GetMetadata name recurseChecked fuel
          (processed ++ remaining) processed.length somethingModified =
        RemoveObjectInInstructionsLoop platform GetMetadata name recurse fuel
          (processed ++ remaining) processed.length somethingModified
  | remaining, 0, processed, somethingModified, _, _, _ => by
    rw [RemoveObjectInInstructionsLoopChecked, RemoveObjectInInstructionsLoop]
  | [], fuel + 1, processed, somethingModified, _, _, _ => by
    rw [RemoveObjectInInstructionsLoopChecked, RemoveObjectInInstructionsLoop]
    simp
  | instruction :: rest, fuel + 1, processed, somethingModified, hsize, hfit, hrec => by
    simp only [List.length_cons] at hsize
    have hfit2 : ∀ i ∈ rest, (GetMetadata i.GetType).length ≤ i.GetParameters.length :=
      fun i hi => hfit i (List.mem_cons_of_mem _ hi)
    have hrec2 : ∀ i ∈ rest, recurseChecked i.GetSubInstructions =
        recurse i.GetSubInstructions := fun i hi => hrec i (List.mem_cons_of_mem _ hi)
    have hlen : ∀ x : Instruction, (processed ++ [x]).length = processed.length + 1 := by
      intro x
      simp
    rw [RemoveObjectInInstructionsLoopChecked, RemoveObjectInInstructionsLoop,
      getElem?_append_length]
    simp only []
    rw [RemoveObjectScanParametersChecked_eq platform name _ 0 _
      (by have := hfit instruction (List.mem_cons_self _ _); omega)]
    simp only []
    by_cases hdel : RemoveObjectScanParameters platform name
        (GetMetadata instruction.GetType) 0 instruction.GetParameters = true
    · rw [if_pos hdel, if_pos hdel, eraseIdx_append_length,
        SizeIncrement_SizeDecrement _ (by omega)]
      exact RemoveObjectInInstructionsLoopChecked_eq platform GetMetadata name recurse
        recurseChecked rest fuel processed true (by omega) hfit2 hrec2
    · rw [if_neg hdel, if_neg hdel, SizeIncrement_of_lt _ (by omega)]
      by_cases hsub : (!instruction.GetSubInstructions.isEmpty) = true
      · rw [if_pos hsub, if_pos hsub, hrec instruction (List.mem_cons_self _ _)]
        cases hcall : recurse instruction.GetSubInstructions with
        | none => rfl
        | some r =>
          simp only []
          rw [set_append_length, ← hlen]
          exact RemoveObjectInInstructionsLoopChecked_eq platform GetMetadata name recurse
            recurseChecked rest fuel _ _ (by rw [hlen]; omega) hfit2 hrec2
      · rw [if_neg hsub, if_neg hsub]
        have happ : processed ++ instruction :: rest = (processed ++ [instruction]) ++ rest := by
          simp
        rw [happ, ← hlen instruction]
        exact RemoveObjectInInstructionsLoopChecked_eq platform GetMetadata name recurse
          recurseChecked rest fuel _ _ (by rw [hlen]; omega) hfit2 hrec2

/-- On a list whose sizes fit and whose instructions have, at every depth, at
least as many parameters as their metadata declares, the checked removal is the
removal. -/
theorem RemoveObjectInInstructionsDepthChecked_eq (platform : Platform)
    (GetMetadata : String → List ParameterKind) (name : String) :
    ∀ (depth : Nat) (instructions : List Instruction),
      InstructionsSizesFit instructions = true →
      InstructionsParametersFit GetMetadata instructions = true →
      RemoveObjectInInstructionsDepthChecked platform GetMetadata name depth instructions =
        RemoveObjectInInstructionsDepth platform GetMetadata name depth instructions
  | 0, instructions, _, _ => by
    rw [RemoveObjectInInstructionsDepthChecked, RemoveObjectInInstructionsDepth]
  | depth + 1, instructions, hsizes, hfit => by
    rw [RemoveObjectInInstructionsDepthChecked, RemoveObjectInInstructionsDepth]
    have hloop := RemoveObjectInInstructionsLoopChecked_eq platform GetMetadata name
      (RemoveObjectInInstructionsDepth platform GetMetadata name depth)
      (RemoveObjectInInstructionsDepthChecked platform GetMetadata name depth)
      instructions (instructions.length + 1) [] false
      (by
        have := InstructionsSizesFit_length instructions hsizes
        simpa using this)
      (fun instruction hmem =>
        (InstructionsParametersFit_of_mem GetMetadata instructions instruction hfit hmem).1)
      (fun instruction hmem =>
        RemoveObjectInInstructionsDepthChecked_eq platform GetMetadata name depth
          instruction.GetSubInstructions
          (InstructionsSizesFit_of_mem instructions instruction hsizes hmem)
          (InstructionsParametersFit_of_mem GetMetadata instructions instruction hfit
            hmem).2)
    simpa using hloop
/-- The checked parameter loop of the search over the indices that are left is
the parameter loop over the parameters that are left. -/
theorem SearchStringInParametersChecked_eq (search : String) (matchCase : Bool) :
    ∀ (count pNb : Nat) (parameters : List String),
      pNb + count = parameters.length →
      SearchStringInParametersChecked search matchCase count pNb parameters =
        some (SearchStringInParameters search matchCase (parameters.drop pNb))
  | 0, pNb, parameters, h => by
    rw [SearchStringInParametersChecked, List.drop_of_length_le (by omega),
      SearchStringInParameters]
  | count + 1, pNb, parameters, h => by
    have hlt : pNb < parameters.length := by omega
    rw [SearchStringInParametersChecked, List.drop_eq_getElem_cons hlt,
      SearchStringInParameters]
    unfold GetParameterChecked
    rw [List.getElem?_eq_getElem hlt]
    simp only []
    split
    · rfl
    · exact SearchStringInParametersChecked_eq search matchCase count (pNb + 1) parameters
        (by omega)

mutual
/-- The checked body of the instruction loop of the search is the body. -/
theorem SearchStringInInstructionChecked_eq (platform : Platform) (isCondition : Bool)
    (search : String) (matchCase inSentences : Bool) :
    ∀ instruction : Instruction,
      SearchStringInInstructionChecked platform isCondition search matchCase inSentences
          instruction =
        some (SearchStringInInstruction platform isCondition search matchCase inSentences
          instruction)
  | .mk type parameters subInstructions => by
    rw [SearchStringInInstructionChecked, SearchStringInInstruction,
      SearchStringInParametersChecked_eq search matchCase parameters.length 0 parameters
        (by omega), List.drop_zero]
    simp only []
    split
    · rfl
    · split
      · rfl
      · cases subInstructions with
        | nil => simp
        | cons s ss =>
          simp only [List.isEmpty_cons, Bool.not_false, if_true, Bool.true_and]
          rw [SearchStringInInstructionsChecked_eq platform isCondition search matchCase
            inSentences (s :: ss)]
          split <;> simp_all
/-- The checked instruction loop of the search is the instruction loop. -/
theorem SearchStringInInstructionsChecked_eq (platform : Platform) (isCondition : Bool)
    (search : String) (matchCase inSentences : Bool) :
    ∀ instructions : List Instruction,
      SearchStringInInstructionsChecked platform isCondition search matchCase inSentences
          instructions =
        some (SearchStringInInstructions platform isCondition search matchCase inSentences
          instructions)
  | [] => by rw [SearchStringInInstructionsChecked, SearchStringInInstructions]
  | instruction :: rest => by
    rw [SearchStringInInstructionsChecked, SearchStringInInstructions,
      SearchStringInInstructionChecked_eq platform isCondition search matchCase inSentences
        instruction]
    simp only []
    split
    · rfl
    · exact SearchStringInInstructionsChecked_eq platform isCondition search matchCase
        inSentences rest
end

/-- With the indices that are left in range, the checked parameter loop of the
replacement is the parameter loop. -/
theorem ReplaceStringInParametersChecked_eq (toReplace newString : String)
    (matchCase : Bool) :
    ∀ (count pNb : Nat) (parameters : List String) (somethingModified : Bool),
      pNb + count ≤ parameters.length →
      ReplaceStringInParametersChecked toReplace newString matchCase count pNb parameters
          somethingModified =
        some (ReplaceStringInParameters toReplace newString matchCase count pNb parameters
          somethingModified)
  | 0, pNb, parameters, somethingModified, _ => by
    rw [ReplaceStringInParametersChecked, ReplaceStringInParameters]
  | count + 1, pNb, parameters, somethingModified, h => by
    have hlt : pNb < parameters.length := by omega
    rw [ReplaceStringInParametersChecked, ReplaceStringInParameters,
      GetParameterChecked_of_lt parameters pNb hlt]
    simp only []
    cases ReplaceStringInText (GetParameter parameters pNb) toReplace newString
        matchCase with
    | none => rfl
    | some newParameter =>
      simp only []
      split
      · rw [SetParameterChecked_of_lt parameters pNb newParameter hlt]
        exact ReplaceStringInParametersChecked_eq toReplace newString matchCase count
          (pNb + 1) _ true (by rw [SetParameter_length]; omega)
      · exact ReplaceStringInParametersChecked_eq toReplace newString matchCase count
          (pNb + 1) parameters somethingModified (by omega)

mutual
/-- The checked body of the instruction loop of the replacement is the
body. -/
theorem ReplaceStringInInstructionChecked_eq (toReplace newString : String)
    (matchCase : Bool) :
    ∀ (instruction : Instruction) (somethingModified : Bool),
      ReplaceStringInInstructionChecked toReplace newString matchCase instruction
          somethingModified =
        some (ReplaceStringInInstruction toReplace newString matchCase instruction
          somethingModified)
  | .mk type parameters subInstructions, somethingModified => by
    rw [ReplaceStringInInstructionChecked, ReplaceStringInInstruction,
      ReplaceStringInParametersChecked_eq toReplace newString matchCase parameters.length 0
        parameters somethingModified (by omega)]
    cases ReplaceStringInParameters toReplace newString matchCase parameters.length 0
        parameters somethingModified with
    | none => rfl
    | some replaced =>
      simp only []
      cases subInstructions with
      | nil => rfl
      | cons s ss =>
        simp only [List.isEmpty_cons, Bool.not_false, if_true]
        rw [ReplaceStringInInstructionsChecked_eq toReplace newString matchCase (s :: ss)
          false]
        cases ReplaceStringInInstructions toReplace newString matchCase (s :: ss) false with
        | none => rfl
        | some sub => rfl
/-- The checked instruction loop of the replacement is the instruction
loop. -/
theorem ReplaceStringInInstructionsChecked_eq (toReplace newString : String)
    (matchCase : Bool) :
    ∀ (instructions : List Instruction) (somethingModified : Bool),
      ReplaceStringInInstructionsChecked toReplace newString matchCase instructions
          somethingModified =
        some (ReplaceStringInInstructions toReplace newString matchCase instructions
          somethingModified)
  | [], somethingModified => by
    rw [ReplaceStringInInstructionsChecked, ReplaceStringInInstructions]
  | instruction :: rest, somethingModified => by
    rw [ReplaceStringInInstructionsChecked, ReplaceStringInInstructions,
      ReplaceStringInInstructionChecked_eq toReplace newString matchCase instruction
        somethingModified]
    cases ReplaceStringInInstruction toReplace newString matchCase instruction
        somethingModified with
    | none => rfl
    | some body =>
      simp only []
      rw [ReplaceStringInInstructionsChecked_eq toReplace newString matchCase rest body.1]
      cases ReplaceStringInInstructions toReplace newString matchCase rest body.1 with
      | none => rfl
      | some r => rfl
end
/-- C22: parameter indexing stays in range. The traversals with checked
parameter indices, which have no outcome as soon as a parameter is read or
written at an index that is not below the parameter count of the instruction,
have the outcome of the traversals: for `ReplaceStringInActions`,
`ReplaceStringInConditions`, `SearchStringInActions` and
`SearchStringInConditions` on every input; for `RenameObjectInActions`,
`RenameObjectInConditions`, `RemoveObjectInActions` and
`RemoveObjectInConditions` when every instruction has at least as many
parameters as its metadata declares (the removal returns, on lists whose sizes
a `std::size_t` holds). In the remove loop the index after a removal at a valid
index, decremented then incremented modulo `2 ^ 64`, is the index of the removed
instruction, hence at most the size of the list after the removal; at index 0
the decrement wraps around to `2 ^ 64 - 1` and the increment gives 0. Without
the precondition an index is out of range: the action `Delete` without
parameter, whose metadata declares one. -/
theorem ParameterAccesses_in_range :
    (∀ (actions : List Instruction) (toReplace newString : String) (matchCase : Bool),
      ReplaceStringInInstructionsChecked toReplace newString matchCase actions false =
        some (ReplaceStringInActions actions toReplace newString matchCase)) ∧
    (∀ (conditions : List Instruction) (toReplace newString : String) (matchCase : Bool),
      ReplaceStringInInstructionsChecked toReplace newString matchCase conditions false =
        some (ReplaceStringInConditions conditions toReplace newString matchCase)) ∧
    (∀ (platform : Platform) (actions : List Instruction) (search : String)
        (matchCase inSentences : Bool),
      SearchStringInInstructionsChecked platform false search matchCase inSentences actions =
        some (SearchStringInActions platform actions search matchCase inSentences)) ∧
    (∀ (platform : Platform) (conditions : List Instruction) (search : String)
        (matchCase inSentences : Bool),
      SearchStringInInstructionsChecked platform true search matchCase inSentences
          conditions =
        some (SearchStringInConditions platform conditions search matchCase inSentences)) ∧
    (∀ (platform : Platform) (actions : List Instruction) (oldName newName : String),
      InstructionsParametersFit platform.GetActionMetadata actions = true →
      RenameObjectInInstructionsChecked platform platform.GetActionMetadata oldName newName
          actions false =
        some (RenameObjectInActions platform actions oldName newName)) ∧
    (∀ (platform : Platform) (conditions : List Instruction) (oldName newName : String),
      InstructionsParametersFit platform.GetConditionMetadata conditions = true →
      RenameObjectInInstructionsChecked platform platform.GetConditionMetadata oldName
          newName conditions false =
        some (RenameObjectInConditions platform conditions oldName newName)) ∧
    (∀ (platform : Platform) (actions : List Instruction) (name : String),
      InstructionsSizesFit actions = true →
      InstructionsParametersFit platform.GetActionMetadata actions = true →
      ∃ r, RemoveObjectInActions platform actions name = some r ∧
        RemoveObjectInInstructionsDepthChecked platform platform.GetActionMetadata name
          (InstructionsCallDepth actions) actions = some r) ∧
    (∀ (platform : Platform) (conditions : List Instruction) (name : String),
      InstructionsSizesFit conditions = true →
      InstructionsParametersFit platform.GetConditionMetadata conditions = true →
      ∃ r, RemoveObjectInConditions platform conditions name = some r ∧
        RemoveObjectInInstructionsDepthChecked platform platform.GetConditionMetadata name
          (InstructionsCallDepth conditions) conditions = some r) ∧
    (∀ (actions : List Instruction) (aId : Nat),
      aId < actions.length → actions.length < 2 ^ 64 →
      SizeIncrement (SizeDecrement aId) = aId ∧
        SizeIncrement (SizeDecrement aId) ≤ (actions.eraseIdx aId).length) ∧
    SizeDecrement 0 = 2 ^ 64 - 1 ∧ SizeIncrement (SizeDecrement 0) = 0 ∧
    RenameObjectInInstructionsChecked scenarioPlatform scenarioPlatform.GetActionMetadata
      "Player" "Hero" [Instruction.mk "Delete" [] []] false = none ∧
    RemoveObjectInInstructionsDepthChecked scenarioPlatform
      scenarioPlatform.GetActionMetadata "Player" 1 [Instruction.mk "Delete" [] []] =
        none := by
  refine ⟨?_, ?_, ?_, ?_, ?_, ?_, ?_, ?_, ?_, by decide, by decide, by rfl, by rfl⟩
  · intro actions toReplace newString matchCase
    exact ReplaceStringInInstructionsChecked_eq toReplace newString matchCase actions false
  · intro conditions toReplace newString matchCase
    exact ReplaceStringInInstructionsChecked_eq toReplace newString matchCase conditions
      false
  · intro platform actions search matchCase inSentences
    exact SearchStringInInstructionsChecked_eq platform false search matchCase inSentences
      actions
  · intro platform conditions search matchCase inSentences
    exact SearchStringInInstructionsChecked_eq platform true search matchCase inSentences
      conditions
  · intro platform actions oldName newName hfit
    exact RenameObjectInInstructionsChecked_eq platform _ oldName newName actions false hfit
  · intro platform conditions oldName newName hfit
    exact RenameObjectInInstructionsChecked_eq platform _ oldName newName conditions false
      hfit
  · intro platform actions name hsizes hfit
    refine ⟨_, RemoveObjectInInstructionsDepth_eq platform _ name _ actions (le_refl _)
      hsizes, ?_⟩
    rw [RemoveObjectInInstructionsDepthChecked_eq platform _ name _ actions hsizes hfit]
    exact RemoveObjectInInstructionsDepth_eq platform _ name _ actions (le_refl _) hsizes
  · intro platform conditions name hsizes hfit
    refine ⟨_, RemoveObjectInInstructionsDepth_eq platform _ name _ conditions (le_refl _)
      hsizes, ?_⟩
    rw [RemoveObjectInInstructionsDepthChecked_eq platform _ name _ conditions hsizes hfit]
    exact RemoveObjectInInstructionsDepth_eq platform _ name _ conditions (le_refl _) hsizes
  · intro actions aId hlt hsize
    rw [SizeIncrement_SizeDecrement aId (by omega), List.length_eraseIdx, if_pos hlt]
    exact ⟨rfl, by omega⟩

/-! ## The removal in events -/

/-- The loop over the condition vectors of the removal in events returns the
vectors after removal, when their sizes fit. -/
theorem RemoveObjectInConditionsVectors_eq (platform : Platform) (name : String) :
    ∀ vectors : List (List Instruction),
      vectors.all InstructionsSizesFit = true →
      RemoveObjectInConditionsVectors platform name vectors =
        some (vectors.map (RemovedInInstructions platform platform.GetConditionMetadata name))
  | [], _ => by rw [RemoveObjectInConditionsVectors]; rfl
  | conditions :: rest, hfit => by
    simp only [List.all_cons, Bool.and_eq_true] at hfit
    rw [RemoveObjectInConditionsVectors, RemoveObjectInConditions,
      RemoveObjectInInstructionsDepth_eq platform _ name _ conditions (le_refl _) hfit.1,
      RemoveObjectInConditionsVectors_eq platform name rest hfit.2]
    rfl

/-- The loop over the action vectors of the removal in events returns the
vectors after removal, when their sizes fit. -/
theorem RemoveObjectInActionsVectors_eq (platform : Platform) (name : String) :
    ∀ vectors : List (List Instruction),
      vectors.all InstructionsSizesFit = true →
      RemoveObjectInActionsVectors platform name vectors =
        some (vectors.map (RemovedInInstructions platform platform.GetActionMetadata name))
  | [], _ => by rw [RemoveObjectInActionsVectors]; rfl
  | actions :: rest, hfit => by
    simp only [List.all_cons, Bool.and_eq_true] at hfit
    rw [RemoveObjectInActionsVectors, RemoveObjectInActions,
      RemoveObjectInInstructionsDepth_eq platform _ name _ actions (le_refl _) hfit.1,
      RemoveObjectInActionsVectors_eq platform name rest hfit.2]
    rfl

mutual
/-- The body of the event loop of the removal returns the event after removal,
when the sizes fit. -/
theorem RemoveObjectInEvent_eq (platform : Platform) (name : String) :
    ∀ event : BaseEvent, EventSizesFit event = true →
      RemoveObjectInEvent platform name event = some (RemovedInEvent platform name event)
  | .mk conditionsVectors actionsVectors searchableStrings expressionsWithMetadata
      canHaveSubEvents subEvents, hfit => by
    rw [EventSizesFit] at hfit
    simp only [Bool.and_eq_true, Bool.or_eq_true, Bool.not_eq_true'] at hfit
    rw [RemoveObjectInEvent, RemovedInEvent,
      RemoveObjectInConditionsVectors_eq platform name conditionsVectors hfit.1.1,
      RemoveObjectInActionsVectors_eq platform name actionsVectors hfit.1.2]
    cases canHaveSubEvents with
    | false => rfl
    | true =>
      have hsub : EventsSizesFit subEvents = true := by
        rcases hfit.2 with h | h
        · cases h
        · exact h
      simp only [if_true]
      rw [RemoveObjectInEventsLoop_eq platform name subEvents hsub]
/-- The event loop of the removal returns the events after removal, when the
sizes fit. -/
theorem RemoveObjectInEventsLoop_eq (platform : Platform) (name : String) :
    ∀ events : List BaseEvent, EventsSizesFit events = true →
      RemoveObjectInEventsLoop platform name events =
        some (RemovedInEvents platform name events)
  | [], _ => by rw [RemoveObjectInEventsLoop, RemovedInEvents]
  | event :: rest, hfit => by
    rw [EventsSizesFit] at hfit
    simp only [Bool.and_eq_true] at hfit
    rw [RemoveObjectInEventsLoop, RemovedInEvents,
      RemoveObjectInEvent_eq platform name event hfit.1,
      RemoveObjectInEventsLoop_eq platform name rest hfit.2]
end

/-- The removal keeps the number of events of a list. -/
theorem RemovedInEvents_length (platform : Platform) (name : String) :
    ∀ events : List BaseEvent, (RemovedInEvents platform name events).length = events.length
  | [] => by rw [RemovedInEvents]
  | event :: rest => by
    rw [RemovedInEvents, List.length_cons, List.length_cons,
      RemovedInEvents_length platform name rest]

/-- The event at an index after the removal is the event that was at this
index, after removal. -/
theorem RemovedInEvents_getElem? (platform : Platform) (name : String) :
    ∀ (events : List BaseEvent) (index : Nat),
      (RemovedInEvents platform name events)[index]? =
        (events[index]?).map (RemovedInEvent platform name)
  | [], index => by simp [RemovedInEvents]
  | event :: rest, 0 => by simp [RemovedInEvents]
  | event :: rest, index + 1 => by
    simp [RemovedInEvents, RemovedInEvents_getElem? platform name rest index]

/-- Following a path in the events after the removal reaches the list of
sub-events after removal. -/
theorem SubEventsAt_RemovedInEvents (platform : Platform) (name : String) :
    ∀ (path : List Nat) (events : List BaseEvent),
      SubEventsAt (RemovedInEvents platform name events) path =
        (SubEventsAt events path).map (RemovedInEvents platform name)
  | [], events => rfl
  | index :: path, events => by
    simp only [SubEventsAt, RemovedInEvents_getElem?]
    cases events[index]? with
    | none => rfl
    | some event =>
      cases event with
      | mk conditionsVectors actionsVectors searchableStrings expressionsWithMetadata
          canHaveSubEvents subEvents =>
        simp only [Option.map_some', RemovedInEvent, BaseEvent.CanHaveSubEvents,
          BaseEvent.GetSubEvents]
        cases canHaveSubEvents
        · rfl
        · simp only [if_true]
          exact SubEventsAt_RemovedInEvents platform name path _

/-- The event after removal, through its accessors. -/
theorem RemovedInEvent_eq (platform : Platform) (name : String) (event : BaseEvent) :
    RemovedInEvent platform name event =
      BaseEvent.mk
        (event.GetAllConditionsVectors.map
          (RemovedInInstructions platform platform.GetConditionMetadata name))
        (event.GetAllActionsVectors.map
          (RemovedInInstructions platform platform.GetActionMetadata name))
        event.GetAllSearchableStrings event.GetAllExpressionsWithMetadata
        event.CanHaveSubEvents
        (if event.CanHaveSubEvents then RemovedInEvents platform name event.GetSubEvents
         else event.GetSubEvents) := by
  cases event with
  | mk conditionsVectors actionsVectors searchableStrings expressionsWithMetadata
      canHaveSubEvents subEvents =>
    rw [RemovedInEvent]
    rfl
/-- A relation that holds between the image of every member of a list and the
member holds between the image of the list and the list. -/
theorem forall₂_map_self {α : Type} (R : α → α → Prop) (f : α → α) :
    ∀ l : List α, (∀ a ∈ l, R (f a) a) → List.Forall₂ R (l.map f) l
  | [], _ => List.Forall₂.nil
  | a :: l, h =>
    List.Forall₂.cons (h a (List.mem_cons_self _ _))
      (forall₂_map_self R f l (fun b hb => h b (List.mem_cons_of_mem _ hb)))

/-- The removal never adds an instruction to a list. -/
theorem RemovedInInstructions_Count_le (platform : Platform)
    (GetMetadata : String → List ParameterKind) (name : String)
    (instructions : List Instruction) :
    InstructionsCount (RemovedInInstructions platform GetMetadata name instructions) ≤
      InstructionsCount instructions := by
  have h := RemovedInInstructions_Count platform GetMetadata name instructions
  omega

/-- C29: `RemoveObjectInEvents` removes instructions only. On an event tree
whose instruction lists have sizes that a `std::size_t` holds, the call returns;
after it every list of the tree, the top-level list or the sub-event list of an
event reached through events that declare sub-event support, has as many events
as before; the event at a position is the event that was there, with the same
expressions, the same searchable strings and the same sub-event support, its
condition vectors and action vectors being those after removal, none of which
has more instructions than before; and the sub-events of an event that does not
declare sub-event support are unchanged. -/
theorem RemoveObjectInEvents_removes_instructions_only (platform : Platform)
    (events : List BaseEvent) (name : String) (hfit : EventsSizesFit events = true) :
    ∃ after : List BaseEvent, RemoveObjectInEvents platform events name = some after ∧
      (∀ path : List Nat,
        (SubEventsAt after path).map List.length =
          (SubEventsAt events path).map List.length) ∧
      (∀ (path : List Nat) (index : Nat) (event : BaseEvent),
        EventAt events path index = some event →
        ∃ eventAfter : BaseEvent, EventAt after path index = some eventAfter ∧
          eventAfter.GetAllExpressionsWithMetadata = event.GetAllExpressionsWithMetadata ∧
          eventAfter.GetAllSearchableStrings = event.GetAllSearchableStrings ∧
          eventAfter.CanHaveSubEvents = event.CanHaveSubEvents ∧
          eventAfter.GetAllConditionsVectors =
            event.GetAllConditionsVectors.map
              (RemovedInInstructions platform platform.GetConditionMetadata name) ∧
          eventAfter.GetAllActionsVectors =
            event.GetAllActionsVectors.map
              (RemovedInInstructions platform platform.GetActionMetadata name) ∧
          List.Forall₂ (fun vectorAfter vector =>
              InstructionsCount vectorAfter ≤ InstructionsCount vector)
            eventAfter.GetAllConditionsVectors event.GetAllConditionsVectors ∧
          List.Forall₂ (fun vectorAfter vector =>
              InstructionsCount vectorAfter ≤ InstructionsCount vector)
            eventAfter.GetAllActionsVectors event.GetAllActionsVectors ∧
          (event.CanHaveSubEvents = false → eventAfter.GetSubEvents = event.GetSubEvents)) := by
  refine ⟨RemovedInEvents platform name events,
    RemoveObjectInEventsLoop_eq platform name events hfit, ?_, ?_⟩
  · intro path
    rw [SubEventsAt_RemovedInEvents]
    cases SubEventsAt events path with
    | none => rfl
    | some list => simp [RemovedInEvents_length]
  · intro path index event hat
    refine ⟨RemovedInEvent platform name event, ?_, ?_⟩
    · unfold EventAt at hat ⊢
      rw [SubEventsAt_RemovedInEvents]
      cases hsub : SubEventsAt events path with
      | none => simp [hsub] at hat
      | some list =>
        simp only [hsub] at hat
        simp only [Option.map_some', RemovedInEvents_getElem?, hat]
    · rw [RemovedInEvent_eq]
      refine ⟨rfl, rfl, rfl, rfl, rfl, ?_, ?_, ?_⟩
      · exact forall₂_map_self _ _ _
          (fun vector _ => RemovedInInstructions_Count_le platform _ name vector)
      · exact forall₂_map_self _ _ _
          (fun vector _ => RemovedInInstructions_Count_le platform _ name vector)
      · intro hcan
        have hsub : ∀ (a b c d : _) (e : Bool) (f : List BaseEvent),
            (BaseEvent.mk a b c d e f).GetSubEvents = f := fun _ _ _ _ _ _ => rfl
        rw [hsub, hcan]
        rfl

/-- C29 on an event that holds the action `Delete(Player)`, the object
reference "Player" and the expression "Player.X()" as its own expressions, and
the scenario event as its sub-event: the removal of "Player" empties the action
list of the event and the condition and action lists of its sub-event, and
leaves the two expressions as they were. -/
theorem RemoveObjectInEvents_removes_instructions_only_witness :
    EventsSizesFit
        [BaseEvent.mk [] [[Instruction.mk "Delete" ["Player"] []]] []
          [("Player", ParameterKind.ObjectReference),
            ("Player.X()", ParameterKind.NumberExpression)] true [scenarioEvent]] = true ∧
    RemoveObjectInEvents scenarioPlatform
        [BaseEvent.mk [] [[Instruction.mk "Delete" ["Player"] []]] []
          [("Player", ParameterKind.ObjectReference),
            ("Player.X()", ParameterKind.NumberExpression)] true [scenarioEvent]] "Player" =
      some [BaseEvent.mk [] [[]] []
        [("Player", ParameterKind.ObjectReference),
          ("Player.X()", ParameterKind.NumberExpression)] true
        [BaseEvent.mk [[]] [[]] [] [] false []]] ∧
    ∃ after : List BaseEvent,
      RemoveObjectInEvents scenarioPlatform
        [BaseEvent.mk [] [[Instruction.mk "Delete" ["Player"] []]] []
          [("Player", ParameterKind.ObjectReference),
            ("Player.X()", ParameterKind.NumberExpression)] true [scenarioEvent]] "Player" =
        some after ∧
      ∀ path : List Nat,
        (SubEventsAt after path).map List.length =
          (SubEventsAt
            [BaseEvent.mk [] [[Instruction.mk "Delete" ["Player"] []]] []
              [("Player", ParameterKind.ObjectReference),
                ("Player.X()", ParameterKind.NumberExpression)] true [scenarioEvent]]
            path).map List.length :=
  ⟨by decide, by rfl,
    (RemoveObjectInEvents_removes_instructions_only scenarioPlatform
      [BaseEvent.mk [] [[Instruction.mk "Delete" ["Player"] []]] []
        [("Player", ParameterKind.ObjectReference),
          ("Player.X()", ParameterKind.NumberExpression)] true [scenarioEvent]] "Player"
      (by decide)).imp (fun _ h => ⟨h.1, h.2.1⟩)⟩

/-! ## Replacing a text in events -/

/-- The call of `ReplaceStringInConditions`, for a non-empty search text: the
flag tells whether a parameter of an instruction of the list itself is changed,
and every parameter is replaced. -/
theorem ReplaceStringInConditions_eq (conditions : List Instruction)
    (toReplace newString : String) (matchCase : Bool) (hne : toReplace ≠ "") :
    ReplaceStringInConditions conditions toReplace newString matchCase =
      some (ChangesTopLevelParameter (ReplacedText toReplace newString matchCase) conditions,
        MapParametersInInstructions (ReplacedText toReplace newString matchCase)
          conditions) := by
  unfold ReplaceStringInConditions
  rw [ReplaceStringInInstructions_eq toReplace newString matchCase hne, Bool.false_or]

/-- The call of `ReplaceStringInActions`, for a non-empty search text: the flag
tells whether a parameter of an instruction of the list itself is changed, and
every parameter is replaced. -/
theorem ReplaceStringInActions_eq (actions : List Instruction)
    (toReplace newString : String) (matchCase : Bool) (hne : toReplace ≠ "") :
    ReplaceStringInActions actions toReplace newString matchCase =
      some (ChangesTopLevelParameter (ReplacedText toReplace newString matchCase) actions,
        MapParametersInInstructions (ReplacedText toReplace newString matchCase)
          actions) := by
  unfold ReplaceStringInActions
  rw [ReplaceStringInInstructions_eq toReplace newString matchCase hne, Bool.false_or]

/-- The new event strings, for a non-empty search text, are the images of the
searchable strings by the substitution. -/
theorem ReplaceStringInStrings_eq (toReplace newString : String) (matchCase : Bool)
    (hne : toReplace ≠ "") :
    ∀ strings : List String,
      ReplaceStringInStrings toReplace newString matchCase strings =
        some (strings.map (ReplacedText toReplace newString matchCase))
  | [] => by rw [ReplaceStringInStrings]; rfl
  | stringEvent :: rest => by
    rw [ReplaceStringInStrings, ReplaceStringInText_eq stringEvent toReplace newString
      matchCase hne, ReplaceStringInStrings_eq toReplace newString matchCase hne rest]
    rfl

/-- The call of `ReplaceStringInEventSearchableStrings` returns, for a non-empty
search text. -/
theorem ReplaceStringInEventSearchableStrings_eq (searchableStrings : List String)
    (toReplace newString : String) (matchCase : Bool) (hne : toReplace ≠ "") :
    ReplaceStringInEventSearchableStrings searchableStrings toReplace newString matchCase =
      some (ReplaceAllSearchableStrings searchableStrings
        (searchableStrings.map (ReplacedText toReplace newString matchCase))) := by
  unfold ReplaceStringInEventSearchableStrings
  rw [ReplaceStringInStrings_eq toReplace newString matchCase hne]

/-- The loop over the condition vectors of the replacement in events, entered
with as many entries pushed as `eventModified` tells (one if it is set, none
otherwise), is left in such a state, `eventModified` being set if it was or if
a call reported a modification. -/
theorem ReplaceStringInConditionsVectors_eq (toReplace newString : String)
    (matchCase : Bool) (hne : toReplace ≠ "") :
    ∀ (vectors : List (List Instruction)) (eventModified : Bool),
      ReplaceStringInConditionsVectors toReplace newString matchCase vectors eventModified
          eventModified.toNat =
        some (eventModified || vectors.any
            (ChangesTopLevelParameter (ReplacedText toReplace newString matchCase)),
          (eventModified || vectors.any
            (ChangesTopLevelParameter (ReplacedText toReplace newString matchCase))).toNat,
          vectors.map (MapParametersInInstructions
            (ReplacedText toReplace newString matchCase)))
  | [], eventModified => by
    rw [ReplaceStringInConditionsVectors]
    simp
  | conditions :: rest, eventModified => by
    rw [ReplaceStringInConditionsVectors,
      ReplaceStringInConditions_eq conditions toReplace newString matchCase hne]
    simp only []
    have hstate : (if (ChangesTopLevelParameter (ReplacedText toReplace newString matchCase)
          conditions && !eventModified) = true then (true, eventModified.toNat + 1)
        else (eventModified, eventModified.toNat)) =
        ((eventModified || ChangesTopLevelParameter
            (ReplacedText toReplace newString matchCase) conditions),
          (eventModified || ChangesTopLevelParameter
            (ReplacedText toReplace newString matchCase) conditions).toNat) := by
      cases eventModified <;>
        cases ChangesTopLevelParameter (ReplacedText toReplace newString matchCase)
          conditions <;> rfl
    rw [hstate]
    simp only []
    rw [ReplaceStringInConditionsVectors_eq toReplace newString matchCase hne rest]
    simp [Bool.or_assoc]

/-- The loop over the action vectors of the replacement in events, entered with
as many entries pushed as `eventModified` tells, is left in such a state,
`eventModified` being set if it was or if a call reported a modification. -/
theorem ReplaceStringInActionsVectors_eq (toReplace newString : String)
    (matchCase : Bool) (hne : toReplace ≠ "") :
    ∀ (vectors : List (List Instruction)) (eventModified : Bool),
      ReplaceStringInActionsVectors toReplace newString matchCase vectors eventModified
          eventModified.toNat =
        some (eventModified || vectors.any
            (ChangesTopLevelParameter (ReplacedText toReplace newString matchCase)),
          (eventModified || vectors.any
            (ChangesTopLevelParameter (ReplacedText toReplace newString matchCase))).toNat,
          vectors.map (MapParametersInInstructions
            (ReplacedText toReplace newString matchCase)))
  | [], eventModified => by
    rw [ReplaceStringInActionsVectors]
    simp
  | actions :: rest, eventModified => by
    rw [ReplaceStringInActionsVectors,
      ReplaceStringInActions_eq actions toReplace newString matchCase hne]
    simp only []
    have hstate : (if (ChangesTopLevelParameter (ReplacedText toReplace newString matchCase)
          actions && !eventModified) = true then (true, eventModified.toNat + 1)
        else (eventModified, eventModified.toNat)) =
        ((eventModified || ChangesTopLevelParameter
            (ReplacedText toReplace newString matchCase) actions),
          (eventModified || ChangesTopLevelParameter
            (ReplacedText toReplace newString matchCase) actions).toNat) := by
      cases eventModified <;>
        cases ChangesTopLevelParameter (ReplacedText toReplace newString matchCase)
          actions <;> rfl
    rw [hstate]
    simp only []
    rw [ReplaceStringInActionsVectors_eq toReplace newString matchCase hne rest]
    simp [Bool.or_assoc]

/-- Whether a participating check reports a modification, for a non-empty
search text, through the substitution. -/
theorem ReportsModification_eq (toReplace newString : String)
    (matchCase inConditions inActions inEventStrings : Bool) (hne : toReplace ≠ "")
    (event : BaseEvent) :
    ReportsModification toReplace newString matchCase inConditions inActions inEventStrings
        event =
      ((inConditions && event.GetAllConditionsVectors.any
          (ChangesTopLevelParameter (ReplacedText toReplace newString matchCase))) ||
        (inActions && event.GetAllActionsVectors.any
          (ChangesTopLevelParameter (ReplacedText toReplace newString matchCase))) ||
        (inEventStrings && (ReplaceAllSearchableStrings event.GetAllSearchableStrings
          (event.GetAllSearchableStrings.map
            (ReplacedText toReplace newString matchCase))).1)) := by
  unfold ReportsModification
  simp only [ReplaceStringInConditions_eq _ toReplace newString matchCase hne,
    ReplaceStringInActions_eq _ toReplace newString matchCase hne,
    ReplaceStringInEventSearchableStrings_eq _ toReplace newString matchCase hne]
/-- The check of the conditions in the body of the event loop of the
replacement, for a non-empty search text: it leaves as many entries pushed as
`eventModified` tells, `eventModified` being set when conditions are replaced in
and a call reported a modification. -/
theorem ReplaceStringInEvent_conditions (toReplace newString : String)
    (matchCase inConditions : Bool) (hne : toReplace ≠ "")
    (conditionsVectors : List (List Instruction)) :
    ∃ vectors : List (List Instruction),
      (if inConditions then
        ReplaceStringInConditionsVectors toReplace newString matchCase conditionsVectors
          false 0
      else some (false, 0, conditionsVectors)) =
        some ((inConditions && conditionsVectors.any
            (ChangesTopLevelParameter (ReplacedText toReplace newString matchCase))),
          (inConditions && conditionsVectors.any
            (ChangesTopLevelParameter (ReplacedText toReplace newString matchCase))).toNat,
          vectors) := by
  cases inConditions with
  | false => exact ⟨_, rfl⟩
  | true =>
    have h := ReplaceStringInConditionsVectors_eq toReplace newString matchCase hne
      conditionsVectors false
    simp only [Bool.false_or, Bool.toNat_false] at h
    exact ⟨_, by simpa using h⟩

/-- The check of the actions in the body of the event loop of the replacement,
for a non-empty search text, entered with as many entries pushed as
`eventModified` tells: it leaves such a state, `eventModified` being set if it
was, or when actions are replaced in and a call reported a modification. -/
theorem ReplaceStringInEvent_actions (toReplace newString : String)
    (matchCase inActions : Bool) (hne : toReplace ≠ "")
    (actionsVectors : List (List Instruction)) (eventModified : Bool) :
    ∃ vectors : List (List Instruction),
      (if inActions then
        ReplaceStringInActionsVectors toReplace newString matchCase actionsVectors
          eventModified eventModified.toNat
      else some (eventModified, eventModified.toNat, actionsVectors)) =
        some ((eventModified || (inActions && actionsVectors.any
            (ChangesTopLevelParameter (ReplacedText toReplace newString matchCase)))),
          (eventModified || (inActions && actionsVectors.any
            (ChangesTopLevelParameter (ReplacedText toReplace newString matchCase)))).toNat,
          vectors) := by
  cases inActions with
  | false => exact ⟨actionsVectors, by simp⟩
  | true =>
    have h := ReplaceStringInActionsVectors_eq toReplace newString matchCase hne
      actionsVectors eventModified
    exact ⟨_, by simpa using h⟩

/-- The check of the event strings in the body of the event loop of the
replacement, for a non-empty search text, entered with as many entries pushed
as `eventModified` tells: it leaves such a state, `eventModified` being set if
it was, or when event strings are replaced in and the call reported a
modification. -/
theorem ReplaceStringInEvent_strings (toReplace newString : String)
    (matchCase inEventStrings : Bool) (hne : toReplace ≠ "")
    (searchableStrings : List String) (eventModified : Bool) :
    ∃ strings : List String,
      (if inEventStrings then
        match ReplaceStringInEventSearchableStrings searchableStrings toReplace newString
            matchCase with
        | none => none
        | some eventStringModified =>
          if eventStringModified.1 && !eventModified then
            some (true, eventModified.toNat + 1, eventStringModified.2)
          else some (eventModified, eventModified.toNat, eventStringModified.2)
      else some (eventModified, eventModified.toNat, searchableStrings)) =
        some ((eventModified || (inEventStrings &&
            (ReplaceAllSearchableStrings searchableStrings (searchableStrings.map
              (ReplacedText toReplace newString matchCase))).1)),
          (eventModified || (inEventStrings &&
            (ReplaceAllSearchableStrings searchableStrings (searchableStrings.map
              (ReplacedText toReplace newString matchCase))).1)).toNat,
          strings) := by
  cases inEventStrings with
  | false => exact ⟨searchableStrings, by simp⟩
  | true =>
    rw [if_pos rfl, ReplaceStringInEventSearchableStrings_eq searchableStrings toReplace
      newString matchCase hne]
    simp only []
    cases eventModified <;>
      cases (ReplaceAllSearchableStrings searchableStrings (searchableStrings.map
        (ReplacedText toReplace newString matchCase))).1 <;> exact ⟨_, rfl⟩

mutual
/-- The body of the event loop of the replacement returns, for a non-empty
search text, and the addresses of its results are those listed for the
event. -/
theorem ReplaceStringInEvent_addresses (toReplace newString : String)
    (matchCase inConditions inActions inEventStrings : Bool) (hne : toReplace ≠ "") :
    ∀ (event : BaseEvent) (eventsList : List Nat) (i : Nat),
      ∃ r : List EventsSearchResult × BaseEvent,
        ReplaceStringInEvent toReplace newString matchCase inConditions inActions
          inEventStrings eventsList i event = some r ∧
        r.1.map EventsSearchResult.Address =
          ModifiedEventAddresses toReplace newString matchCase inConditions inActions
            inEventStrings eventsList i event
  | .mk conditionsVectors actionsVectors searchableStrings expressionsWithMetadata
      canHaveSubEvents subEvents, eventsList, i => by
    rw [ReplaceStringInEvent, ModifiedEventAddresses,
      ReportsModification_eq toReplace newString matchCase inConditions inActions
        inEventStrings hne]
    obtain ⟨vectors1, h1⟩ := ReplaceStringInEvent_conditions toReplace newString matchCase
      inConditions hne conditionsVectors
    rw [h1]
    simp only []
    obtain ⟨vectors2, h2⟩ := ReplaceStringInEvent_actions toReplace newString matchCase
      inActions hne actionsVectors (inConditions && conditionsVectors.any
        (ChangesTopLevelParameter (ReplacedText toReplace newString matchCase)))
    rw [h2]
    simp only []
    obtain ⟨strings3, h3⟩ := ReplaceStringInEvent_strings toReplace newString matchCase
      inEventStrings hne searchableStrings
      ((inConditions && conditionsVectors.any
        (ChangesTopLevelParameter (ReplacedText toReplace newString matchCase))) ||
        (inActions && actionsVectors.any
          (ChangesTopLevelParameter (ReplacedText toReplace newString matchCase))))
    rw [h3]
    simp only [BaseEvent.GetAllConditionsVectors, BaseEvent.GetAllActionsVectors,
      BaseEvent.GetAllSearchableStrings]
    have hown : ∀ (flag : Bool) (event : BaseEvent),
        (List.replicate flag.toNat
            (⟨event, eventsList, i⟩ : EventsSearchResult)).map EventsSearchResult.Address =
          if flag = true then [eventsList ++ [i]] else [] := by
      intro flag event
      cases flag
      · rfl
      · rfl
    cases canHaveSubEvents with
    | false =>
      refine ⟨_, rfl, ?_⟩
      simp only [List.map_append, List.map_nil, Bool.false_eq_true, if_false]
      rw [hown]
    | true =>
      obtain ⟨rs, hrs, haddr⟩ := ReplaceStringInEventsFrom_addresses toReplace newString
        matchCase inConditions inActions inEventStrings hne subEvents (eventsList ++ [i]) 0
      simp only [if_true, if_neg hne, hrs]
      refine ⟨_, rfl, ?_⟩
      simp only [List.map_append]
      rw [hown, haddr]
/-- The event loop of the replacement returns, for a non-empty search text, and
the addresses of its results are those listed for the events. -/
theorem ReplaceStringInEventsFrom_addresses (toReplace newString : String)
    (matchCase inConditions inActions inEventStrings : Bool) (hne : toReplace ≠ "") :
    ∀ (events : List BaseEvent) (eventsList : List Nat) (i : Nat),
      ∃ r : List EventsSearchResult × List BaseEvent,
        ReplaceStringInEventsFrom toReplace newString matchCase inConditions inActions
          inEventStrings eventsList i events = some r ∧
        r.1.map EventsSearchResult.Address =
          ModifiedEventsAddressesFrom toReplace newString matchCase inConditions inActions
            inEventStrings eventsList i events
  | [], eventsList, i => by
    rw [ReplaceStringInEventsFrom, ModifiedEventsAddressesFrom]
    exact ⟨_, rfl, rfl⟩
  | event :: rest, eventsList, i => by
    obtain ⟨body, hbody, haddr1⟩ := ReplaceStringInEvent_addresses toReplace newString
      matchCase inConditions inActions inEventStrings hne event eventsList i
    obtain ⟨r, hr, haddr2⟩ := ReplaceStringInEventsFrom_addresses toReplace newString
      matchCase inConditions inActions inEventStrings hne rest eventsList (i + 1)
    rw [ReplaceStringInEventsFrom, ModifiedEventsAddressesFrom, hbody]
    simp only [hr]
    refine ⟨_, rfl, ?_⟩
    simp only [List.map_append]
    rw [haddr1, haddr2]
end
mutual
/-- The addresses listed for an event are the address of the event or go
below it. -/
theorem mem_ModifiedEventAddresses (toReplace newString : String)
    (matchCase inConditions inActions inEventStrings : Bool) :
    ∀ (event : BaseEvent) (eventsList : List Nat) (i : Nat) (address : List Nat),
      address ∈ ModifiedEventAddresses toReplace newString matchCase inConditions inActions
        inEventStrings eventsList i event →
      address = eventsList ++ [i] ∨
        ∃ (m : Nat) (below : List Nat), address = (eventsList ++ [i]) ++ m :: below
  | .mk conditionsVectors actionsVectors searchableStrings expressionsWithMetadata
      canHaveSubEvents subEvents, eventsList, i, address => by
    intro h
    rw [ModifiedEventAddresses, List.mem_append] at h
    rcases h with h | h
    · split at h
      · exact Or.inl (by simpa using h)
      · simp at h
    · cases canHaveSubEvents with
      | false => simp at h
      | true =>
        simp only [if_true] at h
        obtain ⟨m, below, _, haddr⟩ := mem_ModifiedEventsAddressesFrom toReplace newString
          matchCase inConditions inActions inEventStrings subEvents (eventsList ++ [i]) 0
          address h
        exact Or.inr ⟨m, below, haddr⟩
/-- The addresses listed for the events of a list from position `i` on start
with the address of the list, followed by a position that is not before
`i`. -/
theorem mem_ModifiedEventsAddressesFrom (toReplace newString : String)
    (matchCase inConditions inActions inEventStrings : Bool) :
    ∀ (events : List BaseEvent) (eventsList : List Nat) (i : Nat) (address : List Nat),
      address ∈ ModifiedEventsAddressesFrom toReplace newString matchCase inConditions
        inActions inEventStrings eventsList i events →
      ∃ (m : Nat) (below : List Nat), i ≤ m ∧ address = eventsList ++ m :: below
  | [], eventsList, i, address => by
    intro h
    simp [ModifiedEventsAddressesFrom] at h
  | event :: rest, eventsList, i, address => by
    intro h
    rw [ModifiedEventsAddressesFrom, List.mem_append] at h
    rcases h with h | h
    · rcases mem_ModifiedEventAddresses toReplace newString matchCase inConditions
        inActions inEventStrings event eventsList i address h with haddr | ⟨m, below, haddr⟩
      · exact ⟨i, [], le_refl _, haddr⟩
      · exact ⟨i, m :: below, le_refl _, by rw [haddr, List.append_assoc]; rfl⟩
    · obtain ⟨m, below, hm, haddr⟩ := mem_ModifiedEventsAddressesFrom toReplace newString
        matchCase inConditions inActions inEventStrings rest eventsList (i + 1) address h
      exact ⟨m, below, by omega, haddr⟩
end

mutual
/-- The addresses listed for an event come in strict pre-order: none is listed
twice. -/
theorem ModifiedEventAddresses_pairwise (toReplace newString : String)
    (matchCase inConditions inActions inEventStrings : Bool) :
    ∀ (event : BaseEvent) (eventsList : List Nat) (i : Nat),
      List.Pairwise (fun a b => PrecedesOrEqual a b = true ∧ PrecedesOrEqual b a = false)
        (ModifiedEventAddresses toReplace newString matchCase inConditions inActions
          inEventStrings eventsList i event)
  | .mk conditionsVectors actionsVectors searchableStrings expressionsWithMetadata
      canHaveSubEvents subEvents, eventsList, i => by
    rw [ModifiedEventAddresses, List.pairwise_append]
    refine ⟨?_, ?_, ?_⟩
    · split
      · exact List.pairwise_singleton _ _
      · exact List.Pairwise.nil
    · cases canHaveSubEvents with
      | false => exact List.Pairwise.nil
      | true =>
        simp only [if_true]
        exact ModifiedEventsAddressesFrom_pairwise toReplace newString matchCase inConditions
          inActions inEventStrings subEvents (eventsList ++ [i]) 0
    · intro a ha b hb
      have ha2 : a = eventsList ++ [i] := by
        split at ha
        · simpa using ha
        · simp at ha
      cases canHaveSubEvents with
      | false => simp at hb
      | true =>
        simp only [if_true] at hb
        obtain ⟨m, below, _, hb2⟩ := mem_ModifiedEventsAddressesFrom toReplace newString
          matchCase inConditions inActions inEventStrings subEvents (eventsList ++ [i]) 0
          b hb
        rw [ha2, hb2]
        exact ⟨PrecedesOrEqual_extension _ _,
          PrecedesOrEqual_of_extension _ _ (List.cons_ne_nil _ _)⟩
/-- The addresses listed for the events of a list come in strict pre-order:
none is listed twice. -/
theorem ModifiedEventsAddressesFrom_pairwise (toReplace newString : String)
    (matchCase inConditions inActions inEventStrings : Bool) :
    ∀ (events : List BaseEvent) (eventsList : List Nat) (i : Nat),
      List.Pairwise (fun a b => PrecedesOrEqual a b = true ∧ PrecedesOrEqual b a = false)
        (ModifiedEventsAddressesFrom toReplace newString matchCase inConditions inActions
          inEventStrings eventsList i events)
  | [], eventsList, i => by
    rw [ModifiedEventsAddressesFrom]
    exact List.Pairwise.nil
  | event :: rest, eventsList, i => by
    rw [ModifiedEventsAddressesFrom, List.pairwise_append]
    refine ⟨ModifiedEventAddresses_pairwise toReplace newString matchCase inConditions
        inActions inEventStrings event eventsList i,
      ModifiedEventsAddressesFrom_pairwise toReplace newString matchCase inConditions
        inActions inEventStrings rest eventsList (i + 1), ?_⟩
    intro a ha b hb
    obtain ⟨n, after, hn, hb2⟩ := mem_ModifiedEventsAddressesFrom toReplace newString
      matchCase inConditions inActions inEventStrings rest eventsList (i + 1) b hb
    rcases mem_ModifiedEventAddresses toReplace newString matchCase inConditions inActions
      inEventStrings event eventsList i a ha with ha2 | ⟨m, below, ha2⟩
    · rw [ha2, hb2]
      exact PrecedesOrEqual_sibling eventsList i n [] after (by omega)
    · rw [ha2, hb2, List.append_assoc]
      exact PrecedesOrEqual_sibling eventsList i n (m :: below) after (by omega)
end

/-- The search for an empty text from a position of the context finds it at
that position. -/
theorem FindCaseInsensitive_empty (context : List Char) (lookHere : Nat)
    (h : lookHere ≤ context.length) :
    GdString.FindCaseInsensitive context [] lookHere = some lookHere := by
  unfold GdString.FindCaseInsensitive
  rw [if_pos h]
  cases context.drop lookHere with
  | nil => rfl
  | cons c rest => rfl

/-- The loop of the case-insensitive replacement never exits on an empty search
text: whatever the fuel, it runs out. -/
theorem ReplaceAllOccurrencesCaseInsensitiveLoop_empty (toText : List Char) :
    ∀ (fuel : Nat) (context : List Char) (lookHere : Nat), lookHere ≤ context.length →
      ReplaceAllOccurrencesCaseInsensitiveLoop [] toText fuel context lookHere = none
  | 0, _, _, _ => by rw [ReplaceAllOccurrencesCaseInsensitiveLoop]
  | fuel + 1, context, lookHere, h => by
    rw [ReplaceAllOccurrencesCaseInsensitiveLoop, FindCaseInsensitive_empty context lookHere h]
    simp only []
    apply ReplaceAllOccurrencesCaseInsensitiveLoop_empty toText fuel
    simp only [GdString.replace, List.length_append, List.length_take, List.length_drop,
      List.length_nil]
    omega

/-- C24: `ReplaceStringInEvents` with an empty search text is a guarded no-op.
For every event tree, replacement text and flags, the call with the empty
`toReplace` returns an empty result list and the events as they were, so every
parameter and every searchable string is unchanged. The guard is what makes the
call return: on an empty search text the loop of the case-insensitive
replacement never exits, whatever the number of iterations it is given, and the
event loop entered without the guard has no outcome on the scenario event. -/
theorem ReplaceStringInEvents_empty_search_text :
    (∀ (events : List BaseEvent) (newString : String)
        (matchCase inConditions inActions inEventStrings : Bool) (eventsList : List Nat),
      ReplaceStringInEvents events "" newString matchCase inConditions inActions
        inEventStrings eventsList = some ([], events)) ∧
    (∀ (fuel : Nat) (context toText : List Char),
      ReplaceAllOccurrencesCaseInsensitiveLoop [] toText fuel context 0 = none) ∧
    ReplaceStringInEventsFrom "" "Hero" false true true true [] 0 [scenarioEvent] = none := by
  refine ⟨?_, ?_, by rfl⟩
  · intro events newString matchCase inConditions inActions inEventStrings eventsList
    unfold ReplaceStringInEvents
    rw [if_pos rfl]
  · intro fuel context toText
    exact ReplaceAllOccurrencesCaseInsensitiveLoop_empty toText fuel context 0
      (Nat.zero_le _)

/-- The event at a position of the list reached by a path is the event at the
address made of the path and the position. -/
theorem EventAt_eq_EventAtAddress : ∀ (path : List Nat) (events : List BaseEvent)
    (index : Nat), EventAt events path index = EventAtAddress events (path ++ [index])
  | [], events, index => by
    simp only [EventAt, SubEventsAt, List.nil_append, EventAtAddress]
  | k :: path, events, index => by
    have ih := fun subEvents => EventAt_eq_EventAtAddress path subEvents index
    have hcons : ∃ next rest, path ++ [index] = next :: rest := by
      cases path with
      | nil => exact ⟨index, [], rfl⟩
      | cons p ps => exact ⟨p, ps ++ [index], rfl⟩
    obtain ⟨next, rest, hpath⟩ := hcons
    rw [List.cons_append, hpath, EventAtAddress]
    unfold EventAt at ih ⊢
    rw [SubEventsAt]
    cases events[k]? with
    | none => rfl
    | some event =>
      simp only []
      by_cases hcan : event.CanHaveSubEvents = true
      · rw [if_pos hcan, if_pos hcan, ← hpath]
        exact ih _
      · rw [if_neg hcan, if_neg hcan]

/-- The address is counted in the one-step listing: once when it is listed,
never when it is not. -/
theorem count_listing (address own : List Nat) (flag : Bool) :
    List.count address (if flag = true then [own] else []) =
      if address = own then flag.toNat else 0 := by
  cases flag
  · simp
  · by_cases h : address = own
    · simp [h]
    · have h2 : ¬ own = address := fun h3 => h h3.symm
      simp [h, h2]

mutual
/-- The number of times an address at or below an event is listed for the
event. -/
theorem count_ModifiedEventAddresses (toReplace newString : String)
    (matchCase inConditions inActions inEventStrings : Bool) :
    ∀ (event : BaseEvent) (eventsList : List Nat) (i : Nat) (rest : List Nat),
      List.count (eventsList ++ i :: rest)
          (ModifiedEventAddresses toReplace newString matchCase inConditions inActions
            inEventStrings eventsList i event) =
        ModifiedEventCount toReplace newString matchCase inConditions inActions
          inEventStrings [event] (0 :: rest)
  | .mk conditionsVectors actionsVectors searchableStrings expressionsWithMetadata
      canHaveSubEvents subEvents, eventsList, i, rest => by
    rw [ModifiedEventAddresses, List.count_append, count_listing]
    cases rest with
    | nil =>
      have hsub : List.count (eventsList ++ [i])
          (if canHaveSubEvents = true then
            ModifiedEventsAddressesFrom toReplace newString matchCase inConditions inActions
              inEventStrings (eventsList ++ [i]) 0 subEvents
          else []) = 0 := by
        rw [List.count_eq_zero]
        intro hmem
        cases canHaveSubEvents with
        | false => simp at hmem
        | true =>
          simp only [if_true] at hmem
          obtain ⟨m, below, _, haddr⟩ := mem_ModifiedEventsAddressesFrom toReplace newString
            matchCase inConditions inActions inEventStrings subEvents (eventsList ++ [i]) 0
            _ hmem
          have hlen := congrArg List.length haddr
          simp only [List.length_append, List.length_cons, List.length_nil] at hlen
          omega
      rw [hsub, if_pos rfl]
      simp [ModifiedEventCount, EventAtAddress]
    | cons next rest =>
      have hne : ¬ eventsList ++ i :: next :: rest = eventsList ++ [i] := by
        intro h
        have hlen := congrArg List.length h
        simp only [List.length_append, List.length_cons, List.length_nil] at hlen
        omega
      rw [if_neg hne, Nat.zero_add]
      cases canHaveSubEvents with
      | false => simp [ModifiedEventCount, EventAtAddress, BaseEvent.CanHaveSubEvents]
      | true =>
        have ih := count_ModifiedEventsAddressesFrom toReplace newString matchCase
          inConditions inActions inEventStrings subEvents (eventsList ++ [i]) 0 next rest
        rw [Nat.zero_add, List.append_assoc] at ih
        simp only [if_true]
        rw [show eventsList ++ i :: next :: rest = eventsList ++ ([i] ++ next :: rest) from rfl,
          ih]
        simp [ModifiedEventCount, EventAtAddress, BaseEvent.CanHaveSubEvents,
          BaseEvent.GetSubEvents]
/-- The number of times an address at or below an event of the list is listed
for the events of the list. -/
theorem count_ModifiedEventsAddressesFrom (toReplace newString : String)
    (matchCase inConditions inActions inEventStrings : Bool) :
    ∀ (events : List BaseEvent) (eventsList : List Nat) (i k : Nat) (rest : List Nat),
      List.count (eventsList ++ (i + k) :: rest)
          (ModifiedEventsAddressesFrom toReplace newString matchCase inConditions inActions
            inEventStrings eventsList i events) =
        ModifiedEventCount toReplace newString matchCase inConditions inActions
          inEventStrings events (k :: rest)
  | [], eventsList, i, k, rest => by
    rw [ModifiedEventsAddressesFrom]
    cases rest <;> simp [ModifiedEventCount, EventAtAddress]
  | event :: tail, eventsList, i, k, rest => by
    rw [ModifiedEventsAddressesFrom, List.count_append]
    cases k with
    | zero =>
      have htail : List.count (eventsList ++ (i + 0) :: rest)
          (ModifiedEventsAddressesFrom toReplace newString matchCase inConditions inActions
            inEventStrings eventsList (i + 1) tail) = 0 := by
        rw [List.count_eq_zero]
        intro hmem
        obtain ⟨m, below, hm, haddr⟩ := mem_ModifiedEventsAddressesFrom toReplace newString
          matchCase inConditions inActions inEventStrings tail eventsList (i + 1) _ hmem
        have hhead := List.append_cancel_left haddr
        simp only [List.cons.injEq] at hhead
        omega
      rw [htail, Nat.add_zero, Nat.add_zero,
        count_ModifiedEventAddresses toReplace newString matchCase inConditions inActions
          inEventStrings event eventsList i rest]
      cases rest <;> simp [ModifiedEventCount, EventAtAddress]
    | succ k =>
      have hhead : List.count (eventsList ++ (i + (k + 1)) :: rest)
          (ModifiedEventAddresses toReplace newString matchCase inConditions inActions
            inEventStrings eventsList i event) = 0 := by
        rw [List.count_eq_zero]
        intro hmem
        rcases mem_ModifiedEventAddresses toReplace newString matchCase inConditions
          inActions inEventStrings event eventsList i _ hmem with haddr | ⟨m, below, haddr⟩
        · have hcancel := List.append_cancel_left haddr
          simp only [List.cons.injEq] at hcancel
          omega
        · rw [List.append_assoc] at haddr
          have hcancel := List.append_cancel_left haddr
          simp only [List.singleton_append, List.cons.injEq] at hcancel
          omega
      have ih := count_ModifiedEventsAddressesFrom toReplace newString matchCase
        inConditions inActions inEventStrings tail eventsList (i + 1) k rest
      have hindex : i + 1 + k = i + (k + 1) := by omega
      rw [hindex] at ih
      rw [hhead, ih, Nat.zero_add]
      cases rest <;> simp [ModifiedEventCount, EventAtAddress]
end

/-- C25: `ReplaceStringInEvents` lists each modified event at most once per
level and in pre-order. For every event tree and non-empty search text the call
returns, and the addresses of the entries it returns are: for each event of the
list in order, the address of the event, once, when a participating check
reported a modification (whatever the number of condition vectors, action
vectors and checks that did), and not at all otherwise, followed by the
addresses listed in the same way for its sub-events when it declares sub-event
support, all before those of the next sibling. So every event of the tree has
exactly one entry when a participating check reported a modification of it and
none otherwise, and the entries come in strict pre-order of the addresses. -/
theorem ReplaceStringInEvents_lists_modified_events_once (events : List BaseEvent)
    (toReplace newString : String) (matchCase inConditions inActions inEventStrings : Bool)
    (hne : toReplace ≠ "") :
    ∃ (modifiedEvents : List EventsSearchResult) (after : List BaseEvent),
      ReplaceStringInEvents events toReplace newString matchCase inConditions inActions
        inEventStrings [] = some (modifiedEvents, after) ∧
      modifiedEvents.map EventsSearchResult.Address =
        ModifiedEventsAddressesFrom toReplace newString matchCase inConditions inActions
          inEventStrings [] 0 events ∧
      (∀ (path : List Nat) (index : Nat) (event : BaseEvent),
        EventAt events path index = some event →
        (modifiedEvents.map EventsSearchResult.Address).count (path ++ [index]) =
          if ReportsModification toReplace newString matchCase inConditions inActions
            inEventStrings event = true then 1 else 0) ∧
      List.Pairwise (fun a b => PrecedesOrEqual a.Address b.Address = true ∧
          PrecedesOrEqual b.Address a.Address = false) modifiedEvents := by
  obtain ⟨r, hr, haddr⟩ := ReplaceStringInEventsFrom_addresses toReplace newString matchCase
    inConditions inActions inEventStrings hne events [] 0
  refine ⟨r.1, r.2, ?_, haddr, ?_, ?_⟩
  · unfold ReplaceStringInEvents
    rw [if_neg hne, hr]
  · intro path index event hat
    have hcons : ∃ k rest, path ++ [index] = k :: rest := by
      cases path with
      | nil => exact ⟨index, [], rfl⟩
      | cons p ps => exact ⟨p, ps ++ [index], rfl⟩
    obtain ⟨k, rest, hpath⟩ := hcons
    have hcount := count_ModifiedEventsAddressesFrom toReplace newString matchCase
      inConditions inActions inEventStrings events [] 0 k rest
    rw [List.nil_append, Nat.zero_add, ← hpath] at hcount
    rw [haddr, hcount, ModifiedEventCount, ← EventAt_eq_EventAtAddress, hat]
    simp only []
    cases ReportsModification toReplace newString matchCase inConditions inActions
      inEventStrings event <;> rfl
  · have hpair := ModifiedEventsAddressesFrom_pairwise toReplace newString matchCase
      inConditions inActions inEventStrings events [] 0
    rw [← haddr, List.pairwise_map] at hpair
    exact hpair

/-- C25 on two events, for the replacement of "Player" by "Hero" in conditions,
actions and event strings. The first event has two condition vectors, an action
vector and a searchable string that are all modified, and the scenario event as
its sub-event; the second has nothing to modify and holds the scenario event
without declaring sub-event support. The entries are one for the first event
and one for its sub-event. -/
theorem ReplaceStringInEvents_lists_modified_events_once_witness :
    "Player" ≠ "" ∧
    (ReplaceStringInEvents
        [BaseEvent.mk
          [[Instruction.mk "Collision" ["Player", "Wall"] []],
            [Instruction.mk "Collision" ["Player", "Rock"] []]]
          [[Instruction.mk "Delete" ["Player"] []]] ["Player enters"] [] true
          [scenarioEvent],
         BaseEvent.mk [] [[Instruction.mk "Delete" ["Enemy"] []]] ["Nothing"] [] false
          [scenarioEvent]]
        "Player" "Hero" true true true true []).map
        (fun r => r.1.map EventsSearchResult.Address) = some [[0], [0, 0]] ∧
    ∃ (modifiedEvents : List EventsSearchResult) (after : List BaseEvent),
      ReplaceStringInEvents
        [BaseEvent.mk
          [[Instruction.mk "Collision" ["Player", "Wall"] []],
            [Instruction.mk "Collision" ["Player", "Rock"] []]]
          [[Instruction.mk "Delete" ["Player"] []]] ["Player enters"] [] true
          [scenarioEvent],
         BaseEvent.mk [] [[Instruction.mk "Delete" ["Enemy"] []]] ["Nothing"] [] false
          [scenarioEvent]]
        "Player" "Hero" true true true true [] = some (modifiedEvents, after) ∧
      List.Pairwise (fun a b => PrecedesOrEqual a.Address b.Address = true ∧
          PrecedesOrEqual b.Address a.Address = false) modifiedEvents :=
  ⟨by decide, by rfl,
    (ReplaceStringInEvents_lists_modified_events_once _ "Player" "Hero" true true true true
      (by decide)).imp (fun _ h => h.imp (fun _ h2 => ⟨h2.1, h2.2.2.2⟩))⟩

end gd
